import Mathlib

/-!
# bucko: bottom-up computation of sparse and iceberg cubes

A shallow embedding of `src/bucko.cpp` / `src/bucko.h` and a verification of
its cube engine, partitioner and dimension orderer.

Conventions of the embedding

* `int` values are mathematical integers (`Int`); container sizes, loop
  counters that start at zero and iterators are natural numbers.  An iterator
  into the tuple vector is its offset from `input.begin()`.  The loader reads
  the number of tuples into an `int`, so the size of a range is within `int`
  and the cast `(DataType)distance(begin, end)` does not change it.
* The global variables of the program that change during a run, together with
  the tuple vector that is reordered in place, form the record `State`.
* A failed `assert`, an out-of-range `operator[]` and the dereference of an
  iterator that is not dereferenceable stop the run.  They are modelled by
  `Except.error st`, where `st` is the state at the moment of the fault, so
  that what was written before the fault is still visible.
* The sum `C+1` in `vector<int> dataCount(C+1)` is computed in `int`.  For
  `C = INT_MAX = 2147483647` it overflows, and for `C < -1` it is negative: in
  both cases the constructor is asked for a size it cannot allocate and throws,
  which stops the run like a fault.  Otherwise the vector has `C+1` zeroed
  slots.
* `std::stable_sort` is modelled by a stable insertion sort.
-/

namespace Bucko

/-! ## Data model (`bucko.h`) -/

/-- The type `DataType` of the values of a tuple is `int`. -/
abbrev DataType := Int
abbrev Tuple := List Int
abbrev TupleVector := List Tuple

/-- Cell of the output record: `struct Count`. -/
structure Count where
  count : Int
  isAll : Bool
deriving DecidableEq, Repr

/-- The dummy variable that represents "ALL": `Count ALL(0, true)`. -/
def ALL : Count := ⟨0, true⟩

/-- The converting constructor `Count(int cnt, bool allPred = false)` used by
`g_outputRec[d] = (*k)[d]`. -/
def Count.ofData (cnt : Int) : Count := ⟨cnt, false⟩

/-- One line of `out.1`: the output record and the aggregate written with it. -/
abbrev Emission := List Count × Int

/-- The mutable globals of the program and the tuple vector. -/
structure State where
  input : TupleVector
  g_outputRec : List Count
  outfile1 : List Emission
  cuboidCount : List (String × Int)
deriving DecidableEq, Repr

/-- Outcome of a procedure: the state on return, or the state at a fault. -/
abbrev Run := Except State State

/-- The state an outcome ends in, whether it returned or stopped at a fault. -/
def Run.final : Run → State
  | .ok s => s
  | .error s => s

/-! ## `std::stable_sort` -/

/-- Insert `a` into a list: behind the leading elements that go before it
under the strict comparison `comp`, in front of the first element that does
not. -/
def stableInsert {α : Type} (comp : α → α → Bool) (a : α) : List α → List α
  | [] => [a]
  | b :: l => if comp b a then b :: stableInsert comp a l else a :: b :: l

/-- A stable sort with respect to the strict comparison `comp`
(`comp x y` means that `x` goes before `y`): the head of the list, which comes
before every other element, is inserted in front of the elements equivalent to
it. -/
def stable_sort {α : Type} (comp : α → α → Bool) : List α → List α
  | [] => []
  | a :: l => stableInsert comp a (stable_sort comp l)

/-! ## Dimension orderer -/

/-- The comparison `pair_greater`. -/
def pair_greater (lhs rhs : Int × Nat) : Bool := decide (lhs.1 > rhs.1)

/-- The first loop of `order_dimensions`: `make_pair(cardinalities[i], i)`. -/
def cardinalityPairs (cardinalities : Tuple) : List (Int × Nat) :=
  (List.range cardinalities.length).map (fun i => (cardinalities.getD i 0, i))

/-- The procedure `order_dimensions`: the value it leaves in
`g_dimensionIndices`. -/
def order_dimensions (cardinalities : Tuple) : List Nat :=
  (stable_sort pair_greater (cardinalityPairs cardinalities)).map Prod.snd

/-! ## Partitioner -/

/-- The comparison `tuple_less_than(dim)`; it is applied to tuples that have a
value at `dim` only. -/
def tuple_less_than (dim : Nat) (lhs rhs : Tuple) : Bool :=
  decide (lhs.getD dim 0 < rhs.getD dim 0)

/-- The counting loop of `partition_input` over the tuples of the range;
`none` when an assertion fails or an index is out of range. -/
def countLoop (dim : Nat) (cardinality : Int) : List Tuple → List Int → Option (List Int)
  | [], dataCount => some dataCount
  | t :: ts, dataCount =>
    match t[dim]? with
    | none => none
    | some data =>
      if data < 0 then none
      else if ¬ (data < cardinality + 1) then none
      else
        match dataCount[data.toNat]? with
        | none => none
        | some c => countLoop dim cardinality ts (dataCount.set data.toNat (c + 1))

/-- The tuples of the range `[begin, end)`. -/
def slice (input : TupleVector) (begin end_ : Nat) : List Tuple :=
  (input.drop begin).take (end_ - begin)

/-- Replace the tuples of the range `[begin, end)`. -/
def setSlice (input : TupleVector) (begin end_ : Nat) (l : List Tuple) : TupleVector :=
  input.take begin ++ l ++ input.drop end_

/-- The procedure `partition_input`: sorts the range in place and returns the
bucket counts. -/
def partition_input (begin end_ : Nat) (dim : Nat) (cardinality : Int)
    (dataCount : List Int) (s : State) : Except State (State × List Int) :=
  if (dataCount.length : Int) ≠ cardinality + 1 then .error s
  else if ¬ (slice s.input begin end_).all (fun t => decide (dim < t.length)) then .error s
  else
    let sorted := stable_sort (tuple_less_than dim) (slice s.input begin end_)
    let s1 : State := { s with input := setSlice s.input begin end_ sorted }
    match countLoop dim cardinality sorted dataCount with
    | none => .error s1
    | some dataCount1 => .ok (s1, dataCount1)

/-! ## Aggregate sink and cuboid recorder -/

/-- The procedure `write_outputRec(aggregate, outfile1)`. -/
def write_outputRec (aggregate : Int) (s : State) : State :=
  { s with outfile1 := s.outfile1 ++ [(s.g_outputRec, aggregate)] }

/-- The loop of `count_cuboid` that names the cuboid: one letter per cell
that is not ALL (`'a' + i`, as a `char`). -/
def cuboidIdFrom : Nat → List Count → List Char
  | _, [] => []
  | i, c :: cs =>
    if !c.isAll then Char.ofNat ((97 + i) % 256) :: cuboidIdFrom (i + 1) cs
    else cuboidIdFrom (i + 1) cs

/-- The cuboid name of an output record. -/
def cuboidId (outputRec : List Count) : String := String.mk (cuboidIdFrom 0 outputRec)

/-- The statement `cuboidCount[cuboidId]++` on the ordered map. -/
def mapIncr (key : String) : List (String × Int) → List (String × Int)
  | [] => [(key, 1)]
  | (k, v) :: m =>
    if key = k then (k, v + 1) :: m
    else if key < k then (key, 1) :: (k, v) :: m
    else (k, v) :: mapIncr key m

/-- The procedure `count_cuboid`. -/
def count_cuboid (s : State) : State :=
  if cuboidId s.g_outputRec ≠ "" then
    { s with cuboidCount := mapIncr (cuboidId s.g_outputRec) s.cuboidCount }
  else s

/-! ## Cube engine -/

/-- The statement `g_outputRec[d] = c`. -/
def setOutputRec (d : Nat) (c : Count) (s : State) : Run :=
  if d < s.g_outputRec.length then .ok { s with g_outputRec := s.g_outputRec.set d c }
  else .error s

/-- The first statements of `bottom_up_cube`: the aggregate of the range is
written with the output record and the cuboid is counted. -/
def aggregateInput (begin end_ : Nat) (s : State) : State :=
  count_cuboid (write_outputRec ((end_ : Int) - (begin : Int)) s)

/-- The loop `for (int i=0; i <= C; i++)` of `bottom_up_cube`; `n` is the
number of iterations left, `recur` is the recursive call. -/
def bucketLoop (g_minsup : Int) (recur : Nat → Nat → State → Run) (d : Nat)
    (dataCount : List Int) : Nat → Nat → Nat → State → Run
  | 0, _, _, s => .ok s
  | n + 1, i, k, s =>
    match dataCount[i]? with
    | none => .error s
    | some c =>
      if c ≥ g_minsup then
        match s.input[k]? with
        | none => .error s
        | some t =>
          match t[d]? with
          | none => .error s
          | some v =>
            match setOutputRec d (Count.ofData v) s with
            | .error s1 => .error s1
            | .ok s1 =>
              match recur k (k + c.toNat) s1 with
              | .error s2 => .error s2
              | .ok s2 => bucketLoop g_minsup recur d dataCount n (i + 1) (k + c.toNat) s2
      else bucketLoop g_minsup recur d dataCount n (i + 1) (k + c.toNat) s

/-- The loop `for (int dIndex = dim; dIndex < numDims; dIndex++)` of
`bottom_up_cube`; the first argument is `numDims - dIndex`, the number of
iterations left.  The recursive call `bottom_up_cube(.., dIndex+1, k, k + c)`
is the aggregation of `[k, k + c)` followed by this loop from `dIndex+1`.
The count vector `dataCount(C+1)` cannot be made when `C+1` is negative or
exceeds `INT_MAX = 2147483647`, where the `int` sum overflows. -/
def dimensionLoop (g_minsup : Int) (g_dimensionIndices : List Nat) (cardinalities : Tuple) :
    Nat → Nat → Nat → Nat → State → Run
  | 0, _, _, _, s => .ok s
  | rem + 1, dIndex, begin, end_, s =>
    match g_dimensionIndices[dIndex]? with
    | none => .error s
    | some d =>
      match cardinalities[d]? with
      | none => .error s
      | some C =>
        if C + 1 < 0 ∨ 2147483647 < C + 1 then .error s
        else
          match partition_input begin end_ d C (List.replicate (C + 1).toNat 0) s with
          | .error s1 => .error s1
          | .ok (s1, dataCount) =>
            match bucketLoop g_minsup
                (fun k e st => dimensionLoop g_minsup g_dimensionIndices cardinalities rem
                  (dIndex + 1) k e (aggregateInput k e st))
                d dataCount (C + 1).toNat 0 begin s1 with
            | .error s2 => .error s2
            | .ok s2 =>
              match setOutputRec d ALL s2 with
              | .error s3 => .error s3
              | .ok s3 =>
                dimensionLoop g_minsup g_dimensionIndices cardinalities rem
                  (dIndex + 1) begin end_ s3

/-- The procedure `bottom_up_cube` on the range `[begin, end)` from position
`dim` of the dimension order. -/
def bottom_up_cube (g_minsup : Int) (g_dimensionIndices : List Nat) (cardinalities : Tuple)
    (dim : Nat) (begin end_ : Nat) (s : State) : Run :=
  if ¬ (dim ≤ cardinalities.length) then .error s
  else
    dimensionLoop g_minsup g_dimensionIndices cardinalities (cardinalities.length - dim)
      dim begin end_ (aggregateInput begin end_ s)

/-- The state `main` sets up before the cube is computed: the dataset as
loaded, the output record `vector<Count>(numDims, ALL)`, nothing written. -/
def initialState (input : TupleVector) (cardinalities : Tuple) : State :=
  { input := input
    g_outputRec := List.replicate cardinalities.length ALL
    outfile1 := []
    cuboidCount := [] }

/-- The computation of `main` after the data is read: the dimensions are
ordered and `bottom_up_cube(input, cardinalities, 0, input.begin(), input.end())`
runs from the initial state with minimum support `minsup`. -/
def runCube (input : TupleVector) (cardinalities : Tuple) (minsup : Int) : Run :=
  bottom_up_cube minsup (order_dimensions cardinalities) cardinalities 0 0 input.length
    (initialState input cardinalities)

/-- The pairs (output record, aggregate) the run has written, in order. -/
def emitted (input : TupleVector) (cardinalities : Tuple) (minsup : Int) : List Emission :=
  (runCube input cardinalities minsup).final.outfile1

/-! ## Notions the properties are stated with -/

/-- A tuple is valid for a cardinality vector: it has one value per dimension
and its value at dimension `d` lies in `[0, cardinality[d]]`. -/
def validTuple : Tuple → Tuple → Bool
  | [], [] => true
  | v :: t, C :: cardinalities =>
    decide (0 ≤ v) && decide (v ≤ C) && validTuple t cardinalities
  | _, _ => false

/-- A dataset is valid when each of its tuples is. -/
def validDataset (input : TupleVector) (cardinalities : Tuple) : Bool :=
  input.all (fun t => validTuple t cardinalities)

/-- A tuple agrees with an output record: at every dimension where the record
holds a concrete value, the tuple holds that value. -/
def agrees (outputRec : List Count) (t : Tuple) : Bool :=
  (List.range outputRec.length).all (fun i =>
    match outputRec[i]? with
    | some c => c.isAll || decide (t[i]? = some c.count)
    | none => true)

/-- The number of tuples of a dataset that agree with an output record. -/
def support (input : TupleVector) (outputRec : List Count) : Nat :=
  (input.filter (agrees outputRec)).length

/-- A group-by combination over `n` dimensions: a record with one cell per
dimension, each cell the ALL of the program or a concrete value. -/
def isCombination (n : Nat) (outputRec : List Count) : Bool :=
  decide (outputRec.length = n) && outputRec.all (fun c => decide (c = ALL) || !c.isAll)

/-- The record holds a concrete value at some dimension. -/
def hasConcrete (outputRec : List Count) : Bool :=
  outputRec.any (fun c => !c.isAll)

/-- The record `r1` refines the record `r`: it has the same number of cells
and holds, wherever `r` holds a concrete value, the same cell. -/
def refines (r1 r : List Count) : Bool :=
  decide (r1.length = r.length) && (List.range r.length).all (fun i =>
    match r[i]? with
    | some c => c.isAll || decide (r1[i]? = some c)
    | none => true)

/-- The tuples of a list whose value at dimension `d` is `v`, in their order. -/
def bucket (d : Nat) (v : Int) (l : List Tuple) : List Tuple :=
  l.filter (fun t => decide (t.getD d 0 = v))

/-- What the cube engine writes for the bucket of value `v` at dimension `d`
of a node: nothing when the bucket is below the minimum support, else the
record with `d` set to `v`, the size of the bucket and what `below` gives for
the bucket. -/
def bucketOut (g_minsup : Int) (below : List Count → List Tuple → List Emission)
    (d : Nat) (outputRec : List Count) (l : List Tuple) (v : Nat) : List Emission :=
  if ((bucket d (v : Int) l).length : Int) ≥ g_minsup then
    (outputRec.set d (Count.ofData (v : Int)), ((bucket d (v : Int) l).length : Int)) ::
      below (outputRec.set d (Count.ofData (v : Int))) (bucket d (v : Int) l)
  else []

/-- What the cube engine writes below a node, as a function of the tuples of
the node: for each remaining dimension in turn and each value in increasing
order, the bucket that reaches the minimum support and, recursively, what is
written below it. -/
def cubeBelow (g_minsup : Int) (cardinalities : Tuple) :
    List Nat → List Count → List Tuple → List Emission
  | [], _, _ => []
  | d :: dims, outputRec, l =>
    (List.range (cardinalities.getD d 0 + 1).toNat).flatMap
        (bucketOut g_minsup (cubeBelow g_minsup cardinalities dims) d outputRec l)
      ++ cubeBelow g_minsup cardinalities dims outputRec l

/-- The cuboid counts after the records of a list of emissions are counted. -/
def recordAll (es : List Emission) (cuboidCount : List (String × Int)) : List (String × Int) :=
  es.foldl (fun m p => if cuboidId p.1 ≠ "" then mapIncr (cuboidId p.1) m else m) cuboidCount

/-- The count the recorder holds for a cuboid name: the value of the entry of
the map with that key, 0 when the map has no such entry. -/
def recorded (cuboidCount : List (String × Int)) (key : String) : Int :=
  (cuboidCount.lookup key).getD 0

/-- What is said of an outcome of the cube engine on the range that holds the
tuples `L` between `P` and `Q`: in the state it ends in, the range holds a
permutation of `L` and the rest of the vector is as before, the output record
has the length `len`, and when `okPre` holds the outcome is a return. -/
def FramePost (r : Run) (len : Nat) (P L Q : List Tuple) (okPre : Prop) : Prop :=
  (∃ D, r.final.input = P ++ D ++ Q ∧ D.Perm L)
    ∧ r.final.g_outputRec.length = len ∧ (okPre → ∃ s1, r = .ok s1)

/-! ## The cube engine with a check at each call -/

/-- The dimension loop with a check at the entry of each recursive call, for
stating what holds whenever a call is entered.  It is `dimensionLoop` with two
additions: `path` lists the dimensions that the enclosing calls have fixed,
and the recursive call is made only when `chk` holds of the start index and
path of the call, the range of the caller, the range of the call and the
output record at the entry of the call; otherwise the run stops there. -/
def dimensionLoopChecked (chk : Nat → List Nat → Nat → Nat → Nat → Nat → List Count → Bool)
    (g_minsup : Int) (g_dimensionIndices : List Nat) (cardinalities : Tuple) :
    Nat → Nat → List Nat → Nat → Nat → State → Run
  | 0, _, _, _, _, s => .ok s
  | rem + 1, dIndex, path, begin, end_, s =>
    match g_dimensionIndices[dIndex]? with
    | none => .error s
    | some d =>
      match cardinalities[d]? with
      | none => .error s
      | some C =>
        if C + 1 < 0 ∨ 2147483647 < C + 1 then .error s
        else
          match partition_input begin end_ d C (List.replicate (C + 1).toNat 0) s with
          | .error s1 => .error s1
          | .ok (s1, dataCount) =>
            match bucketLoop g_minsup
                (fun k e st =>
                  if chk (dIndex + 1) (d :: path) begin end_ k e st.g_outputRec then
                    dimensionLoopChecked chk g_minsup g_dimensionIndices cardinalities rem
                      (dIndex + 1) (d :: path) k e (aggregateInput k e st)
                  else .error st)
                d dataCount (C + 1).toNat 0 begin s1 with
            | .error s2 => .error s2
            | .ok s2 =>
              match setOutputRec d ALL s2 with
              | .error s3 => .error s3
              | .ok s3 =>
                dimensionLoopChecked chk g_minsup g_dimensionIndices cardinalities rem
                  (dIndex + 1) path begin end_ s3

/-- The procedure `bottom_up_cube` with the check `chk` at the entry of this
call and of each recursive call; the caller of this call is taken to have the
same range. -/
def bottom_up_cubeChecked (chk : Nat → List Nat → Nat → Nat → Nat → Nat → List Count → Bool)
    (g_minsup : Int) (g_dimensionIndices : List Nat) (cardinalities : Tuple)
    (dim : Nat) (path : List Nat) (begin end_ : Nat) (s : State) : Run :=
  if ¬ (dim ≤ cardinalities.length) then .error s
  else if ¬ (chk dim path begin end_ begin end_ s.g_outputRec = true) then .error s
  else
    dimensionLoopChecked chk g_minsup g_dimensionIndices cardinalities
      (cardinalities.length - dim) dim path begin end_ (aggregateInput begin end_ s)

/-- The run of `main` with the check `chk` at the entry of each call. -/
def runCubeChecked (chk : Nat → List Nat → Nat → Nat → Nat → Nat → List Count → Bool)
    (input : TupleVector) (cardinalities : Tuple) (minsup : Int) : Run :=
  bottom_up_cubeChecked chk minsup (order_dimensions cardinalities) cardinalities 0 [] 0
    input.length (initialState input cardinalities)

/-- The invariant of the output record at the entry of a call with start index
`dim`, when the enclosing calls have fixed the dimensions of `path`: a cell is
concrete exactly when its dimension is in `path`, the cells of the dimensions
at the positions from `dim` on in the dimension order hold ALL, and at most
`dim` cells are concrete. -/
def recordInvariant (g_dimensionIndices : List Nat) (dim : Nat) (path : List Nat)
    (outputRec : List Count) : Bool :=
  (List.range outputRec.length).all (fun i =>
      match outputRec[i]? with
      | some c => (!c.isAll) == decide (i ∈ path)
      | none => true)
    && (g_dimensionIndices.drop dim).all (fun d => decide (outputRec[d]? = some ALL))
    && decide (outputRec.countP (fun c => !c.isAll) ≤ dim)

/-- The check of the calls for termination: the start index is at most the
number of dimensions `n`, the number of enclosing calls that fixed a dimension
is at most the start index, and the range `[k, e1)` of the call lies in the
range `[b, e)` of its caller. -/
def callInvariant (n : Nat) (dim : Nat) (path : List Nat) (b e k e1 : Nat) : Bool :=
  decide (dim ≤ n) && decide (path.length ≤ dim)
    && decide (b ≤ k) && decide (k ≤ e1) && decide (e1 ≤ e)

/-- The invariant of the output record as a proposition: a cell is concrete
exactly when its dimension is in `path`, and the cells of the dimensions at the
positions from `dim` on in the dimension order hold ALL. -/
def RecordInv (g_dimensionIndices : List Nat) (dim : Nat) (path : List Nat)
    (outputRec : List Count) : Prop :=
  (∀ (i : Nat) (c : Count), outputRec[i]? = some c → (c.isAll = false ↔ i ∈ path))
    ∧ ∀ d ∈ g_dimensionIndices.drop dim, outputRec[d]? = some ALL

/-! ## The cube engine with the kind of each fault -/

/-- What can stop a run: an `assert` that fails, an index or iterator access
out of range, or a count vector `dataCount(C+1)` that cannot be made. -/
inductive Fault where
  | assertion
  | access
  | allocation
deriving DecidableEq, Repr

/-- Outcome of a procedure with the kind of the fault, when it stops at one. -/
abbrev RunKind := Except (Fault × State) State

/-- The outcome without the kind of the fault. -/
def eraseFault {α : Type} : Except (Fault × State) α → Except State α
  | .ok a => .ok a
  | .error (_, s) => .error s

/-- The counting loop of `partition_input` with the kind of each fault: the
read `t[dim]` and the increment `dataCount[data]++` are accesses, the two
`assert`s are assertions. -/
def countLoopKind (dim : Nat) (cardinality : Int) :
    List Tuple → List Int → Except Fault (List Int)
  | [], dataCount => .ok dataCount
  | t :: ts, dataCount =>
    match t[dim]? with
    | none => .error Fault.access
    | some data =>
      if data < 0 then .error Fault.assertion
      else if ¬ (data < cardinality + 1) then .error Fault.assertion
      else
        match dataCount[data.toNat]? with
        | none => .error Fault.access
        | some c => countLoopKind dim cardinality ts (dataCount.set data.toNat (c + 1))

/-- The procedure `partition_input` with the kind of each fault: the size of
the count vector is an `assert`, the reads `t[dim]` of the comparison of the
sort are accesses. -/
def partition_inputKind (begin end_ : Nat) (dim : Nat) (cardinality : Int)
    (dataCount : List Int) (s : State) : Except (Fault × State) (State × List Int) :=
  if (dataCount.length : Int) ≠ cardinality + 1 then .error (Fault.assertion, s)
  else if ¬ (slice s.input begin end_).all (fun t => decide (dim < t.length)) then
    .error (Fault.access, s)
  else
    let sorted := stable_sort (tuple_less_than dim) (slice s.input begin end_)
    let s1 : State := { s with input := setSlice s.input begin end_ sorted }
    match countLoopKind dim cardinality sorted dataCount with
    | .error f => .error (f, s1)
    | .ok dataCount1 => .ok (s1, dataCount1)

/-- The statement `g_outputRec[d] = c` with the kind of its fault. -/
def setOutputRecKind (d : Nat) (c : Count) (s : State) : RunKind :=
  if d < s.g_outputRec.length then .ok { s with g_outputRec := s.g_outputRec.set d c }
  else .error (Fault.access, s)

/-- The loop `for (int i=0; i <= C; i++)` of `bottom_up_cube` with the kind of
each fault: `dataCount[i]`, `*k`, `(*k)[d]` and `g_outputRec[d]` are
accesses. -/
def bucketLoopKind (g_minsup : Int) (recur : Nat → Nat → State → RunKind) (d : Nat)
    (dataCount : List Int) : Nat → Nat → Nat → State → RunKind
  | 0, _, _, s => .ok s
  | n + 1, i, k, s =>
    match dataCount[i]? with
    | none => .error (Fault.access, s)
    | some c =>
      if c ≥ g_minsup then
        match s.input[k]? with
        | none => .error (Fault.access, s)
        | some t =>
          match t[d]? with
          | none => .error (Fault.access, s)
          | some v =>
            match setOutputRecKind d (Count.ofData v) s with
            | .error s1 => .error s1
            | .ok s1 =>
              match recur k (k + c.toNat) s1 with
              | .error s2 => .error s2
              | .ok s2 => bucketLoopKind g_minsup recur d dataCount n (i + 1) (k + c.toNat) s2
      else bucketLoopKind g_minsup recur d dataCount n (i + 1) (k + c.toNat) s

/-- The dimension loop of `bottom_up_cube` with the kind of each fault:
`g_dimensionIndices[dIndex]` and `cardinalities[d]` are accesses, and the
count vector `dataCount(C+1)` that cannot be made is an allocation fault. -/
def dimensionLoopKind (g_minsup : Int) (g_dimensionIndices : List Nat)
    (cardinalities : Tuple) : Nat → Nat → Nat → Nat → State → RunKind
  | 0, _, _, _, s => .ok s
  | rem + 1, dIndex, begin, end_, s =>
    match g_dimensionIndices[dIndex]? with
    | none => .error (Fault.access, s)
    | some d =>
      match cardinalities[d]? with
      | none => .error (Fault.access, s)
      | some C =>
        if C + 1 < 0 ∨ 2147483647 < C + 1 then .error (Fault.allocation, s)
        else
          match partition_inputKind begin end_ d C (List.replicate (C + 1).toNat 0) s with
          | .error s1 => .error s1
          | .ok (s1, dataCount) =>
            match bucketLoopKind g_minsup
                (fun k e st => dimensionLoopKind g_minsup g_dimensionIndices cardinalities rem
                  (dIndex + 1) k e (aggregateInput k e st))
                d dataCount (C + 1).toNat 0 begin s1 with
            | .error s2 => .error s2
            | .ok s2 =>
              match setOutputRecKind d ALL s2 with
              | .error s3 => .error s3
              | .ok s3 =>
                dimensionLoopKind g_minsup g_dimensionIndices cardinalities rem
                  (dIndex + 1) begin end_ s3

/-- The procedure `bottom_up_cube` with the kind of each fault: the bound on
the start index is an `assert`. -/
def bottom_up_cubeKind (g_minsup : Int) (g_dimensionIndices : List Nat)
    (cardinalities : Tuple) (dim : Nat) (begin end_ : Nat) (s : State) : RunKind :=
  if ¬ (dim ≤ cardinalities.length) then .error (Fault.assertion, s)
  else
    dimensionLoopKind g_minsup g_dimensionIndices cardinalities (cardinalities.length - dim)
      dim begin end_ (aggregateInput begin end_ s)

/-! ## Facts about the stable sort -/

section StableSort

variable {α : Type} (comp : α → α → Bool) (key : α → Int)

theorem stableInsert_perm (a : α) (l : List α) : (stableInsert comp a l).Perm (a :: l) := by
  induction l with
  | nil => simp [stableInsert]
  | cons b l ih =>
    simp only [stableInsert]
    split
    · exact (List.Perm.cons b ih).trans (List.Perm.swap a b l)
    · exact List.Perm.refl _

theorem stable_sort_perm (l : List α) : (stable_sort comp l).Perm l := by
  induction l with
  | nil => simp [stable_sort]
  | cons a l ih =>
    simp only [stable_sort]
    exact (stableInsert_perm comp a _).trans (List.Perm.cons a ih)

theorem stableInsert_filter_pos (hcomp : ∀ a b, comp a b = decide (key a < key b))
    (a : α) (l : List α) :
    (stableInsert comp a l).filter (fun x => decide (key x = key a))
      = a :: l.filter (fun x => decide (key x = key a)) := by
  induction l with
  | nil => simp [stableInsert]
  | cons b l ih =>
    simp only [stableInsert]
    split
    · rename_i h
      rw [hcomp] at h
      have hne : key b ≠ key a := by
        have := of_decide_eq_true h
        omega
      simp [List.filter_cons, hne, ih]
    · simp [List.filter_cons]

theorem stableInsert_filter_neg (p : α → Bool) (a : α) (l : List α) (hp : p a = false) :
    (stableInsert comp a l).filter p = l.filter p := by
  induction l with
  | nil => simp [stableInsert, hp]
  | cons b l ih =>
    simp only [stableInsert]
    split
    · simp [List.filter_cons, ih]
    · simp [List.filter_cons, hp]

/-- Stability: the elements of one key keep their order. -/
theorem stable_sort_filter (hcomp : ∀ a b, comp a b = decide (key a < key b))
    (v : Int) (l : List α) :
    (stable_sort comp l).filter (fun x => decide (key x = v))
      = l.filter (fun x => decide (key x = v)) := by
  induction l with
  | nil => simp [stable_sort]
  | cons a l ih =>
    simp only [stable_sort]
    by_cases h : key a = v
    · subst h
      rw [stableInsert_filter_pos comp key hcomp, ih]
      simp [List.filter_cons]
    · rw [stableInsert_filter_neg comp _ a _ (by simp [h]), ih]
      simp [List.filter_cons, h]

theorem stableInsert_sorted (hcomp : ∀ a b, comp a b = decide (key a < key b))
    (a : α) (l : List α) (hl : l.Pairwise (fun x y => key x ≤ key y)) :
    (stableInsert comp a l).Pairwise (fun x y => key x ≤ key y) := by
  induction l with
  | nil => simp [stableInsert]
  | cons b l ih =>
    simp only [stableInsert]
    rw [List.pairwise_cons] at hl
    split
    · rename_i h
      rw [hcomp] at h
      have hlt := of_decide_eq_true h
      rw [List.pairwise_cons]
      refine ⟨?_, ih hl.2⟩
      intro x hx
      have hx1 := (List.Perm.mem_iff (stableInsert_perm comp a l)).1 hx
      rw [List.mem_cons] at hx1
      rcases hx1 with hx1 | hx1
      · subst hx1; omega
      · exact hl.1 x hx1
    · rename_i h
      rw [hcomp] at h
      have hge : key a ≤ key b := by
        have : ¬ key b < key a := by simpa using h
        omega
      rw [List.pairwise_cons]
      refine ⟨?_, List.pairwise_cons.2 hl⟩
      intro x hx
      simp at hx
      rcases hx with hx | hx
      · subst hx; exact hge
      · have := hl.1 x hx; omega

/-- The result of the sort is ordered by key. -/
theorem stable_sort_sorted (hcomp : ∀ a b, comp a b = decide (key a < key b))
    (l : List α) : (stable_sort comp l).Pairwise (fun x y => key x ≤ key y) := by
  induction l with
  | nil => simp [stable_sort]
  | cons a l ih => exact stableInsert_sorted comp key hcomp a _ ih

theorem stableInsert_append_right (hcomp : ∀ a b, comp a b = decide (key a < key b))
    (a : α) (xs ys : List α) (hys : ∀ y ∈ ys, key a < key y) :
    stableInsert comp a (xs ++ ys) = stableInsert comp a xs ++ ys := by
  induction xs with
  | nil =>
    cases ys with
    | nil => simp [stableInsert]
    | cons y ys =>
      have := hys y (by simp)
      have hc : comp y a = false := by rw [hcomp]; simp; omega
      simp [stableInsert, hc]
  | cons b xs ih =>
    simp only [List.cons_append, stableInsert]
    split
    · simp [ih]
    · simp

theorem stableInsert_append_left (hcomp : ∀ a b, comp a b = decide (key a < key b))
    (a : α) (xs ys : List α) (hxs : ∀ x ∈ xs, key x < key a) (hys : ∀ y ∈ ys, key a ≤ key y) :
    stableInsert comp a (xs ++ ys) = xs ++ a :: ys := by
  induction xs with
  | nil =>
    cases ys with
    | nil => simp [stableInsert]
    | cons y ys =>
      have := hys y (by simp)
      have hc : comp y a = false := by rw [hcomp]; simp; omega
      simp [stableInsert, hc]
  | cons b xs ih =>
    have hb := hxs b (by simp)
    have hc : comp b a = true := by rw [hcomp]; simp; omega
    have ih1 := ih (fun x hx => hxs x (by simp [hx]))
    simp only [List.cons_append, stableInsert, hc, if_true]
    exact congrArg (List.cons b) ih1

/-- The buckets of a list: for each key `0, 1, .., n-1` in turn, the elements
of that key in their order. -/
theorem stableInsert_buckets (hcomp : ∀ a b, comp a b = decide (key a < key b))
    (a : α) (l : List α) (n : Nat) (ha0 : 0 ≤ key a) (han : key a < n) :
    stableInsert comp a ((List.range n).flatMap
        (fun v => l.filter (fun x => decide (key x = (v : Int)))))
      = (List.range n).flatMap
        (fun v => (a :: l).filter (fun x => decide (key x = (v : Int)))) := by
  induction n with
  | zero => omega
  | succ n ih =>
    rw [List.range_succ, List.flatMap_append, List.flatMap_append]
    simp only [List.flatMap_cons, List.flatMap_nil, List.append_nil]
    by_cases hk : key a = (n : Int)
    · rw [stableInsert_append_left comp key hcomp]
      · have h1 : (List.range n).flatMap
            (fun v => (a :: l).filter (fun x => decide (key x = (v : Int))))
            = (List.range n).flatMap
            (fun v => l.filter (fun x => decide (key x = (v : Int)))) := by
          apply List.flatMap_congr
          intro v hv
          have : v < n := List.mem_range.1 hv
          have hne : key a ≠ (v : Int) := by omega
          simp [List.filter_cons, hne]
        rw [h1]
        simp [List.filter_cons, hk]
      · intro x hx
        simp only [List.mem_flatMap, List.mem_range, List.mem_filter, decide_eq_true_eq] at hx
        obtain ⟨v, hv, _, hxv⟩ := hx
        omega
      · intro y hy
        simp only [List.mem_filter, decide_eq_true_eq] at hy
        omega
    · have hlt : key a < (n : Int) := by push_cast at han; omega
      rw [stableInsert_append_right comp key hcomp]
      · rw [ih hlt]
        simp [List.filter_cons, hk]
      · intro y hy
        simp only [List.mem_filter, decide_eq_true_eq] at hy
        omega

theorem stable_sort_buckets (hcomp : ∀ a b, comp a b = decide (key a < key b))
    (l : List α) (n : Nat) (hl : ∀ a ∈ l, 0 ≤ key a ∧ key a < n) :
    stable_sort comp l
      = (List.range n).flatMap (fun v => l.filter (fun x => decide (key x = (v : Int)))) := by
  induction l with
  | nil => simp [stable_sort]
  | cons a l ih =>
    simp only [stable_sort]
    rw [ih (fun x hx => hl x (by simp [hx]))]
    exact stableInsert_buckets comp key hcomp a l n (hl a (by simp)).1 (hl a (by simp)).2

end StableSort

/-! ## Ranges of the tuple vector -/

theorem slice_append (P L Q : List Tuple) :
    slice (P ++ L ++ Q) P.length (P.length + L.length) = L := by
  simp [slice, List.append_assoc]

theorem setSlice_append (P L Q L1 : List Tuple) :
    setSlice (P ++ L ++ Q) P.length (P.length + L.length) L1 = P ++ L1 ++ Q := by
  have h : P.length + L.length = (P ++ L).length := by simp
  have h1 : (P ++ L ++ Q).drop (P.length + L.length) = Q := by rw [h, List.drop_left]
  have h2 : (P ++ L ++ Q).take P.length = P := by rw [List.append_assoc, List.take_left]
  rw [setSlice, h1, h2]

/-- Every range of the tuple vector splits the vector in three. -/
theorem split_range (input : TupleVector) (b e : Nat) (hbe : b ≤ e) (he : e ≤ input.length) :
    input = input.take b ++ slice input b e ++ input.drop e
      ∧ (input.take b).length = b ∧ (slice input b e).length = e - b := by
  refine ⟨?_, ?_, ?_⟩
  · have h1 : input.drop e = (input.drop b).drop (e - b) := by
      rw [List.drop_drop]; congr 1; omega
    rw [slice, h1, List.append_assoc, List.take_append_drop, List.take_append_drop]
  · simp; omega
  · simp [slice]; omega

/-! ## Valid tuples -/

theorem validTuple_length : ∀ (t cardinalities : Tuple),
    validTuple t cardinalities = true → t.length = cardinalities.length
  | [], [], _ => rfl
  | [], _ :: _, h => by simp [validTuple] at h
  | _ :: _, [], h => by simp [validTuple] at h
  | v :: t, C :: cs, h => by
    simp only [validTuple, Bool.and_eq_true] at h
    simp [validTuple_length t cs h.2]

theorem validTuple_get : ∀ (t cardinalities : Tuple), validTuple t cardinalities = true →
    ∀ (d : Nat) (C : Int), cardinalities[d]? = some C → ∃ v, t[d]? = some v ∧ 0 ≤ v ∧ v ≤ C
  | [], [], _, d, C, hC => by simp at hC
  | [], _ :: _, h, _, _, _ => by simp [validTuple] at h
  | _ :: _, [], h, _, _, _ => by simp [validTuple] at h
  | v :: t, C0 :: cs, h, d, C, hC => by
    simp only [validTuple, Bool.and_eq_true, decide_eq_true_eq] at h
    cases d with
    | zero =>
      simp only [List.getElem?_cons_zero, Option.some.injEq] at hC
      subst hC
      exact ⟨v, by simp, h.1.1, h.1.2⟩
    | succ d =>
      simp only [List.getElem?_cons_succ] at hC
      obtain ⟨w, hw, h0, h1⟩ := validTuple_get t cs h.2 d C hC
      exact ⟨w, by simpa using hw, h0, h1⟩

/-! ## The partitioner -/

theorem bucket_cons (d : Nat) (v : Int) (t : Tuple) (l : List Tuple) :
    bucket d v (t :: l) = if t.getD d 0 = v then t :: bucket d v l else bucket d v l := by
  simp only [bucket, List.filter_cons]
  by_cases h : t.getD d 0 = v <;> simp [h]

/-- The counting loop adds to each slot the number of tuples with that value. -/
theorem countLoop_eq (d : Nat) (C : Int) (N : Nat) (hN : (N : Int) = C + 1) :
    ∀ (ts : List Tuple) (dataCount : List Int), dataCount.length = N →
      (∀ t ∈ ts, ∃ v, t[d]? = some v ∧ 0 ≤ v ∧ v ≤ C) →
      countLoop d C ts dataCount
        = some ((List.range N).map
            (fun (v : Nat) => dataCount.getD v 0 + ((bucket d (v : Int) ts).length : Int)))
  | [], dataCount, hlen, _ => by
    simp only [countLoop, bucket, List.filter_nil, List.length_nil, Nat.cast_zero, add_zero,
      Option.some.injEq]
    apply List.ext_getElem
    · simp [hlen]
    · intro i h1 h2
      simp [List.getD_eq_getElem?_getD, List.getElem?_eq_getElem h1]
  | t :: ts, dataCount, hlen, hts => by
    obtain ⟨v, hv, h0, h1⟩ := hts t (by simp)
    have hvN : v.toNat < N := by omega
    have hvlen : v.toNat < dataCount.length := by omega
    have hget : dataCount[v.toNat]? = some dataCount[v.toNat] := List.getElem?_eq_getElem hvlen
    have hkey : t.getD d 0 = v := by simp [List.getD_eq_getElem?_getD, hv]
    simp only [countLoop, hv, hget]
    rw [if_neg (by omega), if_neg (by omega)]
    rw [countLoop_eq d C N hN ts _ (by simp [hlen]) (fun x hx => hts x (by simp [hx]))]
    congr 1
    apply List.map_congr_left
    intro w hw
    rw [bucket_cons, hkey]
    by_cases hwv : v = (w : Int)
    · have hw2 : v.toNat = w := by omega
      subst hw2
      rw [if_pos hwv]
      simp [List.getD_eq_getElem?_getD, hvlen]
      omega
    · have hw2 : v.toNat ≠ w := by omega
      simp [hwv, List.getD_eq_getElem?_getD, List.getElem?_set_ne hw2]

theorem tuple_less_than_key (d : Nat) (a b : Tuple) :
    tuple_less_than d a b
      = decide ((fun t : Tuple => t.getD d 0) a < (fun t : Tuple => t.getD d 0) b) := rfl

/-- On a range of valid tuples and with a zeroed count vector of `C + 1`
slots, `partition_input` returns: the range holds the buckets of its former
contents one after the other, the counts are the bucket sizes. -/
theorem partition_input_ok (d : Nat) (C : Int) (N : Nat) (hN : (N : Int) = C + 1)
    (s : State) (P L Q : List Tuple) (hin : s.input = P ++ L ++ Q)
    (hL : ∀ t ∈ L, ∃ v, t[d]? = some v ∧ 0 ≤ v ∧ v ≤ C) :
    partition_input P.length (P.length + L.length) d C (List.replicate N 0) s
      = .ok ({ s with input := P ++ (List.range N).flatMap (fun (v : Nat) => bucket d (v : Int) L) ++ Q },
          (List.range N).map (fun (v : Nat) => ((bucket d (v : Int) L).length : Int))) := by
  have hkeys : ∀ t ∈ L, 0 ≤ (fun t : Tuple => t.getD d 0) t
      ∧ (fun t : Tuple => t.getD d 0) t < (N : Int) := by
    intro t ht
    obtain ⟨v, hv, h0, h1⟩ := hL t ht
    simp only [List.getD_eq_getElem?_getD, hv, Option.getD_some]
    omega
  have hsort : stable_sort (tuple_less_than d) L
      = (List.range N).flatMap (fun (v : Nat) => bucket d (v : Int) L) :=
    stable_sort_buckets (tuple_less_than d) (fun t : Tuple => t.getD d 0)
      (tuple_less_than_key d) L N hkeys
  have hall : L.all (fun t => decide (d < t.length)) = true := by
    rw [List.all_eq_true]
    intro t ht
    obtain ⟨v, hv, _, _⟩ := hL t ht
    have := (List.getElem?_eq_some_iff.1 hv).1
    simpa using this
  have hcount : countLoop d C (stable_sort (tuple_less_than d) L) (List.replicate N 0)
      = some ((List.range N).map (fun (v : Nat) => ((bucket d (v : Int) L).length : Int))) := by
    rw [countLoop_eq d C N hN _ _ (by simp)]
    · congr 1
      apply List.map_congr_left
      intro w hw
      have hw' : w < N := List.mem_range.1 hw
      have hst : bucket d (w : Int) (stable_sort (tuple_less_than d) L) = bucket d (w : Int) L :=
        stable_sort_filter (tuple_less_than d) (fun t : Tuple => t.getD d 0)
          (tuple_less_than_key d) (w : Int) L
      rw [hst]
      simp [List.getD_eq_getElem?_getD, hw']
    · intro t ht
      exact hL t ((List.Perm.mem_iff (stable_sort_perm _ L)).1 ht)
  unfold partition_input
  rw [if_neg (by simp [hN]), hin, slice_append, if_neg (by simp [hall])]
  rw [hsort] at hcount
  simp only [setSlice_append, hsort, hcount]

/-! ## The aggregate sink and the recorder -/

theorem recordAll_append (a b : List Emission) (m : List (String × Int)) :
    recordAll (a ++ b) m = recordAll b (recordAll a m) := by
  simp [recordAll, List.foldl_append]

theorem aggregateInput_input (b e : Nat) (s : State) : (aggregateInput b e s).input = s.input := by
  unfold aggregateInput count_cuboid write_outputRec
  split <;> rfl

theorem aggregateInput_outputRec (b e : Nat) (s : State) :
    (aggregateInput b e s).g_outputRec = s.g_outputRec := by
  unfold aggregateInput count_cuboid write_outputRec
  split <;> rfl

theorem aggregateInput_outfile1 (b e : Nat) (s : State) :
    (aggregateInput b e s).outfile1 = s.outfile1 ++ [(s.g_outputRec, (e : Int) - (b : Int))] := by
  unfold aggregateInput count_cuboid write_outputRec
  split <;> rfl

theorem aggregateInput_cuboidCount (b e : Nat) (s : State) :
    (aggregateInput b e s).cuboidCount
      = recordAll [(s.g_outputRec, (e : Int) - (b : Int))] s.cuboidCount := by
  unfold aggregateInput count_cuboid write_outputRec recordAll
  simp only [List.foldl_cons, List.foldl_nil]
  split <;> rfl

/-! ## What is written below a node does not depend on the order of its tuples -/

theorem bucket_perm (d : Nat) (v : Int) {l l1 : List Tuple} (h : l.Perm l1) :
    (bucket d v l).Perm (bucket d v l1) :=
  List.Perm.filter _ h

theorem bucket_mem {d : Nat} {v : Int} {l : List Tuple} {t : Tuple} (h : t ∈ bucket d v l) :
    t ∈ l ∧ t.getD d 0 = v := by
  simpa [bucket] using h

theorem cubeBelow_perm (g_minsup : Int) (cardinalities : Tuple) :
    ∀ (dims : List Nat) (outputRec : List Count) (l l1 : List Tuple), l.Perm l1 →
      cubeBelow g_minsup cardinalities dims outputRec l
        = cubeBelow g_minsup cardinalities dims outputRec l1
  | [], _, _, _, _ => rfl
  | d :: dims, outputRec, l, l1, h => by
    simp only [cubeBelow]
    rw [cubeBelow_perm g_minsup cardinalities dims outputRec l l1 h]
    congr 1
    apply List.flatMap_congr
    intro v _
    have hb := bucket_perm d (v : Int) h
    simp only [bucketOut, hb.length_eq]
    rw [cubeBelow_perm g_minsup cardinalities dims _ _ _ hb]

/-! ## The cube engine on valid data -/

theorem set_eq_of_set_ALL {r r0 : List Count} {d : Nat} (h : r.set d ALL = r0.set d ALL)
    (x : Count) : r.set d x = r0.set d x := by
  have h1 := congrArg (fun l => l.set d x) h
  simpa [List.set_set] using h1

theorem length_eq_of_set_ALL {r r0 : List Count} {d : Nat} (h : r.set d ALL = r0.set d ALL) :
    r.length = r0.length := by
  have h1 := congrArg List.length h
  simpa using h1

/-- The bucket loop on a partitioned range, given what the recursive call does
on a bucket that reaches the minimum support. -/
theorem bucketLoop_ok (g_minsup : Int) (hmin : 1 ≤ g_minsup) (recur : Nat → Nat → State → Run)
    (d : Nat) (L : List Tuple) (N : Nat) (rec0 : List Count)
    (below : List Count → List Tuple → List Emission) (Q : List Tuple)
    (hL : ∀ t ∈ L, ∃ v, t[d]? = some v) (hd : d < rec0.length)
    (hrec : ∀ (v : Nat) (st : State) (P1 Q1 : List Tuple), v < N →
      g_minsup ≤ ((bucket d (v : Int) L).length : Int) →
      st.input = P1 ++ bucket d (v : Int) L ++ Q1 →
      st.g_outputRec = rec0.set d (Count.ofData (v : Int)) →
      ∃ st1 L1, recur P1.length (P1.length + (bucket d (v : Int) L).length) st = .ok st1
        ∧ st1.input = P1 ++ L1 ++ Q1 ∧ L1.Perm (bucket d (v : Int) L)
        ∧ st1.g_outputRec = st.g_outputRec
        ∧ st1.outfile1 = st.outfile1 ++ bucketOut g_minsup below d rec0 L v
        ∧ st1.cuboidCount = recordAll (bucketOut g_minsup below d rec0 L v) st.cuboidCount) :
    ∀ (n i : Nat) (s : State) (P : List Tuple), i + n = N →
      s.input = P ++ (List.range' i n).flatMap (fun (v : Nat) => bucket d (v : Int) L) ++ Q →
      s.g_outputRec.set d ALL = rec0.set d ALL →
      ∃ s1 D, bucketLoop g_minsup recur d
            ((List.range N).map (fun (v : Nat) => ((bucket d (v : Int) L).length : Int)))
            n i P.length s = .ok s1
        ∧ s1.input = P ++ D ++ Q
        ∧ D.Perm ((List.range' i n).flatMap (fun (v : Nat) => bucket d (v : Int) L))
        ∧ s1.g_outputRec.set d ALL = rec0.set d ALL
        ∧ s1.outfile1 = s.outfile1 ++ (List.range' i n).flatMap (bucketOut g_minsup below d rec0 L)
        ∧ s1.cuboidCount
            = recordAll ((List.range' i n).flatMap (bucketOut g_minsup below d rec0 L))
                s.cuboidCount := by
  intro n
  induction n with
  | zero =>
    intro i s P _ hin hrec0
    refine ⟨s, [], ?_, ?_, ?_, hrec0, ?_, ?_⟩
    · simp [bucketLoop]
    · simpa using hin
    · simp
    · simp
    · simp [recordAll]
  | succ n ih =>
    intro i s P hi hin hrec0
    have hiN : i < N := by omega
    have hcount : ((List.range N).map (fun (v : Nat) => ((bucket d (v : Int) L).length : Int)))[i]?
        = some ((bucket d (i : Int) L).length : Int) := by
      simp [List.getElem?_map, List.getElem?_range hiN]
    have hsplit : (List.range' i (n + 1)).flatMap (fun (v : Nat) => bucket d (v : Int) L)
        = bucket d (i : Int) L
          ++ (List.range' (i + 1) n).flatMap (fun (v : Nat) => bucket d (v : Int) L) := by
      simp [List.range'_succ]
    have hsplitE : (List.range' i (n + 1)).flatMap (bucketOut g_minsup below d rec0 L)
        = bucketOut g_minsup below d rec0 L i
          ++ (List.range' (i + 1) n).flatMap (bucketOut g_minsup below d rec0 L) := by
      simp [List.range'_succ]
    rw [hsplit] at hin
    simp only [bucketLoop, hcount, Int.toNat_ofNat]
    by_cases hc : ((bucket d (i : Int) L).length : Int) ≥ g_minsup
    · rw [if_pos hc]
      -- the bucket is not empty and its first tuple is at `k`
      obtain ⟨t, tl, htl⟩ : ∃ t tl, bucket d (i : Int) L = t :: tl := by
        cases hb : bucket d (i : Int) L with
        | nil => rw [hb] at hc; simp at hc; omega
        | cons t tl => exact ⟨t, tl, rfl⟩
      have htmem : t ∈ bucket d (i : Int) L := by rw [htl]; simp
      obtain ⟨htL, htkey⟩ := bucket_mem htmem
      obtain ⟨v, hv⟩ := hL t htL
      have hvi : v = (i : Int) := by
        rw [List.getD_eq_getElem?_getD, hv] at htkey
        simpa using htkey
      subst hvi
      have hk : s.input[P.length]? = some t := by
        rw [hin, htl, List.append_assoc, List.getElem?_append_right (Nat.le_refl _)]
        simp
      have hlen := length_eq_of_set_ALL hrec0
      simp only [hk, hv, setOutputRec]
      rw [if_pos (by omega)]
      simp only []
      obtain ⟨st1, L1, hrun, hin1, hperm1, hrec1, hout1, hcub1⟩ :=
        hrec i { s with g_outputRec := s.g_outputRec.set d (Count.ofData (i : Int)) } P
          ((List.range' (i + 1) n).flatMap (fun (v : Nat) => bucket d (v : Int) L) ++ Q)
          hiN hc (by rw [hin]; simp [List.append_assoc])
          (set_eq_of_set_ALL hrec0 _)
      rw [hrun]
      simp only []
      obtain ⟨s2, D2, hrun2, hin2, hperm2, hrec2, hout2, hcub2⟩ :=
        ih (i + 1) st1 (P ++ L1) (by omega) (by rw [hin1]; simp [List.append_assoc])
          (by rw [hrec1]; simp [List.set_set]; exact hrec0)
      have hlenP : (P ++ L1).length = P.length + (bucket d (i : Int) L).length := by
        simp [hperm1.length_eq]
      rw [hlenP] at hrun2
      refine ⟨s2, L1 ++ D2, hrun2, ?_, ?_, hrec2, ?_, ?_⟩
      · rw [hin2]; simp [List.append_assoc]
      · rw [hsplit]; exact List.Perm.append hperm1 hperm2
      · rw [hout2, hout1, hsplitE]; simp [List.append_assoc]
      · rw [hcub2, hcub1, hsplitE, recordAll_append]
    · rw [if_neg hc]
      obtain ⟨s2, D2, hrun2, hin2, hperm2, hrec2, hout2, hcub2⟩ :=
        ih (i + 1) s (P ++ bucket d (i : Int) L) (by omega)
          (by rw [hin]; simp [List.append_assoc]) hrec0
      have hlenP : (P ++ bucket d (i : Int) L).length
          = P.length + (bucket d (i : Int) L).length := by simp
      rw [hlenP] at hrun2
      have hE : bucketOut g_minsup below d rec0 L i = [] := by
        simp only [bucketOut]; rw [if_neg hc]
      refine ⟨s2, bucket d (i : Int) L ++ D2, hrun2, ?_, ?_, hrec2, ?_, ?_⟩
      · rw [hin2]; simp [List.append_assoc]
      · rw [hsplit]; exact List.Perm.append (List.Perm.refl _) hperm2
      · rw [hout2, hsplitE, hE]; simp
      · rw [hcub2, hsplitE, hE]; simp

theorem set_self_of_getElem? {r : List Count} {d : Nat} {c : Count} (h : r[d]? = some c) :
    r.set d c = r := by
  apply List.ext_getElem?
  intro i
  by_cases hi : d = i
  · subst hi
    obtain ⟨hlt, _⟩ := List.getElem?_eq_some_iff.1 h
    rw [List.getElem?_set_self hlt, h]
  · rw [List.getElem?_set_ne hi]

/-- The buckets of a list of valid tuples, one after the other, hold the
tuples of the list. -/
theorem buckets_perm (d : Nat) (C : Int) (N : Nat) (hN : (N : Int) = C + 1) (L : List Tuple)
    (hL : ∀ t ∈ L, ∃ v, t[d]? = some v ∧ 0 ≤ v ∧ v ≤ C) :
    ((List.range N).flatMap (fun (v : Nat) => bucket d (v : Int) L)).Perm L := by
  have hkeys : ∀ t ∈ L, 0 ≤ (fun t : Tuple => t.getD d 0) t
      ∧ (fun t : Tuple => t.getD d 0) t < (N : Int) := by
    intro t ht
    obtain ⟨v, hv, h0, h1⟩ := hL t ht
    simp only [List.getD_eq_getElem?_getD, hv, Option.getD_some]
    omega
  have hsort : stable_sort (tuple_less_than d) L
      = (List.range N).flatMap (fun (v : Nat) => bucket d (v : Int) L) :=
    stable_sort_buckets (tuple_less_than d) (fun t : Tuple => t.getD d 0)
      (tuple_less_than_key d) L N hkeys
  rw [← hsort]
  exact stable_sort_perm _ L

/-- The dimension loop on a range of valid tuples: it returns, the range is
permuted, the output record is as before, and what was written is `cubeBelow`
of the tuples of the range. -/
theorem dimensionLoop_ok (g_minsup : Int) (hmin : 1 ≤ g_minsup) (g_dimensionIndices : List Nat)
    (cardinalities : Tuple) :
    ∀ (rem dIndex : Nat) (s : State) (P L Q : List Tuple),
      dIndex + rem = g_dimensionIndices.length →
      (g_dimensionIndices.drop dIndex).Nodup →
      (∀ d ∈ g_dimensionIndices.drop dIndex,
        s.g_outputRec[d]? = some ALL ∧ ∃ C, cardinalities[d]? = some C ∧ -1 ≤ C ∧ C < 2147483647) →
      (∀ t ∈ L, validTuple t cardinalities = true) →
      s.input = P ++ L ++ Q →
      ∃ s1 L1, dimensionLoop g_minsup g_dimensionIndices cardinalities rem dIndex
            P.length (P.length + L.length) s = .ok s1
        ∧ s1.input = P ++ L1 ++ Q ∧ L1.Perm L ∧ s1.g_outputRec = s.g_outputRec
        ∧ s1.outfile1 = s.outfile1
            ++ cubeBelow g_minsup cardinalities (g_dimensionIndices.drop dIndex) s.g_outputRec L
        ∧ s1.cuboidCount
            = recordAll
                (cubeBelow g_minsup cardinalities (g_dimensionIndices.drop dIndex) s.g_outputRec L)
                s.cuboidCount := by
  intro rem
  induction rem with
  | zero =>
    intro dIndex s P L Q hlen _ _ _ hin
    have hdrop : g_dimensionIndices.drop dIndex = [] := by
      apply List.drop_eq_nil_of_le; omega
    refine ⟨s, L, ?_, hin, List.Perm.refl _, rfl, ?_, ?_⟩
    · simp [dimensionLoop]
    · simp [hdrop, cubeBelow]
    · simp [hdrop, cubeBelow, recordAll]
  | succ rem ih =>
    intro dIndex s P L Q hlen hnodup hdims hvalid hin
    have hlt : dIndex < g_dimensionIndices.length := by omega
    have hdrop : g_dimensionIndices.drop dIndex
        = g_dimensionIndices[dIndex] :: g_dimensionIndices.drop (dIndex + 1) :=
      List.drop_eq_getElem_cons hlt
    have hget : g_dimensionIndices[dIndex]? = some g_dimensionIndices[dIndex] :=
      List.getElem?_eq_getElem hlt
    generalize g_dimensionIndices[dIndex] = d at hdrop hget
    rw [hdrop] at hnodup hdims
    obtain ⟨hdnot, hnodup1⟩ := List.nodup_cons.1 hnodup
    obtain ⟨hdALL, C, hC, hC1⟩ := hdims d (by simp)
    have hdlen : d < s.g_outputRec.length := (List.getElem?_eq_some_iff.1 hdALL).1
    have hCD : cardinalities.getD d 0 = C := by simp [List.getD_eq_getElem?_getD, hC]
    obtain ⟨N, hNdef⟩ : ∃ N : Nat, N = (C + 1).toNat := ⟨_, rfl⟩
    have hN : (N : Int) = C + 1 := by omega
    have hLd : ∀ t ∈ L, ∃ v, t[d]? = some v ∧ 0 ≤ v ∧ v ≤ C :=
      fun t ht => validTuple_get t cardinalities (hvalid t ht) d C hC
    have hpart := partition_input_ok d C N hN s P L Q hin hLd
    simp only [dimensionLoop, hget, hC]
    rw [if_neg (by omega), ← hNdef, hpart]
    simp only []
    -- the bucket loop
    have hloop := bucketLoop_ok g_minsup hmin
      (fun k e st => dimensionLoop g_minsup g_dimensionIndices cardinalities rem
        (dIndex + 1) k e (aggregateInput k e st))
      d L N s.g_outputRec
      (cubeBelow g_minsup cardinalities (g_dimensionIndices.drop (dIndex + 1))) Q
      (fun t ht => by obtain ⟨v, hv, _⟩ := hLd t ht; exact ⟨v, hv⟩) hdlen
      (by
        intro v st P1 Q1 _ hc hst hrecst
        obtain ⟨st1, L1, hrun, hin1, hperm1, hrec1, hout1, hcub1⟩ :=
          ih (dIndex + 1) (aggregateInput P1.length (P1.length + (bucket d (v : Int) L).length) st)
            P1 (bucket d (v : Int) L) Q1 (by omega) hnodup1
            (by
              intro d1 hd1
              have hne : d ≠ d1 := fun h => hdnot (h ▸ hd1)
              obtain ⟨h1, h2⟩ := hdims d1 (by simp [hd1])
              refine ⟨?_, h2⟩
              rw [aggregateInput_outputRec, hrecst, List.getElem?_set_ne hne]
              exact h1)
            (fun t ht => hvalid t (bucket_mem ht).1)
            (by rw [aggregateInput_input]; exact hst)
        have hagg : ((P1.length + (bucket d (v : Int) L).length : Nat) : Int) - (P1.length : Int)
            = ((bucket d (v : Int) L).length : Int) := by
          push_cast; omega
        have hE : bucketOut g_minsup
            (cubeBelow g_minsup cardinalities (g_dimensionIndices.drop (dIndex + 1)))
            d s.g_outputRec L v
            = [(st.g_outputRec, ((bucket d (v : Int) L).length : Int))]
              ++ cubeBelow g_minsup cardinalities (g_dimensionIndices.drop (dIndex + 1))
                  st.g_outputRec (bucket d (v : Int) L) := by
          simp only [bucketOut]
          rw [if_pos hc, hrecst]
          rfl
        refine ⟨st1, L1, hrun, hin1, hperm1, ?_, ?_, ?_⟩
        · rw [hrec1, aggregateInput_outputRec]
        · rw [hout1, aggregateInput_outfile1, aggregateInput_outputRec, hagg, hE,
            List.append_assoc]
        · rw [hcub1, aggregateInput_cuboidCount, aggregateInput_outputRec, hagg, hE,
            recordAll_append])
      N 0
      { s with input := P ++ (List.range N).flatMap (fun (v : Nat) => bucket d (v : Int) L) ++ Q }
      P (by omega) (by simp [List.range_eq_range']) rfl
    obtain ⟨s2, D, hrun2, hin2, hperm2, hrec2, hout2, hcub2⟩ := hloop
    rw [hrun2]
    simp only [setOutputRec]
    rw [if_pos (by rw [length_eq_of_set_ALL hrec2]; exact hdlen)]
    simp only []
    have hDL : D.Perm L := by
      refine hperm2.trans ?_
      rw [← List.range_eq_range']
      exact buckets_perm d C N hN L hLd
    have hrec3 : s2.g_outputRec.set d ALL = s.g_outputRec := by
      rw [hrec2]; exact set_self_of_getElem? hdALL
    obtain ⟨s4, L4, hrun4, hin4, hperm4, hrec4, hout4, hcub4⟩ :=
      ih (dIndex + 1) { s2 with g_outputRec := s2.g_outputRec.set d ALL } P D Q (by omega) hnodup1
        (by
          intro d1 hd1
          obtain ⟨h1, h2⟩ := hdims d1 (by simp [hd1])
          refine ⟨?_, h2⟩
          simp only [hrec3]
          exact h1)
        (fun t ht => hvalid t ((List.Perm.mem_iff hDL).1 ht))
        hin2
    rw [hDL.length_eq] at hrun4
    simp only [hrec3] at hrun4 hrec4 hout4 hcub4
    simp only [hrec3]
    refine ⟨s4, L4, hrun4, hin4, hperm4.trans hDL, hrec4, ?_, ?_⟩
    · rw [hout4, hout2, hdrop, cubeBelow, hCD, ← hNdef, ← List.range_eq_range',
        cubeBelow_perm g_minsup cardinalities _ _ D L hDL, List.append_assoc]
    · rw [hcub4, hcub2, hdrop, cubeBelow, hCD, ← hNdef, ← List.range_eq_range',
        cubeBelow_perm g_minsup cardinalities _ _ D L hDL, recordAll_append]

/-! ## The dimension orderer -/

theorem pair_greater_key (a b : Int × Nat) :
    pair_greater a b
      = decide ((fun p : Int × Nat => -p.1) a < (fun p : Int × Nat => -p.1) b) := by
  simp only [pair_greater]
  apply decide_eq_decide.2
  constructor <;> intro h <;> omega

theorem cardinalityPairs_snd (cardinalities : Tuple) :
    (cardinalityPairs cardinalities).map Prod.snd = List.range cardinalities.length := by
  simp [cardinalityPairs, List.map_map, Function.comp_def]

theorem cardinalityPairs_mem (cardinalities : Tuple) (p : Int × Nat)
    (h : p ∈ cardinalityPairs cardinalities) : p.1 = cardinalities.getD p.2 0 := by
  simp only [cardinalityPairs, List.mem_map, List.mem_range] at h
  obtain ⟨i, _, hi⟩ := h
  subst hi
  rfl

theorem cardinalityPairs_pairwise (cardinalities : Tuple) :
    (cardinalityPairs cardinalities).Pairwise (fun a b => a.2 < b.2) := by
  simp only [cardinalityPairs, List.pairwise_map]
  exact List.pairwise_lt_range _

theorem order_dimensions_perm (cardinalities : Tuple) :
    (order_dimensions cardinalities).Perm (List.range cardinalities.length) := by
  rw [order_dimensions, ← cardinalityPairs_snd]
  exact (stable_sort_perm _ _).map _

theorem order_dimensions_length (cardinalities : Tuple) :
    (order_dimensions cardinalities).length = cardinalities.length := by
  simpa using (order_dimensions_perm cardinalities).length_eq

theorem order_dimensions_nodup (cardinalities : Tuple) :
    (order_dimensions cardinalities).Nodup :=
  (order_dimensions_perm cardinalities).symm.nodup (List.nodup_range _)

theorem order_dimensions_lt (cardinalities : Tuple) (d : Nat)
    (h : d ∈ order_dimensions cardinalities) : d < cardinalities.length :=
  List.mem_range.1 ((List.Perm.mem_iff (order_dimensions_perm cardinalities)).1 h)

theorem order_dimensions_sorted (cardinalities : Tuple) :
    (order_dimensions cardinalities).Pairwise
      (fun i j => cardinalities.getD i 0 ≥ cardinalities.getD j 0) := by
  rw [order_dimensions, List.pairwise_map]
  have hs := stable_sort_sorted pair_greater (fun p : Int × Nat => -p.1) pair_greater_key
    (cardinalityPairs cardinalities)
  refine List.Pairwise.imp_of_mem ?_ hs
  intro a b ha hb hab
  have ha1 := cardinalityPairs_mem cardinalities a
    ((List.Perm.mem_iff (stable_sort_perm _ _)).1 ha)
  have hb1 := cardinalityPairs_mem cardinalities b
    ((List.Perm.mem_iff (stable_sort_perm _ _)).1 hb)
  rw [← ha1, ← hb1]
  simp only at hab
  omega

theorem order_dimensions_stable (cardinalities : Tuple) :
    (order_dimensions cardinalities).Pairwise
      (fun i j => cardinalities.getD i 0 = cardinalities.getD j 0 → i < j) := by
  rw [order_dimensions, List.pairwise_map]
  have hmem : ∀ p ∈ stable_sort pair_greater (cardinalityPairs cardinalities),
      p.1 = cardinalities.getD p.2 0 := fun p hp =>
    cardinalityPairs_mem cardinalities p ((List.Perm.mem_iff (stable_sort_perm _ _)).1 hp)
  rw [List.pairwise_iff_forall_sublist]
  intro a b hab heq
  have ha : a ∈ stable_sort pair_greater (cardinalityPairs cardinalities) :=
    hab.subset (by simp)
  have hb : b ∈ stable_sort pair_greater (cardinalityPairs cardinalities) :=
    hab.subset (by simp)
  have h1 : a.1 = b.1 := by rw [hmem a ha, hmem b hb]; exact heq
  have hf := hab.filter (fun x : Int × Nat => decide ((fun p : Int × Nat => -p.1) x = -a.1))
  rw [stable_sort_filter pair_greater (fun p : Int × Nat => -p.1) pair_greater_key] at hf
  have hf2 : [a, b].filter (fun x : Int × Nat => decide ((fun p : Int × Nat => -p.1) x = -a.1))
      = [a, b] := by
    simp [List.filter_cons, h1]
  rw [hf2] at hf
  have hsub : List.Sublist [a, b] (cardinalityPairs cardinalities) := hf.trans (List.filter_sublist _)
  exact List.pairwise_iff_forall_sublist.1 (cardinalityPairs_pairwise cardinalities) hsub

/-- The dimension that `order_dimensions` puts first has a cardinality that is
not smaller than any other. -/
theorem order_dimensions_head_max (cardinalities : Tuple) (C : Int) (hC : C ∈ cardinalities) :
    ∃ d0 rest C0, order_dimensions cardinalities = d0 :: rest
      ∧ cardinalities[d0]? = some C0 ∧ C ≤ C0 := by
  obtain ⟨i, hi, hiC⟩ := List.getElem_of_mem hC
  have himem : i ∈ order_dimensions cardinalities :=
    (List.Perm.mem_iff (order_dimensions_perm cardinalities)).2 (List.mem_range.2 hi)
  have hsorted := order_dimensions_sorted cardinalities
  cases hord : order_dimensions cardinalities with
  | nil => rw [hord] at himem; cases himem
  | cons d0 rest =>
    rw [hord] at himem hsorted
    have hd0 : d0 < cardinalities.length :=
      order_dimensions_lt cardinalities d0 (by rw [hord]; simp)
    refine ⟨d0, rest, cardinalities[d0], rfl, List.getElem?_eq_getElem hd0, ?_⟩
    have hgi : cardinalities.getD i 0 = C := by
      rw [List.getD_eq_getElem?_getD, List.getElem?_eq_getElem hi, hiC]
      rfl
    have hgd : cardinalities.getD d0 0 = cardinalities[d0] := by
      rw [List.getD_eq_getElem?_getD, List.getElem?_eq_getElem hd0]
      rfl
    rw [List.mem_cons] at himem
    rcases himem with h | h
    · subst h
      rw [← hgi, hgd]
    · have := (List.pairwise_cons.1 hsorted).1 i h
      rw [hgi, hgd] at this
      exact this

/-- With a cardinality of `INT_MAX` or more the run stops at the first count
vector, which is that of the largest cardinality, right after the first
pair. -/
theorem runCube_overflow (input : TupleVector) (cardinalities : Tuple) (minsup : Int)
    (h : ∃ C ∈ cardinalities, 2147483647 ≤ C) :
    runCube input cardinalities minsup
      = .error (aggregateInput 0 input.length (initialState input cardinalities)) := by
  obtain ⟨C, hC, hbig⟩ := h
  obtain ⟨d0, rest, C0, hord, hC0, hle⟩ := order_dimensions_head_max cardinalities C hC
  have hlen : cardinalities.length = rest.length + 1 := by
    rw [← order_dimensions_length, hord]
    rfl
  unfold runCube bottom_up_cube
  rw [if_neg (by simp), Nat.sub_zero, hlen]
  simp only [dimensionLoop, hord, List.getElem?_cons_zero, hC0]
  rw [if_pos (by omega)]

theorem emitted_overflow (input : TupleVector) (cardinalities : Tuple) (minsup : Int)
    (h : ∃ C ∈ cardinalities, 2147483647 ≤ C) :
    emitted input cardinalities minsup
      = [(List.replicate cardinalities.length ALL, (input.length : Int))] := by
  rw [emitted, runCube_overflow input cardinalities minsup h]
  simp only [Run.final]
  rw [aggregateInput_outfile1]
  simp [initialState]

/-! ## What holds of every run, valid data or not -/

theorem partition_input_outfile1 (b e d : Nat) (C : Int) (dataCount : List Int) (s : State) :
    (∀ s1 dc, partition_input b e d C dataCount s = .ok (s1, dc) → s1.outfile1 = s.outfile1)
      ∧ (∀ s1, partition_input b e d C dataCount s = .error s1 → s1.outfile1 = s.outfile1) := by
  unfold partition_input
  constructor
  · intro s1 dc h
    split at h
    · cases h
    · split at h
      · cases h
      · simp only [] at h
        split at h
        · cases h
        · cases h; rfl
  · intro s1 h
    split at h
    · cases h; rfl
    · split at h
      · cases h; rfl
      · simp only [] at h
        split at h
        · cases h; rfl
        · cases h

/-- The bucket loop only appends to the output, and what it appends has an
aggregate that reaches the minimum support, when this holds of the recursive
call. -/
theorem bucketLoop_grows (g_minsup : Int) (recur : Nat → Nat → State → Run) (d : Nat)
    (dataCount : List Int)
    (hrec : ∀ (k e : Nat) (st : State), g_minsup ≤ (e : Int) - (k : Int) →
      ∃ new, (recur k e st).final.outfile1 = st.outfile1 ++ new ∧ ∀ p ∈ new, g_minsup ≤ p.2) :
    ∀ (n i k : Nat) (s : State),
      ∃ new, (bucketLoop g_minsup recur d dataCount n i k s).final.outfile1 = s.outfile1 ++ new
        ∧ ∀ p ∈ new, g_minsup ≤ p.2 := by
  intro n
  induction n with
  | zero => intro i k s; exact ⟨[], by simp [bucketLoop, Run.final], by simp⟩
  | succ n ih =>
    intro i k s
    simp only [bucketLoop]
    cases hdc : dataCount[i]? with
    | none => exact ⟨[], by simp [Run.final], by simp⟩
    | some c =>
      simp only []
      by_cases hc : c ≥ g_minsup
      · rw [if_pos hc]
        cases hk : s.input[k]? with
        | none => exact ⟨[], by simp [Run.final], by simp⟩
        | some t =>
          simp only []
          cases hv : t[d]? with
          | none => exact ⟨[], by simp [Run.final], by simp⟩
          | some v =>
            simp only [setOutputRec]
            by_cases hd : d < s.g_outputRec.length
            · rw [if_pos hd]
              simp only []
              have hagg : g_minsup ≤ ((k + c.toNat : Nat) : Int) - (k : Int) := by
                push_cast; omega
              obtain ⟨new1, h1, h1p⟩ := hrec k (k + c.toNat)
                { s with g_outputRec := s.g_outputRec.set d (Count.ofData v) } hagg
              cases hr : recur k (k + c.toNat)
                  { s with g_outputRec := s.g_outputRec.set d (Count.ofData v) } with
              | error s2 =>
                rw [hr] at h1
                exact ⟨new1, h1, h1p⟩
              | ok s2 =>
                rw [hr] at h1
                simp only [Run.final] at h1
                simp only []
                obtain ⟨new2, h2, h2p⟩ := ih (i + 1) (k + c.toNat) s2
                refine ⟨new1 ++ new2, ?_, ?_⟩
                · rw [h2, h1, List.append_assoc]
                · intro p hp
                  rcases List.mem_append.1 hp with hp | hp
                  · exact h1p p hp
                  · exact h2p p hp
            · rw [if_neg hd]
              exact ⟨[], by simp [Run.final], by simp⟩
      · rw [if_neg hc]
        exact ih (i + 1) (k + c.toNat) s

/-- The dimension loop only appends to the output, and what it appends has an
aggregate that reaches the minimum support. -/
theorem dimensionLoop_grows (g_minsup : Int) (g_dimensionIndices : List Nat)
    (cardinalities : Tuple) :
    ∀ (rem dIndex b e : Nat) (s : State),
      ∃ new, (dimensionLoop g_minsup g_dimensionIndices cardinalities rem dIndex b e s).final.outfile1
          = s.outfile1 ++ new
        ∧ ∀ p ∈ new, g_minsup ≤ p.2 := by
  intro rem
  induction rem with
  | zero => intro dIndex b e s; exact ⟨[], by simp [dimensionLoop, Run.final], by simp⟩
  | succ rem ih =>
    intro dIndex b e s
    simp only [dimensionLoop]
    cases hd : g_dimensionIndices[dIndex]? with
    | none => exact ⟨[], by simp [Run.final], by simp⟩
    | some d =>
      simp only []
      cases hC : cardinalities[d]? with
      | none => exact ⟨[], by simp [Run.final], by simp⟩
      | some C =>
        simp only []
        by_cases hneg : C + 1 < 0 ∨ 2147483647 < C + 1
        · rw [if_pos hneg]
          exact ⟨[], by simp [Run.final], by simp⟩
        · rw [if_neg hneg]
          obtain ⟨hpok, hperr⟩ :=
            partition_input_outfile1 b e d C (List.replicate (C + 1).toNat 0) s
          cases hp : partition_input b e d C (List.replicate (C + 1).toNat 0) s with
          | error s1 =>
            exact ⟨[], by simp [Run.final, hperr s1 hp], by simp⟩
          | ok r =>
            obtain ⟨s1, dataCount⟩ := r
            simp only []
            have hs1 := hpok s1 dataCount hp
            obtain ⟨new2, h2, h2p⟩ := bucketLoop_grows g_minsup
              (fun k e st => dimensionLoop g_minsup g_dimensionIndices cardinalities rem
                (dIndex + 1) k e (aggregateInput k e st)) d dataCount
              (by
                intro k e st hagg
                obtain ⟨new, h, hp⟩ := ih (dIndex + 1) k e (aggregateInput k e st)
                refine ⟨(st.g_outputRec, (e : Int) - (k : Int)) :: new, ?_, ?_⟩
                · rw [h, aggregateInput_outfile1]; simp
                · intro p hp1
                  rcases List.mem_cons.1 hp1 with hp1 | hp1
                  · subst hp1; exact hagg
                  · exact hp p hp1)
              (C + 1).toNat 0 b s1
            cases hb : bucketLoop g_minsup
                (fun k e st => dimensionLoop g_minsup g_dimensionIndices cardinalities rem
                  (dIndex + 1) k e (aggregateInput k e st)) d dataCount (C + 1).toNat 0 b s1 with
            | error s2 =>
              rw [hb] at h2
              simp only [Run.final] at h2
              exact ⟨new2, by simp [Run.final, h2, hs1], h2p⟩
            | ok s2 =>
              rw [hb] at h2
              simp only [Run.final] at h2
              simp only [setOutputRec]
              by_cases hdl : d < s2.g_outputRec.length
              · rw [if_pos hdl]
                simp only []
                obtain ⟨new3, h3, h3p⟩ := ih (dIndex + 1) b e
                  { s2 with g_outputRec := s2.g_outputRec.set d ALL }
                refine ⟨new2 ++ new3, ?_, ?_⟩
                · rw [h3]; simp only []; rw [h2, hs1, List.append_assoc]
                · intro p hp1
                  rcases List.mem_append.1 hp1 with hp1 | hp1
                  · exact h2p p hp1
                  · exact h3p p hp1
              · rw [if_neg hdl]
                exact ⟨new2, by simp [Run.final, h2, hs1], h2p⟩

/-- With a minimum support of at least one, nothing is entered when every
count is zero. -/
theorem bucketLoop_zero (g_minsup : Int) (hmin : 1 ≤ g_minsup)
    (recur : Nat → Nat → State → Run) (d N : Nat) :
    ∀ (n i k : Nat) (s : State),
      (bucketLoop g_minsup recur d (List.replicate N 0) n i k s).final = s := by
  intro n
  induction n with
  | zero => intro i k s; simp [bucketLoop, Run.final]
  | succ n ih =>
    intro i k s
    simp only [bucketLoop]
    cases hdc : (List.replicate N (0 : Int))[i]? with
    | none => simp [Run.final]
    | some c =>
      have hc0 : c = 0 := by
        obtain ⟨_, h⟩ := List.getElem?_eq_some_iff.1 hdc
        simpa using h.symm
      subst hc0
      simp only []
      rw [if_neg (by omega)]
      exact ih (i + 1) _ s

/-- With a minimum support of at least one, the dimension loop writes nothing
on an empty range. -/
theorem dimensionLoop_empty (g_minsup : Int) (hmin : 1 ≤ g_minsup)
    (g_dimensionIndices : List Nat) (cardinalities : Tuple) :
    ∀ (rem dIndex b : Nat) (s : State),
      (dimensionLoop g_minsup g_dimensionIndices cardinalities rem dIndex b b s).final.outfile1
        = s.outfile1 := by
  intro rem
  induction rem with
  | zero => intro dIndex b s; simp [dimensionLoop, Run.final]
  | succ rem ih =>
    intro dIndex b s
    simp only [dimensionLoop]
    cases hd : g_dimensionIndices[dIndex]? with
    | none => simp [Run.final]
    | some d =>
      simp only []
      cases hC : cardinalities[d]? with
      | none => simp [Run.final]
      | some C =>
        simp only []
        by_cases hneg : C + 1 < 0 ∨ 2147483647 < C + 1
        · rw [if_pos hneg]; simp [Run.final]
        · rw [if_neg hneg]
          have hpart : partition_input b b d C (List.replicate (C + 1).toNat 0) s
              = .ok ({ s with input := setSlice s.input b b [] },
                  List.replicate (C + 1).toNat 0) := by
            unfold partition_input
            rw [if_neg (by simp; omega)]
            simp [slice, stable_sort, countLoop]
          rw [hpart]
          simp only []
          have hz := bucketLoop_zero g_minsup hmin
            (fun k e st => dimensionLoop g_minsup g_dimensionIndices cardinalities rem
              (dIndex + 1) k e (aggregateInput k e st)) d (C + 1).toNat (C + 1).toNat 0 b
            { s with input := setSlice s.input b b [] }
          cases hb : bucketLoop g_minsup
              (fun k e st => dimensionLoop g_minsup g_dimensionIndices cardinalities rem
                (dIndex + 1) k e (aggregateInput k e st)) d (List.replicate (C + 1).toNat 0)
              (C + 1).toNat 0 b { s with input := setSlice s.input b b [] } with
          | error s2 =>
            rw [hb] at hz
            simp only [Run.final] at hz
            simp [Run.final, hz]
          | ok s2 =>
            rw [hb] at hz
            simp only [Run.final] at hz
            subst hz
            simp only [setOutputRec]
            by_cases hdl : d < s.g_outputRec.length
            · rw [if_pos hdl]
              simp only []
              rw [ih]
            · rw [if_neg hdl]
              simp only [Run.final]

/-! ## The whole run -/

theorem cubeBelow_nil (g_minsup : Int) (hmin : 1 ≤ g_minsup) (cardinalities : Tuple) :
    ∀ (dims : List Nat) (outputRec : List Count),
      cubeBelow g_minsup cardinalities dims outputRec [] = []
  | [], _ => rfl
  | d :: dims, outputRec => by
    simp only [cubeBelow, cubeBelow_nil g_minsup hmin cardinalities dims outputRec,
      List.append_nil]
    rw [List.flatMap_eq_nil_iff]
    intro v _
    simp only [bucketOut, bucket, List.filter_nil, List.length_nil]
    rw [if_neg (by simp; omega)]

theorem validDataset_mem {input : TupleVector} {cardinalities : Tuple}
    (h : validDataset input cardinalities = true) (t : Tuple) (ht : t ∈ input) :
    validTuple t cardinalities = true := by
  simp only [validDataset, List.all_eq_true] at h
  exact h t ht

/-- The first thing written by a run is the all-ALL record with the number of
tuples of the dataset; the rest has aggregates that reach the minimum
support. -/
theorem emitted_cons (input : TupleVector) (cardinalities : Tuple) (minsup : Int) :
    ∃ new, emitted input cardinalities minsup
        = (List.replicate cardinalities.length ALL, (input.length : Int)) :: new
      ∧ ∀ p ∈ new, minsup ≤ p.2 := by
  obtain ⟨new, h, hp⟩ := dimensionLoop_grows minsup (order_dimensions cardinalities)
    cardinalities (cardinalities.length - 0) 0 0 input.length
    (aggregateInput 0 input.length (initialState input cardinalities))
  refine ⟨new, ?_, hp⟩
  simp only [emitted, runCube, bottom_up_cube]
  rw [if_neg (by simp), h, aggregateInput_outfile1]
  simp [initialState]

/-- On a valid dataset, with a minimum support of at least one and every
cardinality below `INT_MAX`, the run writes the all-ALL record with the number
of tuples, then `cubeBelow` of the dataset. -/
theorem emitted_eq (input : TupleVector) (cardinalities : Tuple) (minsup : Int)
    (hvalid : validDataset input cardinalities = true) (hmin : 1 ≤ minsup)
    (hbound : ∀ C ∈ cardinalities, C < 2147483647) :
    emitted input cardinalities minsup
      = (List.replicate cardinalities.length ALL, (input.length : Int))
        :: cubeBelow minsup cardinalities (order_dimensions cardinalities)
            (List.replicate cardinalities.length ALL) input := by
  cases input with
  | nil =>
    rw [cubeBelow_nil minsup hmin]
    simp only [emitted, runCube, bottom_up_cube]
    rw [if_neg (by simp)]
    simp only [List.length_nil]
    rw [dimensionLoop_empty minsup hmin, aggregateInput_outfile1]
    simp [initialState]
  | cons t0 input =>
    obtain ⟨s1, L1, hrun, _, _, _, hout, _⟩ :=
      dimensionLoop_ok minsup hmin (order_dimensions cardinalities) cardinalities
        (cardinalities.length - 0) 0
        (aggregateInput 0 (t0 :: input).length (initialState (t0 :: input) cardinalities))
        [] (t0 :: input) []
        (by simp [order_dimensions_length])
        (by simpa using order_dimensions_nodup cardinalities)
        (by
          intro d hd
          have hdlt : d < cardinalities.length :=
            order_dimensions_lt cardinalities d (by simpa using hd)
          refine ⟨?_, cardinalities[d], List.getElem?_eq_getElem hdlt, ?_⟩
          · rw [aggregateInput_outputRec]
            simp [initialState, hdlt]
          · obtain ⟨v, _, h0, h1⟩ := validTuple_get t0 cardinalities
              (validDataset_mem hvalid t0 (by simp)) d cardinalities[d]
              (List.getElem?_eq_getElem hdlt)
            have hb := hbound cardinalities[d] (List.getElem_mem hdlt)
            omega)
        (fun t ht => validDataset_mem hvalid t ht)
        (by rw [aggregateInput_input]; simp [initialState])
    simp only [emitted, runCube, bottom_up_cube]
    rw [if_neg (by simp)]
    simp only [List.length_nil, Nat.zero_add, List.drop_zero] at hrun hout
    rw [hrun]
    simp only [Run.final]
    rw [hout, aggregateInput_outfile1, aggregateInput_outputRec]
    simp [initialState]

/-- On a valid dataset and with a minimum support of at least one, every pair
the run writes is the all-ALL record with the number of tuples or a pair of
`cubeBelow` of the dataset, also when the run stops at a count vector that
cannot be made. -/
theorem emitted_sub (input : TupleVector) (cardinalities : Tuple) (minsup : Int)
    (hvalid : validDataset input cardinalities = true) (hmin : 1 ≤ minsup) :
    ∀ p ∈ emitted input cardinalities minsup,
      p ∈ (List.replicate cardinalities.length ALL, (input.length : Int))
        :: cubeBelow minsup cardinalities (order_dimensions cardinalities)
            (List.replicate cardinalities.length ALL) input := by
  intro p hp
  by_cases hbound : ∀ C ∈ cardinalities, C < 2147483647
  · rw [← emitted_eq input cardinalities minsup hvalid hmin hbound]
    exact hp
  · have hover : ∃ C ∈ cardinalities, 2147483647 ≤ C := by
      by_contra hno
      apply hbound
      intro C hC
      by_contra hge
      exact hno ⟨C, hC, by omega⟩
    rw [emitted_overflow input cardinalities minsup hover] at hp
    rw [List.mem_singleton] at hp
    rw [hp]
    exact List.mem_cons_self _ _

/-- On a valid dataset, with a minimum support of at least one and every
cardinality at least -1 and below `INT_MAX`, the run returns: the dataset is
permuted, the output record is all-ALL again, the output is the all-ALL pair
followed by `cubeBelow` of the dataset, and the cuboid counts are those of the
output. -/
theorem runCube_ok (input : TupleVector) (cardinalities : Tuple) (minsup : Int)
    (hvalid : validDataset input cardinalities = true) (hmin : 1 ≤ minsup)
    (hcards : ∀ (d : Nat) (C : Int), cardinalities[d]? = some C → -1 ≤ C ∧ C < 2147483647) :
    ∃ s1, runCube input cardinalities minsup = .ok s1
      ∧ s1.input.Perm input
      ∧ s1.g_outputRec = List.replicate cardinalities.length ALL
      ∧ s1.outfile1 = (List.replicate cardinalities.length ALL, (input.length : Int))
          :: cubeBelow minsup cardinalities (order_dimensions cardinalities)
              (List.replicate cardinalities.length ALL) input
      ∧ s1.cuboidCount = recordAll
          ((List.replicate cardinalities.length ALL, (input.length : Int))
            :: cubeBelow minsup cardinalities (order_dimensions cardinalities)
                (List.replicate cardinalities.length ALL) input) [] := by
  obtain ⟨s1, L1, hrun, hin, hperm, hrec, hout, hcub⟩ :=
    dimensionLoop_ok minsup hmin (order_dimensions cardinalities) cardinalities
      (cardinalities.length - 0) 0
      (aggregateInput 0 input.length (initialState input cardinalities))
      [] input []
      (by simp [order_dimensions_length])
      (by simpa using order_dimensions_nodup cardinalities)
      (by
        intro d hd
        have hdlt : d < cardinalities.length :=
          order_dimensions_lt cardinalities d (by simpa using hd)
        refine ⟨?_, cardinalities[d], List.getElem?_eq_getElem hdlt,
          hcards d _ (List.getElem?_eq_getElem hdlt)⟩
        rw [aggregateInput_outputRec]
        simp [initialState, hdlt])
      (fun t ht => validDataset_mem hvalid t ht)
      (by rw [aggregateInput_input]; simp [initialState])
  simp only [List.length_nil, Nat.zero_add, List.drop_zero] at hrun hout hcub
  refine ⟨s1, ?_, ?_, ?_, ?_, ?_⟩
  · simp only [runCube, bottom_up_cube]
    rw [if_neg (by simp)]
    exact hrun
  · rw [hin]; simpa using hperm
  · rw [hrec, aggregateInput_outputRec]; rfl
  · rw [hout, aggregateInput_outfile1, aggregateInput_outputRec]
    simp [initialState]
  · rw [hcub, aggregateInput_cuboidCount, aggregateInput_outputRec, ← recordAll_append]
    simp [initialState]

/-! ## Agreement of a tuple with an output record -/

theorem agrees_iff (r : List Count) (t : Tuple) :
    agrees r t = true ↔ ∀ (i : Nat) (c : Count), r[i]? = some c → c.isAll = false →
      t[i]? = some c.count := by
  simp only [agrees, List.all_eq_true, List.mem_range]
  constructor
  · intro h i c hc hall
    have hi : i < r.length := (List.getElem?_eq_some_iff.1 hc).1
    have := h i hi
    rw [hc] at this
    simpa [hall] using this
  · intro h i hi
    rw [List.getElem?_eq_getElem hi]
    simp only [Bool.or_eq_true, decide_eq_true_eq]
    cases hall : r[i].isAll with
    | true => exact Or.inl rfl
    | false => exact Or.inr (h i r[i] (List.getElem?_eq_getElem hi) hall)

theorem agrees_replicate_ALL (n : Nat) (t : Tuple) : agrees (List.replicate n ALL) t = true := by
  rw [agrees_iff]
  intro i c hc hall
  obtain ⟨_, h⟩ := List.getElem?_eq_some_iff.1 hc
  rw [List.getElem_replicate] at h
  subst h
  simp [ALL] at hall

theorem agrees_set_ofData {r : List Count} {d : Nat} (hd : r[d]? = some ALL) (v : Int)
    (t : Tuple) :
    agrees (r.set d (Count.ofData v)) t = true ↔ agrees r t = true ∧ t[d]? = some v := by
  have hdlt : d < r.length := (List.getElem?_eq_some_iff.1 hd).1
  rw [agrees_iff, agrees_iff]
  constructor
  · intro h
    refine ⟨?_, ?_⟩
    · intro i c hc hall
      by_cases hi : d = i
      · subst hi
        rw [hd] at hc
        cases hc
        simp [ALL] at hall
      · exact h i c (by rw [List.getElem?_set_ne hi]; exact hc) hall
    · exact h d (Count.ofData v) (by rw [List.getElem?_set_self hdlt]) rfl
  · rintro ⟨h1, h2⟩ i c hc hall
    by_cases hi : d = i
    · subst hi
      rw [List.getElem?_set_self hdlt] at hc
      cases hc
      exact h2
    · rw [List.getElem?_set_ne hi] at hc
      exact h1 i c hc hall

theorem agrees_set_ALL {r : List Count} {t : Tuple} (h : agrees r t = true) (j : Nat) :
    agrees (r.set j ALL) t = true := by
  rw [agrees_iff] at h ⊢
  intro i c hc hall
  by_cases hi : j = i
  · subst hi
    have hjlt : j < r.length := by
      have := (List.getElem?_eq_some_iff.1 hc).1
      simpa using this
    rw [List.getElem?_set_self hjlt] at hc
    cases hc
    simp [ALL] at hall
  · rw [List.getElem?_set_ne hi] at hc
    exact h i c hc hall

/-- The bucket of value `v` at `d` of the tuples that agree with a record that
holds ALL at `d`: the tuples that agree with the record with `d` set to `v`. -/
theorem bucket_filter_agrees {r : List Count} {d : Nat} (hd : r[d]? = some ALL) (v : Int)
    (input : List Tuple) (hlen : ∀ t ∈ input, d < t.length) :
    bucket d v (input.filter (agrees r)) = input.filter (agrees (r.set d (Count.ofData v))) := by
  rw [bucket, List.filter_filter]
  apply List.filter_congr
  intro t ht
  have hdt := hlen t ht
  have hget : t.getD d 0 = t[d] := by
    simp [List.getD_eq_getElem?_getD, List.getElem?_eq_getElem hdt]
  rw [hget]
  apply Bool.eq_iff_iff.2
  rw [agrees_set_ofData hd, Bool.and_eq_true, decide_eq_true_eq, List.getElem?_eq_getElem hdt]
  constructor
  · rintro ⟨h1, h2⟩; exact ⟨h2, by rw [h1]⟩
  · rintro ⟨h1, h2⟩; exact ⟨by simpa using h2, h1⟩

/-! ## Soundness of what is written below a node -/

theorem mem_bucketOut {g_minsup : Int} {below : List Count → List Tuple → List Emission}
    {d : Nat} {r : List Count} {l : List Tuple} {v : Nat} {p : Emission}
    (h : p ∈ bucketOut g_minsup below d r l v) :
    g_minsup ≤ ((bucket d (v : Int) l).length : Int)
      ∧ (p = (r.set d (Count.ofData (v : Int)), ((bucket d (v : Int) l).length : Int))
        ∨ p ∈ below (r.set d (Count.ofData (v : Int))) (bucket d (v : Int) l)) := by
  simp only [bucketOut] at h
  split at h
  · rename_i hc
    exact ⟨hc, List.mem_cons.1 h⟩
  · simp at h

theorem cubeBelow_sound (g_minsup : Int) (cardinalities : Tuple) (input : List Tuple) :
    ∀ (dims : List Nat) (r : List Count), dims.Nodup →
      (∀ d ∈ dims, r[d]? = some ALL ∧ ∀ t ∈ input, d < t.length) →
      ∀ p ∈ cubeBelow g_minsup cardinalities dims r (input.filter (agrees r)),
        p.2 = (support input p.1 : Int)
  | [], _, _, _, p, hp => by simp [cubeBelow] at hp
  | d :: dims, r, hnodup, hdims, p, hp => by
    obtain ⟨hdnot, hnodup1⟩ := List.nodup_cons.1 hnodup
    obtain ⟨hdALL, hdlen⟩ := hdims d (by simp)
    simp only [cubeBelow, List.mem_append, List.mem_flatMap, List.mem_range] at hp
    rcases hp with ⟨v, _, hp⟩ | hp
    · obtain ⟨_, hp⟩ := mem_bucketOut hp
      rw [bucket_filter_agrees hdALL (v : Int) input hdlen] at hp
      rcases hp with hp | hp
      · subst hp
        rfl
      · refine cubeBelow_sound g_minsup cardinalities input dims _ hnodup1 ?_ p hp
        intro d1 hd1
        have hne : d ≠ d1 := fun h => hdnot (h ▸ hd1)
        refine ⟨?_, (hdims d1 (by simp [hd1])).2⟩
        rw [List.getElem?_set_ne hne]
        exact (hdims d1 (by simp [hd1])).1
    · exact cubeBelow_sound g_minsup cardinalities input dims r hnodup1
        (fun d1 hd1 => hdims d1 (by simp [hd1])) p hp

theorem filter_agrees_replicate_ALL (n : Nat) (input : List Tuple) :
    input.filter (agrees (List.replicate n ALL)) = input := by
  rw [List.filter_eq_self]
  intro t _
  exact agrees_replicate_ALL n t

/-- Soundness: every pair written by a run on a valid dataset with a minimum
support of at least one holds the support of its record in the dataset. -/
theorem emitted_sound (input : TupleVector) (cardinalities : Tuple) (minsup : Int)
    (hvalid : validDataset input cardinalities = true) (hmin : 1 ≤ minsup) :
    ∀ p ∈ emitted input cardinalities minsup, p.2 = (support input p.1 : Int) := by
  intro p hp
  have hp := emitted_sub input cardinalities minsup hvalid hmin p hp
  rw [List.mem_cons] at hp
  rcases hp with hp | hp
  · subst hp
    simp [support, filter_agrees_replicate_ALL]
  · have h := cubeBelow_sound minsup cardinalities input (order_dimensions cardinalities)
      (List.replicate cardinalities.length ALL) (order_dimensions_nodup cardinalities)
      (by
        intro d hd
        have hdlt := order_dimensions_lt cardinalities d hd
        refine ⟨by simp [hdlt], ?_⟩
        intro t ht
        rw [validTuple_length t cardinalities (validDataset_mem hvalid t ht)]
        exact hdlt)
    rw [filter_agrees_replicate_ALL] at h
    exact h p hp

/-! ## The records written below a node -/

theorem cubeBelow_rec (g_minsup : Int) (cardinalities : Tuple) :
    ∀ (dims : List Nat) (r : List Count) (l : List Tuple), dims.Nodup →
      (∀ d ∈ dims, r[d]? = some ALL) →
      ∀ p ∈ cubeBelow g_minsup cardinalities dims r l,
        p.1.length = r.length ∧ (∀ i, i ∉ dims → p.1[i]? = r[i]?)
          ∧ (∃ d ∈ dims, ∃ c, p.1[d]? = some c ∧ c.isAll = false)
          ∧ (∀ c ∈ p.1, c ∈ r ∨ c.isAll = false)
  | [], _, _, _, _, p, hp => by simp [cubeBelow] at hp
  | d :: dims, r, l, hnodup, hdims, p, hp => by
    obtain ⟨hdnot, hnodup1⟩ := List.nodup_cons.1 hnodup
    have hdALL := hdims d (by simp)
    have hdlt : d < r.length := (List.getElem?_eq_some_iff.1 hdALL).1
    simp only [cubeBelow, List.mem_append, List.mem_flatMap, List.mem_range] at hp
    rcases hp with ⟨v, _, hp⟩ | hp
    · obtain ⟨_, hp⟩ := mem_bucketOut hp
      rcases hp with hp | hp
      · subst hp
        refine ⟨by simp, ?_, ⟨d, by simp, Count.ofData (v : Int), ?_, rfl⟩, ?_⟩
        · intro i hi
          have hne : d ≠ i := fun h => hi (by simp [h])
          simp only [List.getElem?_set_ne hne]
        · simp only [List.getElem?_set_self hdlt]
        · intro c hc
          rcases List.mem_or_eq_of_mem_set hc with h | h
          · exact Or.inl h
          · subst h; exact Or.inr rfl
      · obtain ⟨h1, h2, ⟨d1, hd1, c, hc, hcall⟩, h4⟩ :=
          cubeBelow_rec g_minsup cardinalities dims (r.set d (Count.ofData (v : Int))) _
            hnodup1
            (by
              intro d1 hd1
              have hne : d ≠ d1 := fun h => hdnot (h ▸ hd1)
              rw [List.getElem?_set_ne hne]
              exact hdims d1 (by simp [hd1]))
            p hp
        refine ⟨by simpa using h1, ?_, ⟨d1, by simp [hd1], c, hc, hcall⟩, ?_⟩
        · intro i hi
          have hne : d ≠ i := fun h => hi (by simp [h])
          rw [h2 i (fun h => hi (by simp [h])), List.getElem?_set_ne hne]
        · intro c1 hc1
          rcases h4 c1 hc1 with h | h
          · rcases List.mem_or_eq_of_mem_set h with h | h
            · exact Or.inl h
            · subst h; exact Or.inr rfl
          · exact Or.inr h
    · obtain ⟨h1, h2, ⟨d1, hd1, c, hc, hcall⟩, h4⟩ :=
        cubeBelow_rec g_minsup cardinalities dims r l hnodup1
          (fun d1 hd1 => hdims d1 (by simp [hd1])) p hp
      refine ⟨h1, ?_, ⟨d1, by simp [hd1], c, hc, hcall⟩, h4⟩
      intro i hi
      exact h2 i (fun h => hi (by simp [h]))

/-- What is written for the bucket of `v` at `d` holds `v` at `d`. -/
theorem bucketOut_at (g_minsup : Int) (cardinalities : Tuple) (d : Nat) (dims : List Nat)
    (r : List Count) (l : List Tuple) (v : Nat) (hnodup : (d :: dims).Nodup)
    (hdims : ∀ d1 ∈ d :: dims, r[d1]? = some ALL) :
    ∀ p ∈ bucketOut g_minsup (cubeBelow g_minsup cardinalities dims) d r l v,
      p.1[d]? = some (Count.ofData (v : Int)) := by
  intro p hp
  obtain ⟨hdnot, hnodup1⟩ := List.nodup_cons.1 hnodup
  have hdlt : d < r.length := (List.getElem?_eq_some_iff.1 (hdims d (by simp))).1
  obtain ⟨_, hp⟩ := mem_bucketOut hp
  rcases hp with hp | hp
  · subst hp
    simp only [List.getElem?_set_self hdlt]
  · obtain ⟨_, h2, _, _⟩ :=
      cubeBelow_rec g_minsup cardinalities dims (r.set d (Count.ofData (v : Int))) _ hnodup1
        (by
          intro d1 hd1
          have hne : d ≠ d1 := fun h => hdnot (h ▸ hd1)
          rw [List.getElem?_set_ne hne]
          exact hdims d1 (by simp [hd1]))
        p hp
    rw [h2 d hdnot, List.getElem?_set_self hdlt]

/-- The record of a node is not written below the node. -/
theorem cubeBelow_countP_self (g_minsup : Int) (cardinalities : Tuple) (dims : List Nat)
    (r : List Count) (l : List Tuple) (hnodup : dims.Nodup)
    (hdims : ∀ d ∈ dims, r[d]? = some ALL) :
    (cubeBelow g_minsup cardinalities dims r l).countP (fun p => decide (p.1 = r)) = 0 := by
  rw [List.countP_eq_zero]
  intro p hp
  obtain ⟨_, _, ⟨d, hd, c, hc, hcall⟩, _⟩ :=
    cubeBelow_rec g_minsup cardinalities dims r l hnodup hdims p hp
  simp only [decide_eq_true_eq]
  intro h
  rw [h, hdims d hd] at hc
  cases hc
  simp [ALL] at hcall

theorem countP_flatMap_range_single {β : Type} (f : Nat → List β) (q : β → Bool) (w : Nat)
    (h : ∀ v, v ≠ w → (f v).countP q = 0) :
    ∀ N, ((List.range N).flatMap f).countP q = if w < N then (f w).countP q else 0 := by
  intro N
  induction N with
  | zero => simp
  | succ N ih =>
    rw [List.range_succ, List.flatMap_append, List.countP_append, ih]
    simp only [List.flatMap_cons, List.flatMap_nil, List.append_nil]
    by_cases hw : w < N
    · rw [if_pos hw, if_pos (by omega), h N (by omega)]
      rfl
    · rw [if_neg hw]
      by_cases hw1 : w = N
      · subst hw1
        rw [if_pos (by omega)]
        simp
      · rw [if_neg (by omega), h N (fun h => hw1 h.symm)]

/-! ## Completeness of what is written below a node -/

theorem Count.eq_ofData {c : Count} (h : c.isAll = false) : c = Count.ofData c.count := by
  cases c
  simp only [Count.ofData, Count.mk.injEq, true_and]
  exact h

theorem filter_agrees_bucket {r : List Count} {d : Nat} {w : Int}
    (hw : r[d]? = some (Count.ofData w)) (l : List Tuple) :
    (bucket d w l).filter (agrees r) = l.filter (agrees r) := by
  rw [bucket, List.filter_filter]
  apply List.filter_congr
  intro t _
  cases hag : agrees r t with
  | false => simp
  | true =>
    have ht := (agrees_iff r t).1 hag d (Count.ofData w) hw rfl
    simp [List.getD_eq_getElem?_getD, ht, Count.ofData]

/-- A record that extends the record of a node on the remaining dimensions,
is not the record of the node and has a support of at least the minimum
support among the tuples of the node is written exactly once below the
node. -/
theorem cubeBelow_count (g_minsup : Int) (hmin : 1 ≤ g_minsup) (cardinalities : Tuple) :
    ∀ (dims : List Nat) (r0 : List Count) (l : List Tuple) (r : List Count), dims.Nodup →
      (∀ d ∈ dims, r0[d]? = some ALL) →
      (∀ t ∈ l, validTuple t cardinalities = true) →
      r ≠ r0 → r.length = r0.length → (∀ i, i ∉ dims → r[i]? = r0[i]?) →
      (∀ c ∈ r, c = ALL ∨ c.isAll = false) →
      g_minsup ≤ ((l.filter (agrees r)).length : Int) →
      (cubeBelow g_minsup cardinalities dims r0 l).countP (fun p => decide (p.1 = r)) = 1
  | [], r0, l, r, _, _, _, hne, hlen, hout, _, _ => by
    exfalso
    apply hne
    apply List.ext_getElem?
    intro i
    exact hout i (by simp)
  | d :: dims, r0, l, r, hnodup, hdims, hvalid, hne, hlen, hout, hcells, hsup => by
    obtain ⟨hdnot, hnodup1⟩ := List.nodup_cons.1 hnodup
    have hdALL := hdims d (by simp)
    have hdlt0 : d < r0.length := (List.getElem?_eq_some_iff.1 hdALL).1
    have hdlt : d < r.length := by omega
    have hrd : r[d]? = some r[d] := List.getElem?_eq_getElem hdlt
    have hdims1 : ∀ d1 ∈ dims, r0[d1]? = some ALL := fun d1 hd1 => hdims d1 (by simp [hd1])
    simp only [cubeBelow, List.countP_append]
    rcases hcells r[d] (List.getElem_mem hdlt) with hc | hc
    · -- the record holds ALL at `d`: it is written after the buckets of `d`
      have hfirst : ((List.range (cardinalities.getD d 0 + 1).toNat).flatMap
          (bucketOut g_minsup (cubeBelow g_minsup cardinalities dims) d r0 l)).countP
          (fun p => decide (p.1 = r)) = 0 := by
        rw [List.countP_eq_zero]
        intro p hp
        simp only [List.mem_flatMap, List.mem_range] at hp
        obtain ⟨v, _, hp⟩ := hp
        have h := bucketOut_at g_minsup cardinalities d dims r0 l v hnodup hdims p hp
        simp only [decide_eq_true_eq]
        intro heq
        rw [heq, hrd, hc] at h
        cases h
      rw [hfirst, Nat.zero_add]
      refine cubeBelow_count g_minsup hmin cardinalities dims r0 l r hnodup1 hdims1 hvalid hne
        hlen ?_ hcells hsup
      intro i hi
      by_cases hid : i = d
      · subst hid
        rw [hrd, hc, hdALL]
      · exact hout i (by simp [hid, hi])
    · -- the record holds a value at `d`: it is written in the bucket of that value
      have hrdw : r[d]? = some (Count.ofData r[d].count) := by
        rw [hrd]; exact congrArg some (Count.eq_ofData hc)
      generalize r[d].count = w at hrdw
      have hsecond : (cubeBelow g_minsup cardinalities dims r0 l).countP
          (fun p => decide (p.1 = r)) = 0 := by
        rw [List.countP_eq_zero]
        intro p hp
        obtain ⟨_, h2, _, _⟩ := cubeBelow_rec g_minsup cardinalities dims r0 l hnodup1 hdims1 p hp
        simp only [decide_eq_true_eq]
        intro heq
        have h := h2 d hdnot
        rw [heq, hrdw, hdALL] at h
        cases h
      rw [hsecond, Nat.add_zero]
      -- a tuple of the node agrees with the record
      obtain ⟨t, htmem⟩ : ∃ t, t ∈ l.filter (agrees r) := by
        cases hf : l.filter (agrees r) with
        | nil => rw [hf] at hsup; simp at hsup; omega
        | cons t _ => exact ⟨t, by simp⟩
      obtain ⟨htl, htag⟩ := List.mem_filter.1 htmem
      have htd : t[d]? = some w := (agrees_iff r t).1 htag d (Count.ofData w) hrdw rfl
      have htv := hvalid t htl
      have hdc : d < cardinalities.length := by
        rw [← validTuple_length t cardinalities htv]
        exact (List.getElem?_eq_some_iff.1 htd).1
      obtain ⟨v, hv, hv0, hvC⟩ := validTuple_get t cardinalities htv d cardinalities[d]
        (List.getElem?_eq_getElem hdc)
      rw [htd] at hv
      cases hv
      have hCD : cardinalities.getD d 0 = cardinalities[d] := by
        simp [List.getD_eq_getElem?_getD, List.getElem?_eq_getElem hdc]
      have hwN : w.toNat < (cardinalities.getD d 0 + 1).toNat := by
        rw [hCD]; omega
      have hwcast : ((w.toNat : Nat) : Int) = w := Int.toNat_of_nonneg hv0
      rw [countP_flatMap_range_single _ _ w.toNat ?_ _, if_pos hwN]
      · -- the bucket of `w`
        have hfb := filter_agrees_bucket hrdw l
        have hbig : g_minsup ≤ ((bucket d w l).length : Int) := by
          have h1 := List.length_filter_le (agrees r) (bucket d w l)
          rw [hfb] at h1
          omega
        simp only [bucketOut, hwcast]
        rw [if_pos hbig]
        have hdims2 : ∀ d1 ∈ dims, (r0.set d (Count.ofData w))[d1]? = some ALL := by
          intro d1 hd1
          have hne1 : d ≠ d1 := fun h => hdnot (h ▸ hd1)
          rw [List.getElem?_set_ne hne1]
          exact hdims1 d1 hd1
        by_cases heq : r0.set d (Count.ofData w) = r
        · have h0 := cubeBelow_countP_self g_minsup cardinalities dims _ (bucket d w l)
            hnodup1 hdims2
          rw [heq] at h0
          rw [List.countP_cons, heq, h0]
          simp
        · have hrec : (cubeBelow g_minsup cardinalities dims (r0.set d (Count.ofData w))
              (bucket d w l)).countP (fun p => decide (p.1 = r)) = 1 := by
            refine cubeBelow_count g_minsup hmin cardinalities dims _ _ r hnodup1 hdims2
              (fun t1 ht1 => hvalid t1 (bucket_mem ht1).1) (fun h => heq h.symm)
              (by simpa using hlen) ?_ hcells (by rw [hfb]; exact hsup)
            intro i hi
            by_cases hid : i = d
            · subst hid
              rw [hrdw, List.getElem?_set_self hdlt0]
            · rw [List.getElem?_set_ne (fun h => hid h.symm)]
              exact hout i (by simp [hid, hi])
          rw [List.countP_cons, hrec]
          simp [heq]
      · -- the other buckets
        intro v hvne
        rw [List.countP_eq_zero]
        intro p hp
        have h := bucketOut_at g_minsup cardinalities d dims r0 l v hnodup hdims p hp
        simp only [decide_eq_true_eq]
        intro heq
        rw [heq, hrdw] at h
        simp only [Count.ofData, Option.some.injEq, Count.mk.injEq, and_true] at h
        omega

/-! ## Facts about the whole output -/

theorem isCombination_iff (n : Nat) (r : List Count) :
    isCombination n r = true ↔ r.length = n ∧ ∀ c ∈ r, c = ALL ∨ c.isAll = false := by
  simp [isCombination, List.all_eq_true]

theorem hasConcrete_iff (r : List Count) :
    hasConcrete r = true ↔ ∃ c ∈ r, c.isAll = false := by
  simp [hasConcrete, List.any_eq_true]

theorem hasConcrete_replicate_ALL (n : Nat) : hasConcrete (List.replicate n ALL) = false := by
  rw [Bool.eq_false_iff]
  intro h
  obtain ⟨c, hc, hall⟩ := (hasConcrete_iff _).1 h
  rw [List.mem_replicate] at hc
  rw [hc.2] at hall
  simp [ALL] at hall

theorem refines_iff (r1 r : List Count) :
    refines r1 r = true ↔ r1.length = r.length
      ∧ ∀ (i : Nat) (c : Count), r[i]? = some c → c.isAll = false → r1[i]? = some c := by
  simp only [refines, Bool.and_eq_true, decide_eq_true_eq, List.all_eq_true, List.mem_range]
  constructor
  · rintro ⟨hlen, h⟩
    refine ⟨hlen, ?_⟩
    intro i c hc hall
    have hi : i < r.length := (List.getElem?_eq_some_iff.1 hc).1
    have := h i hi
    rw [hc] at this
    simpa [hall] using this
  · rintro ⟨hlen, h⟩
    refine ⟨hlen, ?_⟩
    intro i hi
    rw [List.getElem?_eq_getElem hi]
    simp only [Bool.or_eq_true, decide_eq_true_eq]
    cases hall : r[i].isAll with
    | true => exact Or.inl rfl
    | false => exact Or.inr (h i r[i] (List.getElem?_eq_getElem hi) hall)

/-- The support does not grow when a record is refined. -/
theorem support_le_of_agrees (input : TupleVector) (r1 r : List Count)
    (h : ∀ t, agrees r1 t = true → agrees r t = true) : support input r1 ≤ support input r := by
  simp only [support, ← List.countP_eq_length_filter]
  exact List.countP_mono_left (fun t _ ht => h t ht)

theorem agrees_of_refines {r1 r : List Count} (h : refines r1 r = true) (t : Tuple)
    (ht : agrees r1 t = true) : agrees r t = true := by
  obtain ⟨_, h2⟩ := (refines_iff r1 r).1 h
  rw [agrees_iff] at ht ⊢
  intro i c hc hall
  exact ht i c (h2 i c hc hall) hall

theorem hasConcrete_of_refines {r1 r : List Count} (h : refines r1 r = true)
    (hr : hasConcrete r = true) : hasConcrete r1 = true := by
  obtain ⟨_, h2⟩ := (refines_iff r1 r).1 h
  obtain ⟨c, hc, hall⟩ := (hasConcrete_iff r).1 hr
  obtain ⟨i, hi, hget⟩ := List.getElem_of_mem hc
  have h1 := h2 i c (by rw [List.getElem?_eq_getElem hi, hget]) hall
  exact (hasConcrete_iff r1).2 ⟨c, List.getElem?_mem h1, hall⟩

/-- A pair of the output whose record holds a concrete value has an aggregate
that reaches the minimum support. -/
theorem emitted_threshold (input : TupleVector) (cardinalities : Tuple) (minsup : Int)
    (p : Emission) (hp : p ∈ emitted input cardinalities minsup)
    (hc : hasConcrete p.1 = true) : minsup ≤ p.2 := by
  obtain ⟨new, h, hnew⟩ := emitted_cons input cardinalities minsup
  rw [h, List.mem_cons] at hp
  rcases hp with hp | hp
  · subst hp
    rw [hasConcrete_replicate_ALL] at hc
    cases hc
  · exact hnew p hp

/-- Every record of the output is a group-by combination. -/
theorem emitted_isCombination (input : TupleVector) (cardinalities : Tuple) (minsup : Int)
    (hvalid : validDataset input cardinalities = true) (hmin : 1 ≤ minsup) :
    ∀ p ∈ emitted input cardinalities minsup, isCombination cardinalities.length p.1 = true := by
  intro p hp
  have hp := emitted_sub input cardinalities minsup hvalid hmin p hp
  rw [List.mem_cons] at hp
  rw [isCombination_iff]
  rcases hp with hp | hp
  · subst hp
    refine ⟨by simp, ?_⟩
    intro c hc
    exact Or.inl (List.mem_replicate.1 hc).2
  · obtain ⟨h1, _, _, h4⟩ := cubeBelow_rec minsup cardinalities (order_dimensions cardinalities)
      (List.replicate cardinalities.length ALL) input (order_dimensions_nodup cardinalities)
      (fun d hd => by simp [order_dimensions_lt cardinalities d hd]) p hp
    refine ⟨by simpa using h1, ?_⟩
    intro c hc
    rcases h4 c hc with h | h
    · exact Or.inl (List.mem_replicate.1 h).2
    · exact Or.inr h

/-- Completeness: when every cardinality is below `INT_MAX`, a combination
with a support of at least the minimum support, and the all-ALL combination,
is written exactly once. -/
theorem emitted_complete (input : TupleVector) (cardinalities : Tuple) (minsup : Int)
    (hvalid : validDataset input cardinalities = true) (hmin : 1 ≤ minsup)
    (hbound : ∀ C ∈ cardinalities, C < 2147483647) (r : List Count)
    (hr : isCombination cardinalities.length r = true)
    (hsup : minsup ≤ (support input r : Int) ∨ r = List.replicate cardinalities.length ALL) :
    (emitted input cardinalities minsup).countP (fun p => decide (p.1 = r)) = 1 := by
  obtain ⟨hlen, hcells⟩ := (isCombination_iff _ r).1 hr
  have hdims : ∀ d ∈ order_dimensions cardinalities,
      (List.replicate cardinalities.length ALL)[d]? = some ALL :=
    fun d hd => by simp [order_dimensions_lt cardinalities d hd]
  rw [emitted_eq input cardinalities minsup hvalid hmin hbound, List.countP_cons]
  by_cases hroot : r = List.replicate cardinalities.length ALL
  · subst hroot
    rw [cubeBelow_countP_self minsup cardinalities _ _ _ (order_dimensions_nodup cardinalities)
      hdims]
    simp
  · have h := cubeBelow_count minsup hmin cardinalities (order_dimensions cardinalities)
      (List.replicate cardinalities.length ALL) input r (order_dimensions_nodup cardinalities)
      hdims (fun t ht => validDataset_mem hvalid t ht) hroot (by simpa using hlen)
      (by
        intro i hi
        have hin : ¬ i < cardinalities.length := fun hlt =>
          hi ((List.Perm.mem_iff (order_dimensions_perm cardinalities)).2 (List.mem_range.2 hlt))
        rw [List.getElem?_eq_none (by omega), List.getElem?_eq_none (by simp; omega)])
      hcells (hsup.resolve_right hroot)
    rw [h, if_neg (by simpa using fun h => hroot (Eq.symm h))]

/-- Pruning monotonicity: with a pair whose record holds a concrete value at
`j`, the output has a pair for the record with `j` set to ALL, and its
aggregate is not smaller. -/
theorem emitted_relax (input : TupleVector) (cardinalities : Tuple) (minsup : Int)
    (hvalid : validDataset input cardinalities = true) (hmin : 1 ≤ minsup)
    (p : Emission) (hp : p ∈ emitted input cardinalities minsup)
    (j : Nat) (c : Count) (hj : p.1[j]? = some c) (hc : c.isAll = false) :
    ∃ q ∈ emitted input cardinalities minsup, q.1 = p.1.set j ALL ∧ p.2 ≤ q.2 := by
  have hsound := emitted_sound input cardinalities minsup hvalid hmin
  have hpc : hasConcrete p.1 = true :=
    (hasConcrete_iff p.1).2 ⟨c, List.getElem?_mem hj, hc⟩
  have hbound : ∀ C ∈ cardinalities, C < 2147483647 := by
    intro C hC
    by_contra hge
    rw [emitted_overflow input cardinalities minsup ⟨C, hC, by omega⟩,
      List.mem_singleton] at hp
    rw [hp, hasConcrete_replicate_ALL] at hpc
    cases hpc
  have hthr := emitted_threshold input cardinalities minsup p hp hpc
  obtain ⟨hlen, hcells⟩ := (isCombination_iff _ p.1).1
    (emitted_isCombination input cardinalities minsup hvalid hmin p hp)
  have hcomb : isCombination cardinalities.length (p.1.set j ALL) = true := by
    rw [isCombination_iff]
    refine ⟨by simpa using hlen, ?_⟩
    intro c1 hc1
    rcases List.mem_or_eq_of_mem_set hc1 with h | h
    · exact hcells c1 h
    · exact Or.inl h
  have hle : support input p.1 ≤ support input (p.1.set j ALL) :=
    support_le_of_agrees input _ _ (fun t ht => agrees_set_ALL ht j)
  have hcount := emitted_complete input cardinalities minsup hvalid hmin hbound
    (p.1.set j ALL) hcomb
    (Or.inl (by rw [hsound p hp] at hthr; omega))
  have hpos : 0 < (emitted input cardinalities minsup).countP
      (fun q => decide (q.1 = p.1.set j ALL)) := by omega
  obtain ⟨q, hq, hqr⟩ := List.countP_pos_iff.1 hpos
  have hqr1 : q.1 = p.1.set j ALL := by simpa using hqr
  refine ⟨q, hq, hqr1, ?_⟩
  rw [hsound p hp, hsound q hq, hqr1]
  exact_mod_cast hle

/-- No refinement of a bucket whose support is below the minimum support is in
the output. -/
theorem emitted_pruned (input : TupleVector) (cardinalities : Tuple) (minsup : Int)
    (hvalid : validDataset input cardinalities = true) (r : List Count)
    (hr : hasConcrete r = true) (hlow : (support input r : Int) < minsup) :
    ∀ p ∈ emitted input cardinalities minsup, refines p.1 r = false := by
  intro p hp
  rw [Bool.eq_false_iff]
  intro href
  have hmin : 1 ≤ minsup := by omega
  have hthr := emitted_threshold input cardinalities minsup p hp
    (hasConcrete_of_refines href hr)
  rw [emitted_sound input cardinalities minsup hvalid hmin p hp] at hthr
  have hle := support_le_of_agrees input p.1 r (fun t ht => agrees_of_refines href t ht)
  omega

/-! ## The partitioner as a stable sort -/

theorem sum_bucket_lengths (d : Nat) (L : List Tuple) :
    ∀ N : Nat, ((List.range N).map (fun (v : Nat) => ((bucket d (v : Int) L).length : Int))).sum
      = (((List.range N).flatMap (fun (v : Nat) => bucket d (v : Int) L)).length : Int)
  | 0 => by simp
  | N + 1 => by
    rw [List.range_succ, List.map_append, List.sum_append, List.flatMap_append,
      List.length_append, sum_bucket_lengths d L N]
    simp

theorem slice_setSlice (input : TupleVector) (b e : Nat) (hbe : b ≤ e)
    (he : e ≤ input.length) (l : List Tuple) (hl : l.length = e - b) :
    slice (setSlice input b e l) b e = l := by
  have hb : (input.take b).length = b := by simp; omega
  have h := slice_append (input.take b) l (input.drop e)
  rw [hb, hl] at h
  have hbe2 : b + (e - b) = e := by omega
  rw [hbe2] at h
  exact h

/-- What `partition_input` leaves when it returns: the range is its former
contents sorted with the stable sort, the rest of the vector is as before. -/
theorem partition_input_returns (b e d : Nat) (C : Int) (dataCount : List Int) (s s1 : State)
    (dc : List Int) (h : partition_input b e d C dataCount s = .ok (s1, dc)) :
    s1.input = setSlice s.input b e (stable_sort (tuple_less_than d) (slice s.input b e))
      ∧ s1.g_outputRec = s.g_outputRec := by
  unfold partition_input at h
  split at h
  · cases h
  · split at h
    · cases h
    · simp only [] at h
      split at h
      · cases h
      · cases h
        exact ⟨rfl, rfl⟩

/-! ## The recursive call -/

/-- The call inside the dimension loop is the recursive call
`bottom_up_cube(input, cardinalities, dIndex+1, k, k + c)`. -/
theorem recursive_call_eq (g_minsup : Int) (g_dimensionIndices : List Nat)
    (cardinalities : Tuple) (rem dIndex : Nat) (h : dIndex + (rem + 1) = cardinalities.length)
    (k e : Nat) (st : State) :
    dimensionLoop g_minsup g_dimensionIndices cardinalities rem (dIndex + 1) k e
        (aggregateInput k e st)
      = bottom_up_cube g_minsup g_dimensionIndices cardinalities (dIndex + 1) k e st := by
  have hrem : cardinalities.length - (dIndex + 1) = rem := by omega
  unfold bottom_up_cube
  rw [if_neg (by omega), hrem]

/-! ## The properties of the specification -/

/-- C1, soundness of the cube: on a dataset whose tuples have one value per
dimension, each in `[0, cardinality[d]]`, with a minimum support of at least
one, the dimension order of `order_dimensions` and an all-ALL output record,
the aggregate of every pair written by `bottom_up_cube(dataset, 0)` is the
number of tuples of the dataset that agree with the record of the pair on
every dimension where the record holds a concrete value. -/
theorem cube_soundness (input : TupleVector) (cardinalities : Tuple) (minsup : Int)
    (hvalid : validDataset input cardinalities = true) (hmin : 1 ≤ minsup)
    (p : Emission) (hp : p ∈ emitted input cardinalities minsup) :
    p.2 = (support input p.1 : Int) :=
  emitted_sound input cardinalities minsup hvalid hmin p hp

theorem cube_soundness_witness :
    validDataset [[0, 0], [0, 1], [1, 0]] [1, 1] = true ∧ (1 : Int) ≤ 2
      ∧ ([Count.ofData 0, ALL], (2 : Int)) ∈ emitted [[0, 0], [0, 1], [1, 0]] [1, 1] 2
      ∧ (2 : Int) = (support [[0, 0], [0, 1], [1, 0]] [Count.ofData 0, ALL] : Int) :=
  ⟨by decide, by decide, by decide,
    cube_soundness [[0, 0], [0, 1], [1, 0]] [1, 1] 2 (by decide) (by decide)
      ([Count.ofData 0, ALL], 2) (by decide)⟩

/-- Completeness of the iceberg cube below the overflow: on a valid dataset,
with a minimum support of at least one and every cardinality below `INT_MAX`,
every group-by combination whose number of matching tuples reaches the minimum
support is written exactly once, and the all-ALL combination is written
exactly once whatever its count. -/
theorem cube_completeness (input : TupleVector) (cardinalities : Tuple) (minsup : Int)
    (hvalid : validDataset input cardinalities = true) (hmin : 1 ≤ minsup)
    (hbound : ∀ C ∈ cardinalities, C < 2147483647) (r : List Count)
    (hr : isCombination cardinalities.length r = true)
    (hsup : minsup ≤ (support input r : Int) ∨ r = List.replicate cardinalities.length ALL) :
    (emitted input cardinalities minsup).countP (fun p => decide (p.1 = r)) = 1 :=
  emitted_complete input cardinalities minsup hvalid hmin hbound r hr hsup

theorem cube_completeness_witness :
    validDataset [[0, 0], [0, 1], [1, 0]] [1, 1] = true ∧ (1 : Int) ≤ 2
      ∧ (∀ C ∈ ([1, 1] : Tuple), C < 2147483647)
      ∧ isCombination 2 [ALL, Count.ofData 0] = true
      ∧ (2 : Int) ≤ (support [[0, 0], [0, 1], [1, 0]] [ALL, Count.ofData 0] : Int)
      ∧ (emitted [[0, 0], [0, 1], [1, 0]] [1, 1] 2).countP
          (fun p => decide (p.1 = [ALL, Count.ofData 0])) = 1 :=
  ⟨by decide, by decide, by decide, by decide, by decide,
    cube_completeness [[0, 0], [0, 1], [1, 0]] [1, 1] 2 (by decide) (by decide) (by decide)
      [ALL, Count.ofData 0] (by decide) (Or.inl (by decide))⟩

/-- C2, the code at the cardinality `INT_MAX`: on the dataset `(0)` with
cardinality 2147483647 and minimum support 1, which is valid, the combination
`(0)` has one matching tuple, yet the run stops at `vector<int> dataCount(C+1)`,
where `C+1` overflows, right after the all-ALL pair: `(0)` is never
written. -/
theorem completeness_lost_at_int_max :
    validDataset [[0]] [2147483647] = true
      ∧ isCombination ([2147483647] : Tuple).length [Count.ofData 0] = true
      ∧ (1 : Int) ≤ (support [[0]] [Count.ofData 0] : Int)
      ∧ runCube [[0]] [2147483647] 1 = .error (State.mk [[0]] [ALL] [([ALL], 1)] [])
      ∧ (emitted [[0]] [2147483647] 1).countP (fun p => decide (p.1 = [Count.ofData 0])) = 0 :=
  ⟨by decide, by decide, by decide, rfl, by decide⟩

/-- C3, threshold correctness: on a valid dataset and for every minimum
support, no pair written by `bottom_up_cube` whose record holds a concrete
value has an aggregate below the minimum support, and no record of the output
refines a bucket (a record with a concrete value) whose count is below the
minimum support. -/
theorem threshold_correctness (input : TupleVector) (cardinalities : Tuple) (minsup : Int)
    (hvalid : validDataset input cardinalities = true) :
    (∀ p ∈ emitted input cardinalities minsup, hasConcrete p.1 = true → minsup ≤ p.2)
      ∧ (∀ r : List Count, hasConcrete r = true → (support input r : Int) < minsup →
          ∀ p ∈ emitted input cardinalities minsup, refines p.1 r = false) :=
  ⟨fun p hp hc => emitted_threshold input cardinalities minsup p hp hc,
    fun r hr hlow => emitted_pruned input cardinalities minsup hvalid r hr hlow⟩

theorem threshold_correctness_witness :
    validDataset [[0, 0], [0, 1], [1, 0]] [1, 1] = true
      ∧ ([Count.ofData 0, ALL], (2 : Int)) ∈ emitted [[0, 0], [0, 1], [1, 0]] [1, 1] 2
      ∧ hasConcrete [Count.ofData 0, ALL] = true ∧ (2 : Int) ≤ 2
      ∧ hasConcrete [Count.ofData 1, ALL] = true
      ∧ (support [[0, 0], [0, 1], [1, 0]] [Count.ofData 1, ALL] : Int) < 2
      ∧ refines [Count.ofData 1, Count.ofData 0] [Count.ofData 1, ALL] = true
      ∧ ∀ p ∈ emitted [[0, 0], [0, 1], [1, 0]] [1, 1] 2,
          refines p.1 [Count.ofData 1, ALL] = false :=
  ⟨by decide, by decide, by decide,
    (threshold_correctness [[0, 0], [0, 1], [1, 0]] [1, 1] 2 (by decide)).1
      ([Count.ofData 0, ALL], 2) (by decide) (by decide),
    by decide, by decide, by decide,
    (threshold_correctness [[0, 0], [0, 1], [1, 0]] [1, 1] 2 (by decide)).2
      [Count.ofData 1, ALL] (by decide) (by decide)⟩

/-- C4, root aggregate: for every dataset and every minimum support, the first
pair written by the top-level call `bottom_up_cube(dataset, 0)` is the all-ALL
record with the number of tuples of the dataset, also when that number is
below the minimum support. -/
theorem root_aggregate (input : TupleVector) (cardinalities : Tuple) (minsup : Int) :
    (emitted input cardinalities minsup).head?
      = some (List.replicate cardinalities.length ALL, (input.length : Int)) := by
  obtain ⟨new, h, _⟩ := emitted_cons input cardinalities minsup
  rw [h]
  rfl

/-- C5, pruning monotonicity: on a valid dataset and with a minimum support of
at least one, when a pair is written whose record holds a concrete value at a
dimension `j`, the record with `j` replaced by ALL is written too, with an
aggregate that is not smaller. -/
theorem pruning_monotonicity (input : TupleVector) (cardinalities : Tuple) (minsup : Int)
    (hvalid : validDataset input cardinalities = true) (hmin : 1 ≤ minsup)
    (p : Emission) (hp : p ∈ emitted input cardinalities minsup)
    (j : Nat) (c : Count) (hj : p.1[j]? = some c) (hc : c.isAll = false) :
    ∃ q ∈ emitted input cardinalities minsup, q.1 = p.1.set j ALL ∧ p.2 ≤ q.2 :=
  emitted_relax input cardinalities minsup hvalid hmin p hp j c hj hc

theorem pruning_monotonicity_witness :
    validDataset [[0, 0], [0, 1], [1, 0]] [1, 1] = true ∧ (1 : Int) ≤ 1
      ∧ ([Count.ofData 0, Count.ofData 1], (1 : Int)) ∈ emitted [[0, 0], [0, 1], [1, 0]] [1, 1] 1
      ∧ ∃ q ∈ emitted [[0, 0], [0, 1], [1, 0]] [1, 1] 1,
          q.1 = [Count.ofData 0, Count.ofData 1].set 1 ALL ∧ (1 : Int) ≤ q.2 :=
  ⟨by decide, by decide, by decide,
    pruning_monotonicity [[0, 0], [0, 1], [1, 0]] [1, 1] 1 (by decide) (by decide)
      ([Count.ofData 0, Count.ofData 1], 1) (by decide) 1 (Count.ofData 1) (by decide)
      (by decide)⟩

/-- On a range whose values at `d` lie in `[0, C]` and with `C + 1` zeroed
counts, `partition_input` returns and the counts sum to the length of the
range. -/
theorem partition_input_sum (s : State) (b e d : Nat) (C : Int) (dataCount : List Int)
    (hbe : b ≤ e) (he : e ≤ s.input.length)
    (hvals : ∀ t ∈ slice s.input b e, ∃ v, t[d]? = some v ∧ 0 ≤ v ∧ v ≤ C)
    (hlen : (dataCount.length : Int) = C + 1) (hzero : ∀ c ∈ dataCount, c = 0) :
    ∃ s1 dc, partition_input b e d C dataCount s = .ok (s1, dc)
      ∧ (dc.length : Int) = C + 1 ∧ dc.sum = (e : Int) - (b : Int) := by
  obtain ⟨hsplit, hP, hL⟩ := split_range s.input b e hbe he
  have hdc : dataCount = List.replicate dataCount.length 0 :=
    List.eq_replicate_iff.2 ⟨rfl, hzero⟩
  have hpart := partition_input_ok d C dataCount.length hlen s (s.input.take b)
    (slice s.input b e) (s.input.drop e) hsplit hvals
  rw [hP, hL, ← hdc] at hpart
  have hbe2 : b + (e - b) = e := by omega
  rw [hbe2] at hpart
  refine ⟨_, _, hpart, ?_, ?_⟩
  · simpa using hlen
  · rw [sum_bucket_lengths, (buckets_perm d C dataCount.length hlen _ hvals).length_eq, hL]
    omega

/-- C6, partition conservation: for a range of tuples whose values at
dimension `d` lie in `[0, C]` and a count vector of `C + 1` zeros,
`partition_input` returns and the `C + 1` bucket counts sum to the number of
tuples of the range. -/
theorem partition_conservation (s : State) (b e d : Nat) (C : Int) (dataCount : List Int)
    (hbe : b ≤ e) (he : e ≤ s.input.length)
    (hvals : ∀ t ∈ slice s.input b e, ∃ v, t[d]? = some v ∧ 0 ≤ v ∧ v ≤ C)
    (hlen : (dataCount.length : Int) = C + 1) (hzero : ∀ c ∈ dataCount, c = 0) :
    ∃ s1 dc, partition_input b e d C dataCount s = .ok (s1, dc)
      ∧ (dc.length : Int) = C + 1 ∧ dc.sum = (e : Int) - (b : Int) :=
  partition_input_sum s b e d C dataCount hbe he hvals hlen hzero

theorem partition_conservation_witness :
    ∃ s1 dc, partition_input 1 4 0 2 [0, 0, 0] (initialState [[9], [2], [0], [2], [7]] [2])
        = .ok (s1, dc)
      ∧ (dc.length : Int) = 2 + 1 ∧ dc.sum = ((4 : Nat) : Int) - ((1 : Nat) : Int) :=
  partition_conservation (initialState [[9], [2], [0], [2], [7]] [2]) 1 4 0 2 [0, 0, 0]
    (by decide) (by decide) (by decide) (by decide) (by decide)

/-- C7, the partition is a stable sort on one dimension: when `partition_input`
returns, the range is a permutation of its former contents, the values at
dimension `d` do not decrease along the range, and for every value the tuples
with that value at `d` are in the order they had before the call; it returns
whenever the values of the range at `d` lie in `[0, C]` and the count vector
has `C + 1` zeros. -/
theorem partition_stable_sort (s : State) (b e d : Nat) (C : Int) (dataCount : List Int)
    (hbe : b ≤ e) (he : e ≤ s.input.length) :
    ((∀ t ∈ slice s.input b e, ∃ v, t[d]? = some v ∧ 0 ≤ v ∧ v ≤ C) →
        (dataCount.length : Int) = C + 1 → (∀ c ∈ dataCount, c = 0) →
        ∃ s1 dc, partition_input b e d C dataCount s = .ok (s1, dc))
      ∧ ∀ s1 dc, partition_input b e d C dataCount s = .ok (s1, dc) →
          (slice s1.input b e).Perm (slice s.input b e)
            ∧ (slice s1.input b e).Pairwise (fun t u => t.getD d 0 ≤ u.getD d 0)
            ∧ ∀ v : Int, bucket d v (slice s1.input b e) = bucket d v (slice s.input b e) := by
  constructor
  · intro hvals hlen hzero
    obtain ⟨s1, dc, h, _⟩ :=
      partition_input_sum s b e d C dataCount hbe he hvals hlen hzero
    exact ⟨s1, dc, h⟩
  · intro s1 dc h
    obtain ⟨hin, _⟩ := partition_input_returns b e d C dataCount s s1 dc h
    obtain ⟨_, _, hL⟩ := split_range s.input b e hbe he
    have hslice : slice s1.input b e = stable_sort (tuple_less_than d) (slice s.input b e) := by
      rw [hin]
      exact slice_setSlice s.input b e hbe he _
        (by rw [(stable_sort_perm _ _).length_eq, hL])
    rw [hslice]
    refine ⟨stable_sort_perm _ _, ?_, ?_⟩
    · exact stable_sort_sorted (tuple_less_than d) (fun t : Tuple => t.getD d 0)
        (tuple_less_than_key d) _
    · intro v
      exact stable_sort_filter (tuple_less_than d) (fun t : Tuple => t.getD d 0)
        (tuple_less_than_key d) v _

theorem partition_stable_sort_witness :
    (1 ≤ 4 ∧ 4 ≤ (initialState [[9, 0], [2, 1], [0, 2], [2, 3], [7, 4]] [2, 4]).input.length)
      ∧ partition_input 1 4 0 2 [0, 0, 0]
          (initialState [[9, 0], [2, 1], [0, 2], [2, 3], [7, 4]] [2, 4])
        = .ok (initialState [[9, 0], [0, 2], [2, 1], [2, 3], [7, 4]] [2, 4], [1, 0, 2])
      ∧ (slice [[9, 0], [0, 2], [2, 1], [2, 3], [7, 4]] 1 4).Perm
          (slice [[9, 0], [2, 1], [0, 2], [2, 3], [7, 4]] 1 4)
      ∧ (slice [[9, 0], [0, 2], [2, 1], [2, 3], [7, 4]] 1 4).Pairwise
          (fun t u => t.getD 0 0 ≤ u.getD 0 0)
      ∧ ∀ v : Int, bucket 0 v (slice [[9, 0], [0, 2], [2, 1], [2, 3], [7, 4]] 1 4)
          = bucket 0 v (slice [[9, 0], [2, 1], [0, 2], [2, 3], [7, 4]] 1 4) :=
  ⟨⟨by decide, by decide⟩, rfl,
    (partition_stable_sort (initialState [[9, 0], [2, 1], [0, 2], [2, 3], [7, 4]] [2, 4])
      1 4 0 2 [0, 0, 0] (by decide) (by decide)).2
      (initialState [[9, 0], [0, 2], [2, 1], [2, 3], [7, 4]] [2, 4]) [1, 0, 2] rfl⟩

/-- C8, dimension ordering: for a cardinality vector of length `n`,
`order_dimensions` gives a sequence of length `n` that is a permutation of
`0..n-1`, along which the cardinalities do not increase, and in which two
dimensions of equal cardinality are in increasing order of their index. -/
theorem dimension_ordering (cardinalities : Tuple) :
    (order_dimensions cardinalities).length = cardinalities.length
      ∧ (order_dimensions cardinalities).Perm (List.range cardinalities.length)
      ∧ (order_dimensions cardinalities).Pairwise
          (fun i j => cardinalities.getD i 0 ≥ cardinalities.getD j 0)
      ∧ (order_dimensions cardinalities).Pairwise
          (fun i j => cardinalities.getD i 0 = cardinalities.getD j 0 → i < j) :=
  ⟨order_dimensions_length cardinalities, order_dimensions_perm cardinalities,
    order_dimensions_sorted cardinalities, order_dimensions_stable cardinalities⟩

/-- C9 as stated fails: in the scenario with minimum support 2 the pair
`(0,*)` is not written with the aggregate 2. -/
theorem scenario_as_stated_fails :
    ¬ ((order_dimensions [2, 2]).head? = some 0
      ∧ ([ALL, ALL], (5 : Int)) ∈ emitted [[0, 0], [0, 0], [0, 1], [1, 0], [1, 1]] [2, 2] 2
      ∧ ([Count.ofData 0, ALL], (2 : Int))
          ∈ emitted [[0, 0], [0, 0], [0, 1], [1, 0], [1, 1]] [2, 2] 2
      ∧ ([Count.ofData 0, Count.ofData 0], (2 : Int))
          ∈ emitted [[0, 0], [0, 0], [0, 1], [1, 0], [1, 1]] [2, 2] 2
      ∧ ([Count.ofData 1, ALL], (2 : Int))
          ∈ emitted [[0, 0], [0, 0], [0, 1], [1, 0], [1, 1]] [2, 2] 2
      ∧ ∀ p ∈ emitted [[0, 0], [0, 0], [0, 1], [1, 0], [1, 1]] [2, 2] 2,
          p.1 ≠ [Count.ofData 0, Count.ofData 1] ∧ p.1 ≠ [Count.ofData 1, Count.ofData 0]
            ∧ p.1 ≠ [Count.ofData 1, Count.ofData 1]) := by
  decide

/-- C9 amended: in the scenario with minimum support 2, `order_dimensions`
puts dimension 0 first and `bottom_up_cube` writes `(*,*)` with 5, `(0,*)`
with 3, `(0,0)` with 2 and `(1,*)` with 2, and nothing for `(0,1)`, `(1,0)`
and `(1,1)`. -/
theorem scenario_minsup_two :
    (order_dimensions [2, 2]).head? = some 0
      ∧ ([ALL, ALL], (5 : Int)) ∈ emitted [[0, 0], [0, 0], [0, 1], [1, 0], [1, 1]] [2, 2] 2
      ∧ ([Count.ofData 0, ALL], (3 : Int))
          ∈ emitted [[0, 0], [0, 0], [0, 1], [1, 0], [1, 1]] [2, 2] 2
      ∧ ([Count.ofData 0, Count.ofData 0], (2 : Int))
          ∈ emitted [[0, 0], [0, 0], [0, 1], [1, 0], [1, 1]] [2, 2] 2
      ∧ ([Count.ofData 1, ALL], (2 : Int))
          ∈ emitted [[0, 0], [0, 0], [0, 1], [1, 0], [1, 1]] [2, 2] 2
      ∧ ∀ p ∈ emitted [[0, 0], [0, 0], [0, 1], [1, 0], [1, 1]] [2, 2] 2,
          p.1 ≠ [Count.ofData 0, Count.ofData 1] ∧ p.1 ≠ [Count.ofData 1, Count.ofData 0]
            ∧ p.1 ≠ [Count.ofData 1, Count.ofData 1] := by
  decide

/-- C10, the code with minimum support 0: on the dataset `(1)` with
cardinality 1 the empty bucket of value 0 is entered and written, under the
value of the next tuple and with aggregate 0, so that three pairs are written
for two non-empty cells; on the dataset `(0)` the empty bucket of value 1 is
entered with the iterator at the end of the vector and the run stops at the
dereference. -/
theorem minsup_zero_enters_empty_buckets :
    emitted [[1]] [1] 0
        = [([ALL], 1), ([Count.ofData 1], 0), ([Count.ofData 1], 1)]
      ∧ runCube [[0]] [1] 0
        = .error (State.mk [[0]] [Count.ofData 0] [([ALL], 1), ([Count.ofData 0], 1)]
            [("a", 1)]) :=
  ⟨by decide, rfl⟩

/-! ## The recorder as a map -/

theorem mapIncr_keys (key : String) (m : List (String × Int)) (k : String)
    (hk : k ∈ (mapIncr key m).map Prod.fst) : k = key ∨ k ∈ m.map Prod.fst := by
  induction m with
  | nil => simp [mapIncr] at hk; exact Or.inl hk
  | cons p m ih =>
    obtain ⟨k1, v1⟩ := p
    simp only [mapIncr] at hk
    split at hk
    · simp only [List.map_cons, List.mem_cons] at hk ⊢
      exact Or.inr hk
    · split at hk
      · simp only [List.map_cons, List.mem_cons] at hk ⊢
        exact hk
      · simp only [List.map_cons, List.mem_cons] at hk ⊢
        rcases hk with hk | hk
        · exact Or.inr (Or.inl hk)
        · rcases ih hk with h | h
          · exact Or.inl h
          · exact Or.inr (Or.inr h)

/-- The map stays ordered by key, each key once. -/
theorem mapIncr_sorted (key : String) (m : List (String × Int))
    (hm : (m.map Prod.fst).Pairwise (fun a b => a < b)) :
    ((mapIncr key m).map Prod.fst).Pairwise (fun a b => a < b) := by
  induction m with
  | nil => simp [mapIncr]
  | cons p m ih =>
    obtain ⟨k1, v1⟩ := p
    simp only [List.map_cons, List.pairwise_cons] at hm
    simp only [mapIncr]
    split
    · simpa using hm
    · rename_i hne
      split
      · rename_i hlt
        simp only [List.map_cons, List.pairwise_cons]
        refine ⟨?_, hm⟩
        intro k hk
        rcases List.mem_cons.1 hk with hk | hk
        · rw [hk]; exact hlt
        · exact lt_trans hlt (hm.1 k hk)
      · rename_i hnlt
        simp only [List.map_cons, List.pairwise_cons]
        refine ⟨?_, ih hm.2⟩
        intro k hk
        rcases mapIncr_keys key m k hk with h | h
        · rw [h]
          rcases lt_trichotomy key k1 with h1 | h1 | h1
          · exact absurd h1 hnlt
          · exact absurd h1 hne
          · exact h1
        · exact hm.1 k h

theorem lookup_of_lt (key : String) (m : List (String × Int))
    (h : ∀ k ∈ m.map Prod.fst, key < k) : m.lookup key = none := by
  induction m with
  | nil => rfl
  | cons p m ih =>
    obtain ⟨k1, v1⟩ := p
    have h1 : key < k1 := h k1 (by simp)
    have hne : (key == k1) = false := by
      simp only [beq_eq_false_iff_ne, ne_eq]
      exact ne_of_lt h1
    simp only [List.lookup, hne]
    exact ih (fun k hk => h k (by simp at hk ⊢; exact Or.inr hk))

/-- The count of a key after `cuboidCount[key]++`: one more for that key, as
before for every other key. -/
theorem recorded_mapIncr (key : String) (m : List (String × Int))
    (hm : (m.map Prod.fst).Pairwise (fun a b => a < b)) (k : String) :
    recorded (mapIncr key m) k = recorded m k + if k = key then 1 else 0 := by
  induction m with
  | nil =>
    by_cases hk : k = key
    · subst hk; simp [recorded, mapIncr, List.lookup]
    · have : (k == key) = false := by simpa using hk
      simp [recorded, mapIncr, List.lookup, this, hk]
  | cons p m ih =>
    obtain ⟨k1, v1⟩ := p
    simp only [List.map_cons, List.pairwise_cons] at hm
    simp only [mapIncr]
    split
    · rename_i heq
      subst heq
      by_cases hk : k = key
      · subst hk; simp [recorded, List.lookup]
      · have : (k == key) = false := by simpa using hk
        simp [recorded, List.lookup, this, hk]
    · rename_i hne
      split
      · rename_i hlt
        by_cases hk : k = key
        · subst hk
          have hnone : ((k1, v1) :: m).lookup k = none := by
            apply lookup_of_lt
            intro k2 hk2
            simp only [List.map_cons, List.mem_cons] at hk2
            rcases hk2 with hk2 | hk2
            · rw [hk2]; exact hlt
            · exact lt_trans hlt (hm.1 k2 hk2)
          have hl : recorded ((k1, v1) :: m) k = 0 := by
            simp only [recorded, hnone]
            rfl
          rw [hl]
          simp [recorded, List.lookup]
        · have : (k == key) = false := by simpa using hk
          simp [recorded, List.lookup, this, hk]
      · by_cases hk1 : k = k1
        · subst hk1
          have hkk : ¬ k = key := fun h => hne h.symm
          simp [recorded, List.lookup, hkk]
        · have h1 : (k == k1) = false := by simpa using hk1
          have ih1 := ih hm.2
          simp only [recorded, List.lookup, h1] at ih1 ⊢
          exact ih1

theorem recordAll_cons (p : Emission) (es : List Emission) (m : List (String × Int)) :
    recordAll (p :: es) m
      = recordAll es (if cuboidId p.1 ≠ "" then mapIncr (cuboidId p.1) m else m) := by
  simp [recordAll]

theorem recordAll_sorted (es : List Emission) :
    ∀ m : List (String × Int), (m.map Prod.fst).Pairwise (fun a b => a < b) →
      ((recordAll es m).map Prod.fst).Pairwise (fun a b => a < b) := by
  induction es with
  | nil => intro m hm; simpa [recordAll] using hm
  | cons p es ih =>
    intro m hm
    rw [recordAll_cons]
    apply ih
    split
    · exact mapIncr_sorted _ m hm
    · exact hm

/-- The count of a cuboid name after the records of a list of emissions are
counted: one more for each record of that name, when the name is not empty. -/
theorem recorded_recordAll (es : List Emission) (k : String) :
    ∀ m : List (String × Int), (m.map Prod.fst).Pairwise (fun a b => a < b) →
      recorded (recordAll es m) k
        = recorded m k
          + (es.countP (fun p => decide (cuboidId p.1 = k) && decide (k ≠ "")) : Nat) := by
  induction es with
  | nil => intro m _; simp [recordAll]
  | cons p es ih =>
    intro m hm
    rw [recordAll_cons, List.countP_cons]
    by_cases hid : cuboidId p.1 ≠ ""
    · rw [if_pos hid, ih _ (mapIncr_sorted _ m hm), recorded_mapIncr _ m hm]
      by_cases hk : k = cuboidId p.1
      · subst hk
        simp [hid]
        omega
      · have hk1 : ¬ cuboidId p.1 = k := fun h => hk h.symm
        simp [hk, hk1]
    · rw [if_neg hid, ih _ hm]
      have hid1 : cuboidId p.1 = "" := by simpa using hid
      by_cases hk : k = ""
      · subst hk; simp
      · have hk1 : ¬ cuboidId p.1 = k := by rw [hid1]; exact fun h => hk h.symm
        simp [hk1]

/-! ## The recorder follows the output in every run -/

theorem partition_input_cuboidCount (b e d : Nat) (C : Int) (dataCount : List Int) (s : State) :
    (∀ s1 dc, partition_input b e d C dataCount s = .ok (s1, dc) →
        s1.cuboidCount = s.cuboidCount)
      ∧ (∀ s1, partition_input b e d C dataCount s = .error s1 →
        s1.cuboidCount = s.cuboidCount) := by
  unfold partition_input
  constructor
  · intro s1 dc h
    split at h
    · cases h
    · split at h
      · cases h
      · simp only [] at h
        split at h
        · cases h
        · cases h; rfl
  · intro s1 h
    split at h
    · cases h; rfl
    · split at h
      · cases h; rfl
      · simp only [] at h
        split at h
        · cases h; rfl
        · cases h

/-- In the bucket loop, what is counted is what is written, when this holds
of the recursive call. -/
theorem bucketLoop_records (g_minsup : Int) (recur : Nat → Nat → State → Run) (d : Nat)
    (dataCount : List Int)
    (hrec : ∀ (k e : Nat) (st : State),
      ∃ new, (recur k e st).final.outfile1 = st.outfile1 ++ new
        ∧ (recur k e st).final.cuboidCount = recordAll new st.cuboidCount) :
    ∀ (n i k : Nat) (s : State),
      ∃ new, (bucketLoop g_minsup recur d dataCount n i k s).final.outfile1 = s.outfile1 ++ new
        ∧ (bucketLoop g_minsup recur d dataCount n i k s).final.cuboidCount
            = recordAll new s.cuboidCount := by
  intro n
  induction n with
  | zero => intro i k s; exact ⟨[], by simp [bucketLoop, Run.final], by simp [bucketLoop, Run.final, recordAll]⟩
  | succ n ih =>
    intro i k s
    simp only [bucketLoop]
    cases hdc : dataCount[i]? with
    | none => exact ⟨[], by simp [Run.final], by simp [Run.final, recordAll]⟩
    | some c =>
      simp only []
      by_cases hc : c ≥ g_minsup
      · rw [if_pos hc]
        cases hk : s.input[k]? with
        | none => exact ⟨[], by simp [Run.final], by simp [Run.final, recordAll]⟩
        | some t =>
          simp only []
          cases hv : t[d]? with
          | none => exact ⟨[], by simp [Run.final], by simp [Run.final, recordAll]⟩
          | some v =>
            simp only [setOutputRec]
            by_cases hd : d < s.g_outputRec.length
            · rw [if_pos hd]
              simp only []
              obtain ⟨new1, h1, h1c⟩ := hrec k (k + c.toNat)
                { s with g_outputRec := s.g_outputRec.set d (Count.ofData v) }
              cases hr : recur k (k + c.toNat)
                  { s with g_outputRec := s.g_outputRec.set d (Count.ofData v) } with
              | error s2 =>
                rw [hr] at h1 h1c
                exact ⟨new1, h1, h1c⟩
              | ok s2 =>
                rw [hr] at h1 h1c
                simp only [Run.final] at h1 h1c
                simp only []
                obtain ⟨new2, h2, h2c⟩ := ih (i + 1) (k + c.toNat) s2
                refine ⟨new1 ++ new2, ?_, ?_⟩
                · rw [h2, h1, List.append_assoc]
                · rw [h2c, h1c, recordAll_append]
            · rw [if_neg hd]
              exact ⟨[], by simp [Run.final], by simp [Run.final, recordAll]⟩
      · rw [if_neg hc]
        exact ih (i + 1) (k + c.toNat) s

/-- In the dimension loop, what is counted is what is written. -/
theorem dimensionLoop_records (g_minsup : Int) (g_dimensionIndices : List Nat)
    (cardinalities : Tuple) :
    ∀ (rem dIndex b e : Nat) (s : State),
      ∃ new, (dimensionLoop g_minsup g_dimensionIndices cardinalities rem dIndex b e s).final.outfile1
          = s.outfile1 ++ new
        ∧ (dimensionLoop g_minsup g_dimensionIndices cardinalities rem dIndex b e s).final.cuboidCount
          = recordAll new s.cuboidCount := by
  intro rem
  induction rem with
  | zero =>
    intro dIndex b e s
    exact ⟨[], by simp [dimensionLoop, Run.final], by simp [dimensionLoop, Run.final, recordAll]⟩
  | succ rem ih =>
    intro dIndex b e s
    simp only [dimensionLoop]
    cases hd : g_dimensionIndices[dIndex]? with
    | none => exact ⟨[], by simp [Run.final], by simp [Run.final, recordAll]⟩
    | some d =>
      simp only []
      cases hC : cardinalities[d]? with
      | none => exact ⟨[], by simp [Run.final], by simp [Run.final, recordAll]⟩
      | some C =>
        simp only []
        by_cases hneg : C + 1 < 0 ∨ 2147483647 < C + 1
        · rw [if_pos hneg]
          exact ⟨[], by simp [Run.final], by simp [Run.final, recordAll]⟩
        · rw [if_neg hneg]
          obtain ⟨hpok, hperr⟩ :=
            partition_input_outfile1 b e d C (List.replicate (C + 1).toNat 0) s
          obtain ⟨hcok, hcerr⟩ :=
            partition_input_cuboidCount b e d C (List.replicate (C + 1).toNat 0) s
          cases hp : partition_input b e d C (List.replicate (C + 1).toNat 0) s with
          | error s1 =>
            exact ⟨[], by simp [Run.final, hperr s1 hp],
              by simp [Run.final, hcerr s1 hp, recordAll]⟩
          | ok r =>
            obtain ⟨s1, dataCount⟩ := r
            simp only []
            have hs1 := hpok s1 dataCount hp
            have hs1c := hcok s1 dataCount hp
            obtain ⟨new2, h2, h2c⟩ := bucketLoop_records g_minsup
              (fun k e st => dimensionLoop g_minsup g_dimensionIndices cardinalities rem
                (dIndex + 1) k e (aggregateInput k e st)) d dataCount
              (by
                intro k e st
                obtain ⟨new, h, hc⟩ := ih (dIndex + 1) k e (aggregateInput k e st)
                refine ⟨(st.g_outputRec, (e : Int) - (k : Int)) :: new, ?_, ?_⟩
                · rw [h, aggregateInput_outfile1]; simp
                · rw [hc, aggregateInput_cuboidCount, ← recordAll_append]; rfl)
              (C + 1).toNat 0 b s1
            cases hb : bucketLoop g_minsup
                (fun k e st => dimensionLoop g_minsup g_dimensionIndices cardinalities rem
                  (dIndex + 1) k e (aggregateInput k e st)) d dataCount (C + 1).toNat 0 b s1 with
            | error s2 =>
              rw [hb] at h2 h2c
              simp only [Run.final] at h2 h2c
              exact ⟨new2, by simp [Run.final, h2, hs1], by simp [Run.final, h2c, hs1c]⟩
            | ok s2 =>
              rw [hb] at h2 h2c
              simp only [Run.final] at h2 h2c
              simp only [setOutputRec]
              by_cases hdl : d < s2.g_outputRec.length
              · rw [if_pos hdl]
                simp only []
                obtain ⟨new3, h3, h3c⟩ := ih (dIndex + 1) b e
                  { s2 with g_outputRec := s2.g_outputRec.set d ALL }
                refine ⟨new2 ++ new3, ?_, ?_⟩
                · rw [h3]; simp only []; rw [h2, hs1, List.append_assoc]
                · rw [h3c]; simp only []; rw [h2c, hs1c, recordAll_append]
              · rw [if_neg hdl]
                exact ⟨new2, by simp [Run.final, h2, hs1], by simp [Run.final, h2c, hs1c]⟩

/-- At the end of every run the recorder holds the counts of the records of
the output. -/
theorem runCube_cuboidCount (input : TupleVector) (cardinalities : Tuple) (minsup : Int) :
    (runCube input cardinalities minsup).final.cuboidCount
      = recordAll (emitted input cardinalities minsup) [] := by
  obtain ⟨new, h, hc⟩ := dimensionLoop_records minsup (order_dimensions cardinalities)
    cardinalities (cardinalities.length - 0) 0 0 input.length
    (aggregateInput 0 input.length (initialState input cardinalities))
  simp only [emitted, runCube, bottom_up_cube]
  rw [if_neg (by simp), h, hc, aggregateInput_outfile1, aggregateInput_cuboidCount,
    ← recordAll_append]
  simp [initialState]

/-! ## The names of the cuboids -/

theorem char_toNat_ofNat (n : Nat) (h : n < 256) : (Char.ofNat n).toNat = n := by
  have hv : n.isValidChar := Or.inl (by omega)
  simp only [Char.ofNat, hv, dite_true, Char.toNat, Char.ofNatAux]
  simp [UInt32.toNat]

theorem mem_cuboidIdFrom (c : Char) :
    ∀ (r : List Count) (i : Nat), c ∈ cuboidIdFrom i r →
      ∃ j, j < r.length ∧ c = Char.ofNat ((97 + (i + j)) % 256)
  | [], _, h => by simp [cuboidIdFrom] at h
  | x :: r, i, h => by
    simp only [cuboidIdFrom] at h
    split at h
    · rcases List.mem_cons.1 h with h | h
      · exact ⟨0, by simp, by simpa using h⟩
      · obtain ⟨j, hj, hc⟩ := mem_cuboidIdFrom c r (i + 1) h
        refine ⟨j + 1, by simpa using hj, ?_⟩
        rw [hc]; congr 2; omega
    · obtain ⟨j, hj, hc⟩ := mem_cuboidIdFrom c r (i + 1) h
      refine ⟨j + 1, by simpa using hj, ?_⟩
      rw [hc]; congr 2; omega

theorem head_not_mem_cuboidIdFrom (r : List Count) (i : Nat) (hlen : i + 1 + r.length ≤ 256) :
    Char.ofNat ((97 + i) % 256) ∉ cuboidIdFrom (i + 1) r := by
  intro h
  obtain ⟨j, hj, hc⟩ := mem_cuboidIdFrom _ r (i + 1) h
  have h1 := congrArg Char.toNat hc
  rw [char_toNat_ofNat _ (Nat.mod_lt _ (by decide)),
    char_toNat_ofNat _ (Nat.mod_lt _ (by decide))] at h1
  omega

/-- Two records of the same length, at most 256, have the same cuboid name
only if they hold ALL at the same dimensions. -/
theorem cuboidIdFrom_inj :
    ∀ (r r1 : List Count) (i : Nat), r.length = r1.length → i + r.length ≤ 256 →
      cuboidIdFrom i r = cuboidIdFrom i r1 → r.map Count.isAll = r1.map Count.isAll
  | [], [], _, _, _, _ => rfl
  | [], _ :: _, _, h, _, _ => by simp at h
  | _ :: _, [], _, h, _, _ => by simp at h
  | x :: r, y :: r1, i, hlen, hb, h => by
    simp only [List.length_cons] at hlen hb
    have hlen1 : r.length = r1.length := by omega
    simp only [cuboidIdFrom] at h
    cases hx : x.isAll <;> cases hy : y.isAll <;> simp only [hx, hy] at h
    · simp only [Bool.not_false, if_true, List.cons.injEq, true_and] at h
      simp [hx, hy, cuboidIdFrom_inj r r1 (i + 1) hlen1 (by omega) h]
    · exfalso
      simp only [Bool.not_false, Bool.not_true, if_true] at h
      have hm : Char.ofNat ((97 + i) % 256) ∈ cuboidIdFrom (i + 1) r1 := by
        simp at h
        rw [← h]; simp
      exact head_not_mem_cuboidIdFrom r1 i (by omega) hm
    · exfalso
      simp only [Bool.not_false, Bool.not_true, if_true] at h
      have hm : Char.ofNat ((97 + i) % 256) ∈ cuboidIdFrom (i + 1) r := by
        simp at h
        rw [h]; simp
      exact head_not_mem_cuboidIdFrom r i (by omega) hm
    · simp only [Bool.not_true] at h
      simp at h
      simp [hx, hy, cuboidIdFrom_inj r r1 (i + 1) hlen1 (by omega) h]

theorem cuboidIdFrom_congr :
    ∀ (r r1 : List Count) (i : Nat), r.map Count.isAll = r1.map Count.isAll →
      cuboidIdFrom i r = cuboidIdFrom i r1
  | [], [], _, _ => rfl
  | [], _ :: _, _, h => by simp at h
  | _ :: _, [], _, h => by simp at h
  | x :: r, y :: r1, i, h => by
    simp only [List.map_cons, List.cons.injEq] at h
    simp only [cuboidIdFrom, h.1, cuboidIdFrom_congr r r1 (i + 1) h.2]

/-- With at most 256 dimensions, the cuboid name of a record tells the set of
its concrete dimensions. -/
theorem cuboidId_eq_iff (r r1 : List Count) (hlen : r.length = r1.length)
    (hb : r.length ≤ 256) :
    cuboidId r = cuboidId r1 ↔ r.map Count.isAll = r1.map Count.isAll := by
  constructor
  · intro h
    simp only [cuboidId] at h
    exact cuboidIdFrom_inj r r1 0 hlen (by omega) (congrArg String.data h)
  · intro h
    simp only [cuboidId]
    rw [cuboidIdFrom_congr r r1 0 h]

theorem cuboidIdFrom_replicate_ALL (n : Nat) : ∀ i, cuboidIdFrom i (List.replicate n ALL) = [] := by
  induction n with
  | zero => intro i; rfl
  | succ n ih =>
    intro i
    simp only [List.replicate_succ, cuboidIdFrom]
    rw [if_neg (by simp [ALL])]
    exact ih (i + 1)

theorem cuboidId_replicate_ALL (n : Nat) : cuboidId (List.replicate n ALL) = "" := by
  simp only [cuboidId, cuboidIdFrom_replicate_ALL]

theorem recordAll_keys (es : List Emission) :
    ∀ (m : List (String × Int)) (k : String), k ∈ (recordAll es m).map Prod.fst →
      k ∈ m.map Prod.fst ∨ k ≠ "" := by
  induction es with
  | nil => intro m k hk; exact Or.inl (by simpa [recordAll] using hk)
  | cons p es ih =>
    intro m k hk
    rw [recordAll_cons] at hk
    rcases ih _ k hk with h | h
    · split at h
      · rename_i hid
        rcases mapIncr_keys _ m k h with h1 | h1
        · exact Or.inr (by rw [h1]; exact hid)
        · exact Or.inl h1
      · exact Or.inl h
    · exact Or.inr h

theorem lookup_of_not_mem (key : String) :
    ∀ m : List (String × Int), key ∉ m.map Prod.fst → m.lookup key = none
  | [], _ => rfl
  | (k1, v1) :: m, h => by
    simp only [List.map_cons, List.mem_cons, not_or] at h
    have hne : (key == k1) = false := by simpa using h.1
    simp only [List.lookup, hne]
    exact lookup_of_not_mem key m h.2

/-- C11 as stated fails: on the dataset `(0)` with cardinality 1 and minimum
support 1 the all-ALL record of the first call is written, yet the recorder
holds no count for its cuboid. -/
theorem cuboid_recording_as_stated_fails :
    ¬ (∀ p ∈ emitted [[0]] [1] 1,
        recorded (runCube [[0]] [1] 1).final.cuboidCount (cuboidId p.1)
          = ((emitted [[0]] [1] 1).countP
              (fun q => decide (cuboidId q.1 = cuboidId p.1)) : Nat)) := by
  decide

/-- C11 amended: in every run the first call is made on the all-ALL record,
whose cuboid name is empty, and `count_cuboid` records nothing for the empty
name; for every other cuboid name the recorded count is the number of pairs
written whose record has that name; and with at most 256 dimensions two
records have the same name exactly when their concrete dimensions are the
same. -/
theorem cuboid_recording (input : TupleVector) (cardinalities : Tuple) (minsup : Int) :
    ((emitted input cardinalities minsup).head?.map (fun p => cuboidId p.1) = some ""
      ∧ (runCube input cardinalities minsup).final.cuboidCount.lookup "" = none)
      ∧ (∀ key : String, key ≠ "" →
          recorded (runCube input cardinalities minsup).final.cuboidCount key
            = ((emitted input cardinalities minsup).countP
                (fun p => decide (cuboidId p.1 = key)) : Nat))
      ∧ (∀ r r1 : List Count, r.length = r1.length → r.length ≤ 256 →
          (cuboidId r = cuboidId r1 ↔ r.map Count.isAll = r1.map Count.isAll)) := by
  refine ⟨⟨?_, ?_⟩, ?_, ?_⟩
  · obtain ⟨new, h, _⟩ := emitted_cons input cardinalities minsup
    rw [h]
    simp [cuboidId_replicate_ALL]
  · rw [runCube_cuboidCount]
    apply lookup_of_not_mem
    intro hmem
    rcases recordAll_keys _ [] "" hmem with h | h
    · simp at h
    · exact h rfl
  · intro key hkey
    rw [runCube_cuboidCount, recorded_recordAll _ key [] (by simp)]
    have h0 : recorded [] key = 0 := rfl
    rw [h0, Int.zero_add]
    congr 2
    funext p
    simp [hkey]
  · intro r r1 hlen hb
    exact cuboidId_eq_iff r r1 hlen hb

/-! ## The empty dataset and the order of the tuples -/

/-- With a minimum support of at least one and counts that are all zero the
bucket loop returns the state it was given, whatever the recursive call is:
the call is not made. -/
theorem bucketLoop_zero_ok (g_minsup : Int) (hmin : 1 ≤ g_minsup)
    (recur : Nat → Nat → State → Run) (d N : Nat) :
    ∀ (n i k : Nat) (s : State), i + n ≤ N →
      bucketLoop g_minsup recur d (List.replicate N 0) n i k s = .ok s := by
  intro n
  induction n with
  | zero => intro i k s _; simp [bucketLoop]
  | succ n ih =>
    intro i k s hi
    have hget : (List.replicate N (0 : Int))[i]? = some 0 := by
      rw [List.getElem?_eq_getElem (by simp; omega)]
      simp
    simp only [bucketLoop, hget]
    rw [if_neg (by omega)]
    exact ih (i + 1) _ s (by omega)

theorem validDataset_perm {input input1 : TupleVector} {cardinalities : Tuple}
    (h : validDataset input cardinalities = true) (hperm : input.Perm input1) :
    validDataset input1 cardinalities = true := by
  simp only [validDataset, List.all_eq_true] at h ⊢
  intro t ht
  exact h t ((List.Perm.mem_iff hperm).2 ht)

/-- The output of a run on a valid dataset does not depend on the order of the
tuples. -/
theorem emitted_perm (input input1 : TupleVector) (cardinalities : Tuple) (minsup : Int)
    (hvalid : validDataset input cardinalities = true) (hmin : 1 ≤ minsup)
    (hperm : input.Perm input1) :
    emitted input cardinalities minsup = emitted input1 cardinalities minsup := by
  by_cases hbound : ∀ C ∈ cardinalities, C < 2147483647
  · rw [emitted_eq input cardinalities minsup hvalid hmin hbound,
      emitted_eq input1 cardinalities minsup (validDataset_perm hvalid hperm) hmin hbound,
      hperm.length_eq, cubeBelow_perm minsup cardinalities _ _ input input1 hperm]
  · have hover : ∃ C ∈ cardinalities, 2147483647 ≤ C := by
      by_contra hno
      apply hbound
      intro C hC
      by_contra hge
      exact hno ⟨C, hC, by omega⟩
    rw [emitted_overflow input cardinalities minsup hover,
      emitted_overflow input1 cardinalities minsup hover, hperm.length_eq]

/-- The empty dataset below the overflow: for the empty dataset, a cardinality
vector with entries that are not negative and below `INT_MAX`, and a minimum
support of at least one, the run returns, having written exactly one pair, the
all-ALL record with aggregate 0; no recursive call is made, since on the zero
counts of an empty range the bucket loop returns its state whatever the
recursive call is. -/
theorem empty_dataset (cardinalities : Tuple) (minsup : Int)
    (hcards : ∀ C ∈ cardinalities, 0 ≤ C ∧ C < 2147483647) (hmin : 1 ≤ minsup) :
    runCube [] cardinalities minsup
        = .ok (State.mk [] (List.replicate cardinalities.length ALL)
            [(List.replicate cardinalities.length ALL, 0)] [])
      ∧ ∀ (recur : Nat → Nat → State → Run) (d N n i k : Nat) (s : State), i + n ≤ N →
          bucketLoop minsup recur d (List.replicate N 0) n i k s = .ok s := by
  refine ⟨?_, fun recur d N n i k s h => bucketLoop_zero_ok minsup hmin recur d N n i k s h⟩
  obtain ⟨s1, hrun, hperm, hrec, hout, hcub⟩ := runCube_ok [] cardinalities minsup
    (by simp [validDataset]) hmin
    (by
      intro d C hC
      have := hcards C (List.getElem?_mem hC)
      omega)
  rw [hrun]
  congr 1
  rw [cubeBelow_nil minsup hmin] at hout hcub
  have hin : s1.input = [] := List.Perm.eq_nil hperm
  have hcub1 : s1.cuboidCount = [] := by
    rw [hcub]
    simp [recordAll, cuboidId_replicate_ALL]
  cases s1
  simp only at hin hrec hout hcub1
  subst hin hrec hout hcub1
  rfl

theorem empty_dataset_witness :
    (∀ C ∈ ([2, 0, 5] : Tuple), 0 ≤ C ∧ C < 2147483647) ∧ (1 : Int) ≤ 3
      ∧ runCube [] [2, 0, 5] 3
        = .ok (State.mk [] (List.replicate 3 ALL) [(List.replicate 3 ALL, 0)] []) :=
  ⟨by decide, by decide, (empty_dataset [2, 0, 5] 3 (by decide) (by decide)).1⟩

/-- C19, independence from the order of the input tuples: for a valid dataset,
a permutation of its tuples and a minimum support of at least one, the run on
the dataset and the run on the permuted dataset write the same sequence of
pairs and end with the same cuboid counts. -/
theorem order_independence (input input1 : TupleVector) (cardinalities : Tuple) (minsup : Int)
    (hvalid : validDataset input cardinalities = true) (hperm : input.Perm input1)
    (hmin : 1 ≤ minsup) :
    emitted input cardinalities minsup = emitted input1 cardinalities minsup
      ∧ (runCube input cardinalities minsup).final.cuboidCount
        = (runCube input1 cardinalities minsup).final.cuboidCount := by
  have h := emitted_perm input input1 cardinalities minsup hvalid hmin hperm
  refine ⟨h, ?_⟩
  rw [runCube_cuboidCount, runCube_cuboidCount, h]

theorem order_independence_witness :
    validDataset [[0, 1], [1, 0], [0, 0]] [1, 1] = true
      ∧ List.Perm [[0, 1], [1, 0], [0, 0]] [[0, 0], [0, 1], [1, 0]] ∧ (1 : Int) ≤ 1
      ∧ emitted [[0, 1], [1, 0], [0, 0]] [1, 1] 1 = emitted [[0, 0], [0, 1], [1, 0]] [1, 1] 1
      ∧ (runCube [[0, 1], [1, 0], [0, 0]] [1, 1] 1).final.cuboidCount
        = (runCube [[0, 0], [0, 1], [1, 0]] [1, 1] 1).final.cuboidCount :=
  ⟨by decide, by decide, by decide,
    order_independence [[0, 1], [1, 0], [0, 0]] [[0, 0], [0, 1], [1, 0]] [1, 1] 1
      (by decide) (by decide) (by decide)⟩

/-! ## Buckets and cumulative counts -/

theorem take_bucket_counts (d : Nat) (L : List Tuple) (N v : Nat) (hv : v ≤ N) :
    (((List.range N).map (fun (u : Nat) => ((bucket d (u : Int) L).length : Int))).take v).sum
      = (((List.range v).flatMap (fun (u : Nat) => bucket d (u : Int) L)).length : Int) := by
  rw [← List.map_take, List.take_range, Nat.min_eq_left hv, sum_bucket_lengths]

theorem flatMap_range_split {β : Type} (f : Nat → List β) (N v : Nat) (hv : v < N) :
    (List.range N).flatMap f
      = (List.range v).flatMap f ++ f v ++ (List.range' (v + 1) (N - (v + 1))).flatMap f := by
  have h1 : List.range N = List.range (v + 1) ++ List.range' (v + 1) (N - (v + 1)) := by
    have h := List.range'_append_1 0 (v + 1) (N - (v + 1))
    rw [Nat.zero_add] at h
    rw [List.range_eq_range', List.range_eq_range', h]
    congr 1
    omega
  rw [h1, List.flatMap_append, List.range_succ, List.flatMap_append]
  simp

/-- After `partition_input` on a range of valid values with zeroed counts, the
tuples between the cumulative counts of `v` and of `v + 1` are the bucket of
`v`, and when the bucket is not empty the tuple at its cumulative offset
holds `v` at `d`. -/
theorem partition_input_offsets (s : State) (b e d : Nat) (C : Int) (dataCount : List Int)
    (hbe : b ≤ e) (he : e ≤ s.input.length)
    (hvals : ∀ t ∈ slice s.input b e, ∃ v, t[d]? = some v ∧ 0 ≤ v ∧ v ≤ C)
    (hlen : (dataCount.length : Int) = C + 1) (hzero : ∀ c ∈ dataCount, c = 0) :
    ∃ s1 dc, partition_input b e d C dataCount s = .ok (s1, dc)
      ∧ ∀ v : Nat, (v : Int) ≤ C →
          slice s1.input (b + ((dc.take v).sum).toNat) (b + ((dc.take (v + 1)).sum).toNat)
              = bucket d (v : Int) (slice s.input b e)
            ∧ (1 ≤ dc.getD v 0 →
                ∃ t, s1.input[b + ((dc.take v).sum).toNat]? = some t
                  ∧ t[d]? = some (v : Int)) := by
  obtain ⟨hsplit, hP, hL⟩ := split_range s.input b e hbe he
  have hdc : dataCount = List.replicate dataCount.length 0 :=
    List.eq_replicate_iff.2 ⟨rfl, hzero⟩
  have hpart := partition_input_ok d C dataCount.length hlen s (s.input.take b)
    (slice s.input b e) (s.input.drop e) hsplit hvals
  rw [hP, hL, ← hdc] at hpart
  have hbe2 : b + (e - b) = e := by omega
  rw [hbe2] at hpart
  refine ⟨_, _, hpart, ?_⟩
  intro v hvC
  have hvN : v < dataCount.length := by omega
  simp only []
  rw [take_bucket_counts d _ _ v (by omega), take_bucket_counts d _ _ (v + 1) (by omega),
    Int.toNat_ofNat, Int.toNat_ofNat, List.range_succ, List.flatMap_append, List.length_append]
  simp only [List.flatMap_cons, List.flatMap_nil, List.append_nil]
  rw [flatMap_range_split _ dataCount.length v hvN]
  generalize hA : (List.range v).flatMap (fun (u : Nat) => bucket d (u : Int) (slice s.input b e))
    = A
  generalize hR : (List.range' (v + 1) (dataCount.length - (v + 1))).flatMap
    (fun (u : Nat) => bucket d (u : Int) (slice s.input b e)) = R
  have hshape : s.input.take b ++ (A ++ bucket d (v : Int) (slice s.input b e) ++ R)
        ++ s.input.drop e
      = (s.input.take b ++ A) ++ bucket d (v : Int) (slice s.input b e)
        ++ (R ++ s.input.drop e) := by
    simp [List.append_assoc]
  have hoff : b + A.length = (s.input.take b ++ A).length := by
    rw [List.length_append, hP]
  constructor
  · rw [hshape, ← Nat.add_assoc, hoff]
    exact slice_append _ _ _
  · intro hge
    have hget : ((List.range dataCount.length).map
        (fun (u : Nat) => ((bucket d (u : Int) (slice s.input b e)).length : Int))).getD v 0
        = ((bucket d (v : Int) (slice s.input b e)).length : Int) := by
      simp [List.getD_eq_getElem?_getD, List.getElem?_map, List.getElem?_range hvN]
    rw [hget] at hge
    obtain ⟨t, tl, htl⟩ : ∃ t tl, bucket d (v : Int) (slice s.input b e) = t :: tl := by
      cases hb : bucket d (v : Int) (slice s.input b e) with
      | nil => rw [hb] at hge; simp at hge
      | cons t tl => exact ⟨t, tl, rfl⟩
    have htmem : t ∈ bucket d (v : Int) (slice s.input b e) := by rw [htl]; simp
    obtain ⟨htL, htkey⟩ := bucket_mem htmem
    obtain ⟨w, hw, _, _⟩ := hvals t htL
    refine ⟨t, ?_, ?_⟩
    · rw [hshape, hoff, htl, List.append_assoc,
        List.getElem?_append_right (Nat.le_refl _)]
      simp
    · rw [List.getD_eq_getElem?_getD, hw] at htkey
      rw [hw]
      simpa using htkey

/-- C14, buckets are recovered from cumulative counts: for a range whose
values at `d` lie in `[0, C]` and counts that are zero at first,
`partition_input` returns, and for each value `v` in `0..C` the tuples of the
reordered range at the offsets from `counts[0]+...+counts[v-1]` up to
`counts[0]+...+counts[v]` are the tuples of the range whose value at `d` is
`v`; when `counts[v] >= 1` the tuple at the first of these offsets, where the
running iterator of `bottom_up_cube` stands when the bucket is entered, holds
`v` at `d`. -/
theorem buckets_from_counts (s : State) (b e d : Nat) (C : Int) (dataCount : List Int)
    (hbe : b ≤ e) (he : e ≤ s.input.length)
    (hvals : ∀ t ∈ slice s.input b e, ∃ v, t[d]? = some v ∧ 0 ≤ v ∧ v ≤ C)
    (hlen : (dataCount.length : Int) = C + 1) (hzero : ∀ c ∈ dataCount, c = 0) :
    ∃ s1 dc, partition_input b e d C dataCount s = .ok (s1, dc)
      ∧ ∀ v : Nat, (v : Int) ≤ C →
          slice s1.input (b + ((dc.take v).sum).toNat) (b + ((dc.take (v + 1)).sum).toNat)
              = bucket d (v : Int) (slice s.input b e)
            ∧ (1 ≤ dc.getD v 0 →
                ∃ t, s1.input[b + ((dc.take v).sum).toNat]? = some t
                  ∧ t[d]? = some (v : Int)) :=
  partition_input_offsets s b e d C dataCount hbe he hvals hlen hzero

theorem buckets_from_counts_witness :
    ∃ s1 dc, partition_input 1 4 0 2 [0, 0, 0]
          (initialState [[9, 0], [2, 1], [0, 2], [2, 3], [7, 4]] [2, 4]) = .ok (s1, dc)
      ∧ ∀ v : Nat, (v : Int) ≤ 2 →
          slice s1.input (1 + ((dc.take v).sum).toNat) (1 + ((dc.take (v + 1)).sum).toNat)
              = bucket 0 (v : Int)
                  (slice (initialState [[9, 0], [2, 1], [0, 2], [2, 3], [7, 4]] [2, 4]).input 1 4)
            ∧ (1 ≤ dc.getD v 0 →
                ∃ t, s1.input[1 + ((dc.take v).sum).toNat]? = some t
                  ∧ t[0]? = some (v : Int)) :=
  buckets_from_counts (initialState [[9, 0], [2, 1], [0, 2], [2, 3], [7, 4]] [2, 4]) 1 4 0 2
    [0, 0, 0] (by decide) (by decide) (by decide) (by decide) (by decide)

/-! ## The dataset is only reordered, and valid runs return -/

theorem framePost_error (s : State) (len : Nat) (P L Q : List Tuple) (okPre : Prop)
    (hin : s.input = P ++ L ++ Q) (hlen : s.g_outputRec.length = len) (hno : ¬ okPre) :
    FramePost (.error s) len P L Q okPre :=
  ⟨⟨L, hin, List.Perm.refl L⟩, hlen, fun h => absurd h hno⟩

theorem framePost_ok (s : State) (len : Nat) (P L Q : List Tuple) (okPre : Prop)
    (hin : s.input = P ++ L ++ Q) (hlen : s.g_outputRec.length = len) :
    FramePost (.ok s) len P L Q okPre :=
  ⟨⟨L, hin, List.Perm.refl L⟩, hlen, fun _ => ⟨s, rfl⟩⟩

/-- The bucket loop on a partitioned range, for every outcome. -/
theorem bucketLoop_frame (g_minsup : Int) (recur : Nat → Nat → State → Run)
    (d : Nat) (L : List Tuple) (N : Nat) (Q : List Tuple) (Pre : Nat → Prop)
    (hL : ∀ t ∈ L, ∃ v, t[d]? = some v)
    (hrec : ∀ (v : Nat) (st : State) (P1 Q1 : List Tuple), v < N →
      st.input = P1 ++ bucket d (v : Int) L ++ Q1 →
      FramePost (recur P1.length (P1.length + (bucket d (v : Int) L).length) st)
        st.g_outputRec.length P1 (bucket d (v : Int) L) Q1 (Pre st.g_outputRec.length)) :
    ∀ (n i : Nat) (s : State) (P : List Tuple), i + n = N →
      s.input = P ++ (List.range' i n).flatMap (fun (v : Nat) => bucket d (v : Int) L) ++ Q →
      FramePost
        (bucketLoop g_minsup recur d
          ((List.range N).map (fun (v : Nat) => ((bucket d (v : Int) L).length : Int)))
          n i P.length s)
        s.g_outputRec.length P
        ((List.range' i n).flatMap (fun (v : Nat) => bucket d (v : Int) L)) Q
        (Pre s.g_outputRec.length ∧ d < s.g_outputRec.length ∧ 1 ≤ g_minsup) := by
  intro n
  induction n with
  | zero =>
    intro i s P _ hin
    simp only [bucketLoop]
    exact framePost_ok s _ P _ Q _ hin rfl
  | succ n ih =>
    intro i s P hi hin
    have hiN : i < N := by omega
    have hcount : ((List.range N).map (fun (v : Nat) => ((bucket d (v : Int) L).length : Int)))[i]?
        = some ((bucket d (i : Int) L).length : Int) := by
      simp [List.getElem?_map, List.getElem?_range hiN]
    have hsplit : (List.range' i (n + 1)).flatMap (fun (v : Nat) => bucket d (v : Int) L)
        = bucket d (i : Int) L
          ++ (List.range' (i + 1) n).flatMap (fun (v : Nat) => bucket d (v : Int) L) := by
      simp [List.range'_succ]
    rw [hsplit] at hin ⊢
    generalize hR : (List.range' (i + 1) n).flatMap (fun (v : Nat) => bucket d (v : Int) L) = R
      at hin
    have ih1 := ih (i + 1)
    rw [hR] at ih1
    simp only [bucketLoop, hcount, Int.toNat_ofNat]
    by_cases hc : ((bucket d (i : Int) L).length : Int) ≥ g_minsup
    · rw [if_pos hc]
      -- under the precondition the bucket is not empty and its first tuple is at `k`
      have hhead : 1 ≤ g_minsup → ∃ t, s.input[P.length]? = some t ∧ ∃ v, t[d]? = some v := by
        intro hmin
        obtain ⟨t, tl, htl⟩ : ∃ t tl, bucket d (i : Int) L = t :: tl := by
          cases hb : bucket d (i : Int) L with
          | nil => rw [hb] at hc; simp at hc; omega
          | cons t tl => exact ⟨t, tl, rfl⟩
        have htmem : t ∈ bucket d (i : Int) L := by rw [htl]; simp
        refine ⟨t, ?_, hL t (bucket_mem htmem).1⟩
        rw [hin, htl, List.append_assoc, List.getElem?_append_right (Nat.le_refl _)]
        simp
      cases hk : s.input[P.length]? with
      | none =>
        simp only []
        refine framePost_error s _ P _ Q _ hin rfl ?_
        rintro ⟨_, _, hmin⟩
        obtain ⟨t, ht, _⟩ := hhead hmin
        rw [hk] at ht
        cases ht
      | some t =>
        simp only []
        cases hv : t[d]? with
        | none =>
          simp only []
          refine framePost_error s _ P _ Q _ hin rfl ?_
          rintro ⟨_, _, hmin⟩
          obtain ⟨t1, ht1, v, hv1⟩ := hhead hmin
          rw [hk] at ht1
          cases ht1
          rw [hv] at hv1
          cases hv1
        | some v =>
          simp only [setOutputRec]
          by_cases hd : d < s.g_outputRec.length
          · rw [if_pos hd]
            simp only []
            obtain ⟨⟨L1, hin1, hperm1⟩, hlen1, hok1⟩ :=
              hrec i { s with g_outputRec := s.g_outputRec.set d (Count.ofData v) } P (R ++ Q)
                hiN (by rw [hin]; simp [List.append_assoc])
            simp only [List.length_set] at hlen1 hok1
            cases hr : recur P.length (P.length + (bucket d (i : Int) L).length)
                { s with g_outputRec := s.g_outputRec.set d (Count.ofData v) } with
            | error s2 =>
              rw [hr] at hin1 hlen1 hok1
              simp only [Run.final] at hin1 hlen1
              simp only []
              refine ⟨⟨L1 ++ R, ?_, List.Perm.append hperm1 (List.Perm.refl R)⟩, hlen1, ?_⟩
              · simp only [Run.final]; rw [hin1]; simp [List.append_assoc]
              · rintro ⟨hpre, _, _⟩
                obtain ⟨s3, hs3⟩ := hok1 hpre
                cases hs3
            | ok s2 =>
              rw [hr] at hin1 hlen1
              simp only [Run.final] at hin1 hlen1
              simp only []
              obtain ⟨⟨D2, hin2, hperm2⟩, hlen2, hok2⟩ :=
                ih1 s2 (P ++ L1) (by omega) (by rw [hin1]; simp [List.append_assoc])
              have hlenP : (P ++ L1).length = P.length + (bucket d (i : Int) L).length := by
                simp [hperm1.length_eq]
              rw [hlenP] at hin2 hlen2 hok2
              refine ⟨⟨L1 ++ D2, ?_, List.Perm.append hperm1 hperm2⟩, ?_, ?_⟩
              · rw [hin2]; simp [List.append_assoc]
              · rw [hlen2, hlen1]
              · rintro ⟨hpre, hdl, hmin⟩
                exact hok2 ⟨by rw [hlen1]; exact hpre, by rw [hlen1]; exact hdl, hmin⟩
          · rw [if_neg hd]
            refine framePost_error s _ P _ Q _ hin rfl ?_
            rintro ⟨_, hdl, _⟩
            exact hd hdl
    · rw [if_neg hc]
      obtain ⟨⟨D2, hin2, hperm2⟩, hlen2, hok2⟩ :=
        ih1 s (P ++ bucket d (i : Int) L) (by omega) (by rw [hin]; simp [List.append_assoc])
      have hlenP : (P ++ bucket d (i : Int) L).length
          = P.length + (bucket d (i : Int) L).length := by simp
      rw [hlenP] at hin2 hlen2 hok2
      refine ⟨⟨bucket d (i : Int) L ++ D2, ?_,
        List.Perm.append (List.Perm.refl _) hperm2⟩, hlen2, hok2⟩
      rw [hin2]; simp [List.append_assoc]

/-- The dimension loop on a range of valid tuples, for every outcome: the
range is permuted, the rest of the vector is as before, and the loop returns
when the minimum support is at least one, the remaining positions of the
dimension order hold dimensions that the output record and the cardinality
vector have, and every cardinality is at least -1 and below `INT_MAX`. -/
theorem dimensionLoop_frame (g_minsup : Int) (g_dimensionIndices : List Nat)
    (cardinalities : Tuple) :
    ∀ (rem dIndex : Nat) (s : State) (P L Q : List Tuple),
      (∀ t ∈ L, validTuple t cardinalities = true) →
      s.input = P ++ L ++ Q →
      FramePost
        (dimensionLoop g_minsup g_dimensionIndices cardinalities rem dIndex
          P.length (P.length + L.length) s)
        s.g_outputRec.length P L Q
        (1 ≤ g_minsup ∧ dIndex + rem = g_dimensionIndices.length
          ∧ ∀ d ∈ g_dimensionIndices.drop dIndex,
              d < s.g_outputRec.length ∧ ∃ C, cardinalities[d]? = some C ∧ -1 ≤ C ∧ C < 2147483647) := by
  intro rem
  induction rem with
  | zero =>
    intro dIndex s P L Q _ hin
    simp only [dimensionLoop]
    exact framePost_ok s _ P L Q _ hin rfl
  | succ rem ih =>
    intro dIndex s P L Q hvalid hin
    simp only [dimensionLoop]
    cases hget : g_dimensionIndices[dIndex]? with
    | none =>
      simp only []
      refine framePost_error s _ P L Q _ hin rfl ?_
      rintro ⟨_, hlen, _⟩
      rw [List.getElem?_eq_getElem (by omega)] at hget
      cases hget
    | some d =>
      simp only []
      have hlt : dIndex < g_dimensionIndices.length := (List.getElem?_eq_some_iff.1 hget).1
      have hdrop : g_dimensionIndices.drop dIndex
          = d :: g_dimensionIndices.drop (dIndex + 1) := by
        rw [List.drop_eq_getElem_cons hlt]
        congr 1
        exact (List.getElem?_eq_some_iff.1 hget).2
      cases hC : cardinalities[d]? with
      | none =>
        simp only []
        refine framePost_error s _ P L Q _ hin rfl ?_
        rintro ⟨_, _, hd⟩
        obtain ⟨_, C, hC1, _⟩ := hd d (by rw [hdrop]; simp)
        rw [hC] at hC1
        cases hC1
      | some C =>
        simp only []
        by_cases hneg : C + 1 < 0 ∨ 2147483647 < C + 1
        · rw [if_pos hneg]
          refine framePost_error s _ P L Q _ hin rfl ?_
          rintro ⟨_, _, hd⟩
          obtain ⟨_, C1, hC1, hC2⟩ := hd d (by rw [hdrop]; simp)
          rw [hC] at hC1
          cases hC1
          omega
        · rw [if_neg hneg]
          obtain ⟨N, hNdef⟩ : ∃ N : Nat, N = (C + 1).toNat := ⟨_, rfl⟩
          have hN : (N : Int) = C + 1 := by omega
          have hLd : ∀ t ∈ L, ∃ v, t[d]? = some v ∧ 0 ≤ v ∧ v ≤ C :=
            fun t ht => validTuple_get t cardinalities (hvalid t ht) d C hC
          have hpart := partition_input_ok d C N hN s P L Q hin hLd
          rw [← hNdef, hpart]
          simp only []
          have hbperm : ((List.range' 0 N).flatMap (fun (v : Nat) => bucket d (v : Int) L)).Perm L := by
            rw [← List.range_eq_range']
            exact buckets_perm d C N hN L hLd
          have hloop := bucketLoop_frame g_minsup
            (fun k e st => dimensionLoop g_minsup g_dimensionIndices cardinalities rem
              (dIndex + 1) k e (aggregateInput k e st))
            d L N Q
            (fun len => 1 ≤ g_minsup ∧ dIndex + 1 + rem = g_dimensionIndices.length
              ∧ ∀ d1 ∈ g_dimensionIndices.drop (dIndex + 1),
                  d1 < len ∧ ∃ C1, cardinalities[d1]? = some C1 ∧ -1 ≤ C1 ∧ C1 < 2147483647)
            (fun t ht => by obtain ⟨v, hv, _⟩ := hLd t ht; exact ⟨v, hv⟩)
            (by
              intro v st P1 Q1 _ hst
              have h := ih (dIndex + 1)
                (aggregateInput P1.length (P1.length + (bucket d (v : Int) L).length) st)
                P1 (bucket d (v : Int) L) Q1
                (fun t ht => hvalid t (bucket_mem ht).1)
                (by rw [aggregateInput_input]; exact hst)
              rw [aggregateInput_outputRec] at h
              exact h)
            N 0
            { s with input := P ++ (List.range N).flatMap (fun (v : Nat) => bucket d (v : Int) L) ++ Q }
            P (by omega) (by simp [List.range_eq_range'])
          obtain ⟨⟨D, hinD, hpermD⟩, hlenD, hokD⟩ := hloop
          simp only [] at hlenD hokD
          cases hb : bucketLoop g_minsup
              (fun k e st => dimensionLoop g_minsup g_dimensionIndices cardinalities rem
                (dIndex + 1) k e (aggregateInput k e st)) d
              ((List.range N).map (fun (v : Nat) => ((bucket d (v : Int) L).length : Int))) N 0
              P.length
              { s with input := P ++ (List.range N).flatMap (fun (v : Nat) => bucket d (v : Int) L) ++ Q } with
          | error s2 =>
            rw [hb] at hinD hlenD hokD
            simp only [Run.final] at hinD hlenD
            simp only []
            refine ⟨⟨D, hinD, hpermD.trans hbperm⟩, hlenD, ?_⟩
            rintro ⟨hmin, hlen, hd⟩
            obtain ⟨s3, hs3⟩ := hokD ⟨⟨hmin, by omega, fun d1 hd1 => hd d1 (by rw [hdrop]; simp [hd1])⟩,
              (hd d (by rw [hdrop]; simp)).1, hmin⟩
            cases hs3
          | ok s2 =>
            rw [hb] at hinD hlenD
            simp only [Run.final] at hinD hlenD
            simp only [setOutputRec]
            have hDL : D.Perm L := hpermD.trans hbperm
            by_cases hdl : d < s2.g_outputRec.length
            · rw [if_pos hdl]
              simp only []
              obtain ⟨⟨D3, hin3, hperm3⟩, hlen3, hok3⟩ :=
                ih (dIndex + 1) { s2 with g_outputRec := s2.g_outputRec.set d ALL } P D Q
                  (fun t ht => hvalid t ((List.Perm.mem_iff hDL).1 ht)) hinD
              rw [hDL.length_eq] at hin3 hlen3 hok3
              simp only [List.length_set] at hlen3 hok3
              refine ⟨⟨D3, hin3, hperm3.trans hDL⟩, by rw [hlen3, hlenD], ?_⟩
              rintro ⟨hmin, hlen, hd⟩
              exact hok3 ⟨hmin, by omega, fun d1 hd1 => by
                rw [hlenD]; exact hd d1 (by rw [hdrop]; simp [hd1])⟩
            · rw [if_neg hdl]
              refine ⟨⟨D, hinD, hDL⟩, hlenD, ?_⟩
              rintro ⟨_, _, hd⟩
              exact absurd (by rw [hlenD]; exact (hd d (by rw [hdrop]; simp)).1) hdl

theorem frame_getElem? (P D L Q : List Tuple) (hlen : D.length = L.length) (i : Nat)
    (h : i < P.length ∨ P.length + L.length ≤ i) :
    (P ++ D ++ Q)[i]? = (P ++ L ++ Q)[i]? := by
  rcases h with h | h
  · rw [List.append_assoc, List.append_assoc, List.getElem?_append_left h,
      List.getElem?_append_left h]
  · rw [List.getElem?_append_right (by simp; omega),
      List.getElem?_append_right (by simp; omega)]
    simp [hlen]

/-- A call of `bottom_up_cube` on a range of a valid dataset, for every
outcome: the range holds a permutation of its former tuples and the rest of
the vector is as before; the call returns when the minimum support is at
least one, the start index is at most the number of dimensions, the dimension
order is a permutation of the dimension indices, the output record has one
cell per dimension and every cardinality is at least -1 and below `INT_MAX`. -/
theorem bottom_up_cube_frame (g_minsup : Int) (g_dimensionIndices : List Nat)
    (cardinalities : Tuple) (dim b e : Nat) (s : State)
    (hvalid : validDataset s.input cardinalities = true) (hbe : b ≤ e)
    (he : e ≤ s.input.length) :
    FramePost (bottom_up_cube g_minsup g_dimensionIndices cardinalities dim b e s)
      s.g_outputRec.length (s.input.take b) (slice s.input b e) (s.input.drop e)
      (1 ≤ g_minsup ∧ dim ≤ cardinalities.length
        ∧ g_dimensionIndices.Perm (List.range cardinalities.length)
        ∧ s.g_outputRec.length = cardinalities.length
        ∧ ∀ C ∈ cardinalities, -1 ≤ C ∧ C < 2147483647) := by
  obtain ⟨hsplit, hP, hL⟩ := split_range s.input b e hbe he
  unfold bottom_up_cube
  by_cases hdim : dim ≤ cardinalities.length
  · rw [if_neg (by simpa using hdim)]
    have h := dimensionLoop_frame g_minsup g_dimensionIndices cardinalities
      (cardinalities.length - dim) dim (aggregateInput b e s) (s.input.take b)
      (slice s.input b e) (s.input.drop e)
      (fun t ht => validDataset_mem hvalid t (by
        rw [hsplit]; simp [ht]))
      (by rw [aggregateInput_input]; exact hsplit)
    rw [hP, hL, aggregateInput_outputRec] at h
    have hbe2 : b + (e - b) = e := by omega
    rw [hbe2] at h
    obtain ⟨h1, h2, h3⟩ := h
    refine ⟨h1, h2, ?_⟩
    rintro ⟨hmin, _, hperm, hlen, hcards⟩
    apply h3
    refine ⟨hmin, by rw [hperm.length_eq]; simp; omega, ?_⟩
    intro d hd
    have hdlt : d < cardinalities.length :=
      List.mem_range.1 ((List.Perm.mem_iff hperm).1 (List.mem_of_mem_drop hd))
    exact ⟨by omega, cardinalities[d], List.getElem?_eq_getElem hdlt,
      hcards _ (List.getElem_mem hdlt)⟩
  · rw [if_pos (by simpa using hdim)]
    exact framePost_error s _ _ _ _ _ hsplit rfl (fun h => hdim h.2.1)

/-- C13, the dataset is only reordered: for a valid dataset and every minimum
support, in the state a call of `bottom_up_cube` on a range ends in, the whole
dataset is a permutation of what it was before the call, so that no tuple has
changed, and every position outside the range holds the tuple it held
before; and the call returns when the minimum support is at least one, the
start index is at most the number of dimensions, the dimension order is a
permutation of the dimension indices, the output record has one cell per
dimension and every cardinality is at least -1 and below `INT_MAX`. -/
theorem dataset_only_reordered (g_minsup : Int) (g_dimensionIndices : List Nat)
    (cardinalities : Tuple) (dim b e : Nat) (s : State)
    (hvalid : validDataset s.input cardinalities = true) (hbe : b ≤ e)
    (he : e ≤ s.input.length) :
    (bottom_up_cube g_minsup g_dimensionIndices cardinalities dim b e s).final.input.Perm
        s.input
      ∧ (slice (bottom_up_cube g_minsup g_dimensionIndices cardinalities dim b e s).final.input
          b e).Perm (slice s.input b e)
      ∧ (∀ i : Nat, i < b ∨ e ≤ i →
          (bottom_up_cube g_minsup g_dimensionIndices cardinalities dim b e s).final.input[i]?
            = s.input[i]?)
      ∧ (1 ≤ g_minsup → dim ≤ cardinalities.length →
          g_dimensionIndices.Perm (List.range cardinalities.length) →
          s.g_outputRec.length = cardinalities.length →
          (∀ C ∈ cardinalities, -1 ≤ C ∧ C < 2147483647) →
          ∃ s1, bottom_up_cube g_minsup g_dimensionIndices cardinalities dim b e s = .ok s1) := by
  obtain ⟨⟨D, hin, hperm⟩, _, hok⟩ :=
    bottom_up_cube_frame g_minsup g_dimensionIndices cardinalities dim b e s hvalid hbe he
  obtain ⟨hsplit, hP, hL⟩ := split_range s.input b e hbe he
  have hbe2 : b + (e - b) = e := by omega
  refine ⟨?_, ?_, ?_, fun h1 h2 h3 h4 h5 => hok ⟨h1, h2, h3, h4, h5⟩⟩
  · rw [hin]
    conv_rhs => rw [hsplit]
    exact List.Perm.append (List.Perm.append (List.Perm.refl _) hperm) (List.Perm.refl _)
  · rw [hin]
    have h := slice_append (s.input.take b) D (s.input.drop e)
    rw [hP, hperm.length_eq, hL, hbe2] at h
    rw [h]
    exact hperm
  · intro i hi
    rw [hin]
    conv_rhs => rw [hsplit]
    apply frame_getElem? _ _ _ _ hperm.length_eq
    rw [hP, hL]
    omega

theorem dataset_only_reordered_witness :
    validDataset (initialState [[1, 1], [1, 0], [0, 1], [0, 0]] [1, 1]).input [1, 1] = true
      ∧ 1 ≤ 4 ∧ 4 ≤ (initialState [[1, 1], [1, 0], [0, 1], [0, 0]] [1, 1]).input.length
      ∧ (bottom_up_cube 1 (order_dimensions [1, 1]) [1, 1] 0 1 4
            (initialState [[1, 1], [1, 0], [0, 1], [0, 0]] [1, 1])).final.input
          = [[1, 1], [0, 0], [1, 0], [0, 1]]
      ∧ ((bottom_up_cube 1 (order_dimensions [1, 1]) [1, 1] 0 1 4
            (initialState [[1, 1], [1, 0], [0, 1], [0, 0]] [1, 1])).final.input.Perm
          (initialState [[1, 1], [1, 0], [0, 1], [0, 0]] [1, 1]).input
        ∧ (slice (bottom_up_cube 1 (order_dimensions [1, 1]) [1, 1] 0 1 4
            (initialState [[1, 1], [1, 0], [0, 1], [0, 0]] [1, 1])).final.input 1 4).Perm
          (slice (initialState [[1, 1], [1, 0], [0, 1], [0, 0]] [1, 1]).input 1 4)
        ∧ ∀ i : Nat, i < 1 ∨ 4 ≤ i →
          (bottom_up_cube 1 (order_dimensions [1, 1]) [1, 1] 0 1 4
            (initialState [[1, 1], [1, 0], [0, 1], [0, 0]] [1, 1])).final.input[i]?
            = (initialState [[1, 1], [1, 0], [0, 1], [0, 0]] [1, 1]).input[i]?) :=
  ⟨by decide, by decide, by decide, by decide,
    (fun h => ⟨h.1, h.2.1, h.2.2.1⟩)
      (dataset_only_reordered 1 (order_dimensions [1, 1]) [1, 1] 0 1 4
        (initialState [[1, 1], [1, 0], [0, 1], [0, 0]] [1, 1]) (by decide) (by decide)
        (by decide))⟩

/-! ## The running iterator -/

/-- After `partition_input` on a range of valid values with zeroed counts:
the iterator that starts at `begin` and advances by each count is strictly
before `end` at every bucket that is not empty, the bucket ends at or before
`end`, and after the last bucket the iterator is `end`. -/
theorem partition_input_iterator (s : State) (b e d : Nat) (C : Int) (dataCount : List Int)
    (hbe : b ≤ e) (he : e ≤ s.input.length)
    (hvals : ∀ t ∈ slice s.input b e, ∃ v, t[d]? = some v ∧ 0 ≤ v ∧ v ≤ C)
    (hlen : (dataCount.length : Int) = C + 1) (hzero : ∀ c ∈ dataCount, c = 0) :
    ∃ s1 dc, partition_input b e d C dataCount s = .ok (s1, dc)
      ∧ (dc.length : Int) = C + 1
      ∧ (∀ i : Nat, (i : Int) ≤ C →
          b + ((dc.take (i + 1)).sum).toNat ≤ e
            ∧ b + ((dc.take (i + 1)).sum).toNat
                = b + ((dc.take i).sum).toNat + (dc.getD i 0).toNat
            ∧ (1 ≤ dc.getD i 0 → b + ((dc.take i).sum).toNat < e))
      ∧ b + (dc.sum).toNat = e := by
  obtain ⟨hsplit, hP, hL⟩ := split_range s.input b e hbe he
  have hdc : dataCount = List.replicate dataCount.length 0 :=
    List.eq_replicate_iff.2 ⟨rfl, hzero⟩
  have hpart := partition_input_ok d C dataCount.length hlen s (s.input.take b)
    (slice s.input b e) (s.input.drop e) hsplit hvals
  rw [hP, hL, ← hdc] at hpart
  have hbe2 : b + (e - b) = e := by omega
  rw [hbe2] at hpart
  have htotal := (buckets_perm d C dataCount.length hlen _ hvals).length_eq
  refine ⟨_, _, hpart, by simpa using hlen, ?_, ?_⟩
  · intro i hiC
    have hiN : i < dataCount.length := by omega
    have hget : ((List.range dataCount.length).map
        (fun (u : Nat) => ((bucket d (u : Int) (slice s.input b e)).length : Int))).getD i 0
        = ((bucket d (i : Int) (slice s.input b e)).length : Int) := by
      simp [List.getD_eq_getElem?_getD, List.getElem?_map, List.getElem?_range hiN]
    rw [take_bucket_counts d _ _ i (by omega), take_bucket_counts d _ _ (i + 1) (by omega),
      hget, Int.toNat_ofNat, Int.toNat_ofNat, Int.toNat_ofNat, List.range_succ,
      List.flatMap_append, List.length_append]
    simp only [List.flatMap_cons, List.flatMap_nil, List.append_nil]
    rw [flatMap_range_split _ dataCount.length i hiN] at htotal
    simp only [List.length_append] at htotal
    refine ⟨by omega, by omega, fun h => by omega⟩
  · rw [sum_bucket_lengths, htotal, hL, Int.toNat_ofNat]
    omega

/-! ## The output record is restored -/

theorem getElem?_of_set_ALL {r r0 : List Count} {d d1 : Nat}
    (h : r.set d ALL = r0.set d ALL) (hne : d ≠ d1) : r[d1]? = r0[d1]? := by
  have h1 := congrArg (fun l => l[d1]?) h
  simpa [List.getElem?_set_ne hne] using h1

/-- When the bucket loop returns, the output record is as before except at
`d`, given that the recursive call restores the record. -/
theorem bucketLoop_restores (g_minsup : Int) (recur : Nat → Nat → State → Run) (d : Nat)
    (dataCount : List Int) (rec0 : List Count)
    (hrec : ∀ (k e : Nat) (st st1 : State), st.g_outputRec.set d ALL = rec0.set d ALL →
      recur k e st = .ok st1 → st1.g_outputRec = st.g_outputRec) :
    ∀ (n i k : Nat) (s s1 : State), s.g_outputRec.set d ALL = rec0.set d ALL →
      bucketLoop g_minsup recur d dataCount n i k s = .ok s1 →
      s1.g_outputRec.set d ALL = rec0.set d ALL := by
  intro n
  induction n with
  | zero =>
    intro i k s s1 hs h
    simp only [bucketLoop] at h
    cases h
    exact hs
  | succ n ih =>
    intro i k s s1 hs h
    simp only [bucketLoop] at h
    cases hdc : dataCount[i]? with
    | none => rw [hdc] at h; cases h
    | some c =>
      rw [hdc] at h
      simp only [] at h
      by_cases hc : c ≥ g_minsup
      · rw [if_pos hc] at h
        cases hk : s.input[k]? with
        | none => rw [hk] at h; cases h
        | some t =>
          rw [hk] at h
          simp only [] at h
          cases hv : t[d]? with
          | none => rw [hv] at h; cases h
          | some v =>
            rw [hv] at h
            simp only [setOutputRec] at h
            by_cases hd : d < s.g_outputRec.length
            · rw [if_pos hd] at h
              simp only [] at h
              have hs1 : (s.g_outputRec.set d (Count.ofData v)).set d ALL = rec0.set d ALL := by
                rw [List.set_set]; exact hs
              cases hr : recur k (k + c.toNat)
                  { s with g_outputRec := s.g_outputRec.set d (Count.ofData v) } with
              | error s2 => rw [hr] at h; cases h
              | ok s2 =>
                rw [hr] at h
                simp only [] at h
                have h2 := hrec k (k + c.toNat) _ s2 hs1 hr
                exact ih (i + 1) (k + c.toNat) s2 s1 (by rw [h2]; exact hs1) h
            · rw [if_neg hd] at h
              cases h
      · rw [if_neg hc] at h
        exact ih (i + 1) (k + c.toNat) s s1 hs h

/-- When the dimension loop returns, the output record is the record it was
entered with, given that this record holds ALL at the dimensions of the
remaining positions of the dimension order and that these are distinct. -/
theorem dimensionLoop_restores (g_minsup : Int) (g_dimensionIndices : List Nat)
    (cardinalities : Tuple) :
    ∀ (rem dIndex b e : Nat) (s s1 : State), (g_dimensionIndices.drop dIndex).Nodup →
      (∀ d ∈ g_dimensionIndices.drop dIndex, s.g_outputRec[d]? = some ALL) →
      dimensionLoop g_minsup g_dimensionIndices cardinalities rem dIndex b e s = .ok s1 →
      s1.g_outputRec = s.g_outputRec := by
  intro rem
  induction rem with
  | zero =>
    intro dIndex b e s s1 _ _ h
    simp only [dimensionLoop] at h
    cases h
    rfl
  | succ rem ih =>
    intro dIndex b e s s1 hnodup hall h
    simp only [dimensionLoop] at h
    cases hget : g_dimensionIndices[dIndex]? with
    | none => rw [hget] at h; cases h
    | some d =>
      rw [hget] at h
      simp only [] at h
      have hlt : dIndex < g_dimensionIndices.length := (List.getElem?_eq_some_iff.1 hget).1
      have hdrop : g_dimensionIndices.drop dIndex
          = d :: g_dimensionIndices.drop (dIndex + 1) := by
        rw [List.drop_eq_getElem_cons hlt]
        congr 1
        exact (List.getElem?_eq_some_iff.1 hget).2
      rw [hdrop] at hnodup hall
      obtain ⟨hdnot, hnodup1⟩ := List.nodup_cons.1 hnodup
      have hdALL := hall d (by simp)
      cases hC : cardinalities[d]? with
      | none => rw [hC] at h; cases h
      | some C =>
        rw [hC] at h
        simp only [] at h
        by_cases hneg : C + 1 < 0 ∨ 2147483647 < C + 1
        · rw [if_pos hneg] at h; cases h
        · rw [if_neg hneg] at h
          cases hp : partition_input b e d C (List.replicate (C + 1).toNat 0) s with
          | error s2 => rw [hp] at h; cases h
          | ok r =>
            obtain ⟨s2, dataCount⟩ := r
            rw [hp] at h
            simp only [] at h
            obtain ⟨_, hrec2⟩ := partition_input_returns b e d C _ s s2 dataCount hp
            cases hb : bucketLoop g_minsup
                (fun k e st => dimensionLoop g_minsup g_dimensionIndices cardinalities rem
                  (dIndex + 1) k e (aggregateInput k e st)) d dataCount (C + 1).toNat 0 b s2 with
            | error s3 => rw [hb] at h; cases h
            | ok s3 =>
              rw [hb] at h
              simp only [setOutputRec] at h
              have hs3 := bucketLoop_restores g_minsup _ d dataCount s.g_outputRec
                (by
                  intro k e1 st st1 hst hrun
                  have h1 := ih (dIndex + 1) k e1 (aggregateInput k e1 st) st1 hnodup1
                    (by
                      intro d1 hd1
                      have hne : d ≠ d1 := fun h => hdnot (h ▸ hd1)
                      rw [aggregateInput_outputRec, getElem?_of_set_ALL hst hne]
                      exact hall d1 (by simp [hd1]))
                    hrun
                  rw [h1, aggregateInput_outputRec])
                (C + 1).toNat 0 b s2 s3 (by rw [hrec2]) hb
              by_cases hdl : d < s3.g_outputRec.length
              · rw [if_pos hdl] at h
                simp only [] at h
                have hs4 : s3.g_outputRec.set d ALL = s.g_outputRec := by
                  rw [hs3]; exact set_self_of_getElem? hdALL
                have h5 := ih (dIndex + 1) b e _ s1 hnodup1
                  (by
                    intro d1 hd1
                    simp only [hs4]
                    exact hall d1 (by simp [hd1]))
                  h
                rw [h5]
                exact hs4
              · rw [if_neg hdl] at h
                cases h

/-- C16, output-record restoration: when a call of `bottom_up_cube` that was
entered with an output record holding ALL at every dimension whose position in
the dimension order is at or after the start index returns, the output record
is, cell for cell, the record on entry; the top-level call of a run returns
with the all-ALL record, and it does return on a valid dataset with a minimum
support of at least one and every cardinality at least -1 and below
`INT_MAX`. -/
theorem record_restoration (g_minsup : Int) (cardinalities : Tuple) (dim b e : Nat)
    (s s1 : State)
    (hall : ∀ d ∈ (order_dimensions cardinalities).drop dim, s.g_outputRec[d]? = some ALL)
    (hret : bottom_up_cube g_minsup (order_dimensions cardinalities) cardinalities dim b e s
      = .ok s1) :
    s1.g_outputRec = s.g_outputRec
      ∧ (∀ (input : TupleVector) (s2 : State), runCube input cardinalities g_minsup = .ok s2 →
          s2.g_outputRec = List.replicate cardinalities.length ALL)
      ∧ (∀ input : TupleVector, validDataset input cardinalities = true → 1 ≤ g_minsup →
          (∀ C ∈ cardinalities, -1 ≤ C ∧ C < 2147483647) →
          ∃ s2, runCube input cardinalities g_minsup = .ok s2
            ∧ s2.g_outputRec = List.replicate cardinalities.length ALL) := by
  have hgen : ∀ (dim1 b1 e1 : Nat) (st st1 : State),
      (∀ d ∈ (order_dimensions cardinalities).drop dim1, st.g_outputRec[d]? = some ALL) →
      bottom_up_cube g_minsup (order_dimensions cardinalities) cardinalities dim1 b1 e1 st
        = .ok st1 → st1.g_outputRec = st.g_outputRec := by
    intro dim1 b1 e1 st st1 hall1 hret1
    unfold bottom_up_cube at hret1
    split at hret1
    · cases hret1
    · have h := dimensionLoop_restores g_minsup (order_dimensions cardinalities) cardinalities
        _ dim1 b1 e1 (aggregateInput b1 e1 st) st1
        ((order_dimensions_nodup cardinalities).sublist (List.drop_sublist _ _))
        (by rw [aggregateInput_outputRec]; exact hall1) hret1
      rw [h, aggregateInput_outputRec]
  refine ⟨hgen dim b e s s1 hall hret, ?_, ?_⟩
  · intro input s2 hrun
    have h := hgen 0 0 input.length (initialState input cardinalities) s2
      (by
        intro d hd
        have hdlt := order_dimensions_lt cardinalities d (by simpa using hd)
        simp [initialState, hdlt])
      hrun
    rw [h]
    rfl
  · intro input hvalid hmin hcards
    obtain ⟨s2, hrun, _, hrec, _⟩ := runCube_ok input cardinalities g_minsup hvalid hmin
      (fun d C hC => hcards C (List.getElem?_mem hC))
    exact ⟨s2, hrun, hrec⟩

theorem record_restoration_witness :
    (∀ d ∈ (order_dimensions [1]).drop 0, (initialState [[1], [0]] [1]).g_outputRec[d]? = some ALL)
      ∧ bottom_up_cube 1 (order_dimensions [1]) [1] 0 0 2 (initialState [[1], [0]] [1])
        = .ok (State.mk [[0], [1]] [ALL]
            [([ALL], 2), ([Count.ofData 0], 1), ([Count.ofData 1], 1)] [("a", 2)])
      ∧ (State.mk [[0], [1]] [ALL]
            [([ALL], 2), ([Count.ofData 0], 1), ([Count.ofData 1], 1)] [("a", 2)]).g_outputRec
          = (initialState [[1], [0]] [1]).g_outputRec :=
  ⟨by decide, rfl,
    (record_restoration 1 [1] 0 0 2 (initialState [[1], [0]] [1])
      (State.mk [[0], [1]] [ALL]
        [([ALL], 2), ([Count.ofData 0], 1), ([Count.ofData 1], 1)] [("a", 2)])
      (by decide) rfl).1⟩

/-! ## The counts of every partition -/

theorem sum_set_succ : ∀ (dc : List Int) (i : Nat) (c : Int), dc[i]? = some c →
    (dc.set i (c + 1)).sum = dc.sum + 1
  | [], _, _, h => by simp at h
  | x :: dc, 0, c, h => by
    simp only [List.getElem?_cons_zero, Option.some.injEq] at h
    subst h
    simp only [List.set_cons_zero, List.sum_cons]
    omega
  | x :: dc, i + 1, c, h => by
    simp only [List.getElem?_cons_succ] at h
    simp only [List.set_cons_succ, List.sum_cons, sum_set_succ dc i c h]
    omega

/-- When the counting loop succeeds, the counts have grown by the number of
tuples and none is negative. -/
theorem countLoop_sum (d : Nat) (C : Int) :
    ∀ (ts : List Tuple) (dc dc1 : List Int), countLoop d C ts dc = some dc1 →
      (∀ c ∈ dc, 0 ≤ c) → (∀ c ∈ dc1, 0 ≤ c) ∧ dc1.sum = dc.sum + (ts.length : Int)
  | [], dc, dc1, h, hnn => by
    simp only [countLoop, Option.some.injEq] at h
    subst h
    exact ⟨hnn, by simp⟩
  | t :: ts, dc, dc1, h, hnn => by
    simp only [countLoop] at h
    cases hv : t[d]? with
    | none => rw [hv] at h; cases h
    | some data =>
      rw [hv] at h
      simp only [] at h
      split at h
      · cases h
      · split at h
        · cases h
        · cases hc : dc[data.toNat]? with
          | none => rw [hc] at h; cases h
          | some c =>
            rw [hc] at h
            simp only [] at h
            have hc0 : 0 ≤ c := hnn c (List.getElem?_mem hc)
            obtain ⟨h1, h2⟩ := countLoop_sum d C ts _ dc1 h (by
              intro x hx
              rcases List.mem_or_eq_of_mem_set hx with hx | hx
              · exact hnn x hx
              · omega)
            refine ⟨h1, ?_⟩
            rw [h2, sum_set_succ dc _ c hc]
            simp only [List.length_cons]
            push_cast
            omega

/-- When `partition_input` with zeroed counts returns, no count is negative
and the counts sum to the number of tuples of the range, which is at most
`end - begin`. -/
theorem partition_input_counts (b e d : Nat) (C : Int) (N : Nat) (s s1 : State)
    (dc : List Int)
    (h : partition_input b e d C (List.replicate N 0) s = .ok (s1, dc)) :
    (∀ c ∈ dc, 0 ≤ c) ∧ dc.sum ≤ (e : Int) - (b : Int) ∨ (∀ c ∈ dc, 0 ≤ c) ∧ e < b ∧ dc.sum = 0 := by
  unfold partition_input at h
  split at h
  · cases h
  · split at h
    · cases h
    · simp only [] at h
      cases hc : countLoop d C (stable_sort (tuple_less_than d) (slice s.input b e))
          (List.replicate N 0) with
      | none => rw [hc] at h; cases h
      | some dc1 =>
        rw [hc] at h
        simp only [Except.ok.injEq, Prod.mk.injEq] at h
        obtain ⟨h1, h2⟩ := countLoop_sum d C _ _ dc1 hc
          (fun c hc => by rw [(List.mem_replicate.1 hc).2])
        rw [h.2] at h1 h2
        have hsum0 : (List.replicate N (0 : Int)).sum = 0 := by simp
        rw [hsum0, (stable_sort_perm _ _).length_eq] at h2
        have hsl : (slice s.input b e).length ≤ e - b := by
          simp only [slice, List.length_take]
          omega
        by_cases hbe : b ≤ e
        · left
          refine ⟨h1, ?_⟩
          rw [h2]
          omega
        · right
          refine ⟨h1, by omega, ?_⟩
          rw [h2]
          have : e - b = 0 := by omega
          omega

/-! ## Two recursive calls that agree where the bucket loop calls them -/

/-- The bucket loop gives the same outcome with two recursive calls that
agree at every state in which the loop calls them, stated with an invariant
`J` of the loop. -/
theorem bucketLoop_congr (g_minsup : Int) (recur recur1 : Nat → Nat → State → Run) (d : Nat)
    (dataCount : List Int) (J : Nat → Nat → State → Prop)
    (hcall : ∀ (i k : Nat) (s : State) (c v : Int), J i k s → dataCount[i]? = some c →
      c ≥ g_minsup → d < s.g_outputRec.length →
      recur k (k + c.toNat) { s with g_outputRec := s.g_outputRec.set d (Count.ofData v) }
          = recur1 k (k + c.toNat)
              { s with g_outputRec := s.g_outputRec.set d (Count.ofData v) }
        ∧ ∀ s2, recur1 k (k + c.toNat)
              { s with g_outputRec := s.g_outputRec.set d (Count.ofData v) } = .ok s2 →
            J (i + 1) (k + c.toNat) s2)
    (hskip : ∀ (i k : Nat) (s : State) (c : Int), J i k s → dataCount[i]? = some c →
      ¬ c ≥ g_minsup → J (i + 1) (k + c.toNat) s) :
    ∀ (n i k : Nat) (s : State), J i k s →
      bucketLoop g_minsup recur d dataCount n i k s
        = bucketLoop g_minsup recur1 d dataCount n i k s := by
  intro n
  induction n with
  | zero => intro i k s _; rfl
  | succ n ih =>
    intro i k s hJ
    simp only [bucketLoop]
    cases hdc : dataCount[i]? with
    | none => rfl
    | some c =>
      simp only []
      by_cases hc : c ≥ g_minsup
      · rw [if_pos hc, if_pos hc]
        cases hk : s.input[k]? with
        | none => rfl
        | some t =>
          simp only []
          cases hv : t[d]? with
          | none => rfl
          | some v =>
            simp only [setOutputRec]
            by_cases hd : d < s.g_outputRec.length
            · rw [if_pos hd]
              simp only []
              obtain ⟨h1, h2⟩ := hcall i k s c v hJ hdc hc hd
              rw [h1]
              cases hr : recur1 k (k + c.toNat)
                  { s with g_outputRec := s.g_outputRec.set d (Count.ofData v) } with
              | error s2 => rfl
              | ok s2 =>
                simp only []
                exact ih (i + 1) (k + c.toNat) s2 (h2 s2 hr)
            · rw [if_neg hd]
      · rw [if_neg hc, if_neg hc]
        exact ih (i + 1) (k + c.toNat) s (hskip i k s c hJ hdc hc)

/-! ## The checks at the calls never fail -/

theorem drop_of_getElem? {l : List Nat} {i d : Nat} (h : l[i]? = some d) :
    l.drop i = d :: l.drop (i + 1) := by
  have hlt : i < l.length := (List.getElem?_eq_some_iff.1 h).1
  rw [List.drop_eq_getElem_cons hlt]
  congr 1
  exact (List.getElem?_eq_some_iff.1 h).2

/-- The record invariant at the entry of the recursive call for the bucket of
value `v` at dimension `d`. -/
theorem recordInv_call {g_dimensionIndices path : List Nat} {rec0 r : List Count}
    {d dIndex : Nat} (v : Int) (hget : g_dimensionIndices[dIndex]? = some d)
    (hnodup : g_dimensionIndices.Nodup)
    (hinv : RecordInv g_dimensionIndices dIndex path rec0)
    (hs : r.set d ALL = rec0.set d ALL) (hd : d < r.length) :
    RecordInv g_dimensionIndices (dIndex + 1) (d :: path) (r.set d (Count.ofData v)) := by
  have hdrop := drop_of_getElem? hget
  have hnd : (g_dimensionIndices.drop dIndex).Nodup := hnodup.sublist (List.drop_sublist _ _)
  rw [hdrop] at hnd
  obtain ⟨hdnot, _⟩ := List.nodup_cons.1 hnd
  constructor
  · intro i c hi
    by_cases hid : d = i
    · subst hid
      rw [List.getElem?_set_self hd] at hi
      cases hi
      simp [Count.ofData]
    · rw [List.getElem?_set_ne hid, getElem?_of_set_ALL hs hid] at hi
      rw [hinv.1 i c hi, List.mem_cons]
      constructor
      · intro h; exact Or.inr h
      · intro h
        rcases h with h | h
        · exact absurd h.symm hid
        · exact h
  · intro d1 hd1
    have hne : d ≠ d1 := fun h => hdnot (h ▸ hd1)
    rw [List.getElem?_set_ne hne, getElem?_of_set_ALL hs hne]
    exact hinv.2 d1 (by rw [hdrop]; simp [hd1])

/-- The number of concrete cells of a record whose concrete cells all lie at
dimensions of `path` is at most the length of `path`. -/
theorem countP_concrete_le : ∀ (r : List Count) (off : Nat) (path : List Nat),
    (∀ (i : Nat) (c : Count), r[i]? = some c → c.isAll = false → i + off ∈ path) →
    r.countP (fun c => !c.isAll) ≤ path.length
  | [], _, _, _ => by simp
  | c :: cs, off, path, h => by
    rw [List.countP_cons]
    by_cases hc : c.isAll = false
    · have hmem : off ∈ path := by
        have := h 0 c (by simp) hc
        simpa using this
      have ih := countP_concrete_le cs (off + 1) (path.erase off) (by
        intro i c1 hi hc1
        have h1 := h (i + 1) c1 (by simpa using hi) hc1
        have hne : i + (off + 1) ≠ off := by omega
        rw [List.mem_erase_of_ne hne]
        have he : i + 1 + off = i + (off + 1) := by omega
        rw [← he]
        exact h1)
      rw [List.length_erase_of_mem hmem] at ih
      have hpos : 0 < path.length := List.length_pos_of_mem hmem
      simp only [hc, Bool.not_false, if_true]
      omega
    · have hc1 : c.isAll = true := by simpa using hc
      have ih := countP_concrete_le cs (off + 1) path (by
        intro i c1 hi hc1
        have h1 := h (i + 1) c1 (by simpa using hi) hc1
        have he : i + 1 + off = i + (off + 1) := by omega
        rw [← he]
        exact h1)
      simp only [hc1, Bool.not_true]
      simpa using ih

/-- The executable record invariant holds when the propositional one does and
the path is no longer than the start index. -/
theorem recordInvariant_of {g_dimensionIndices path : List Nat} {dim : Nat} {r : List Count}
    (hinv : RecordInv g_dimensionIndices dim path r) (hlen : path.length ≤ dim) :
    recordInvariant g_dimensionIndices dim path r = true := by
  unfold recordInvariant
  simp only [Bool.and_eq_true, List.all_eq_true, decide_eq_true_eq]
  refine ⟨⟨?_, ?_⟩, ?_⟩
  · intro i _
    cases hi : r[i]? with
    | none => rfl
    | some c =>
      simp only []
      have h := hinv.1 i c hi
      by_cases hm : i ∈ path
      · have : c.isAll = false := h.2 hm
        simp [this, hm]
      · have : c.isAll = true := by
          cases hc : c.isAll with
          | true => rfl
          | false => exact absurd (h.1 hc) hm
        simp [this, hm]
  · intro d hd
    exact hinv.2 d hd
  · exact le_trans (countP_concrete_le r 0 path (fun i c hi hc => by
      simpa using (hinv.1 i c hi).1 hc)) hlen

/-- The record invariant can be read back from the executable check. -/
theorem recordInv_of_recordInvariant {g_dimensionIndices path : List Nat} {dim : Nat}
    {r : List Count} (h : recordInvariant g_dimensionIndices dim path r = true) :
    RecordInv g_dimensionIndices dim path r
      ∧ r.countP (fun c => !c.isAll) ≤ dim := by
  unfold recordInvariant at h
  simp only [Bool.and_eq_true, List.all_eq_true, decide_eq_true_eq] at h
  obtain ⟨⟨h1, h2⟩, h3⟩ := h
  refine ⟨⟨?_, h2⟩, h3⟩
  intro i c hi
  have hlt : i < r.length := (List.getElem?_eq_some_iff.1 hi).1
  have := h1 i (List.mem_range.2 hlt)
  rw [hi] at this
  simp only [beq_iff_eq] at this
  by_cases hm : i ∈ path
  · simp [hm] at this
    simp [this, hm]
  · simp [hm] at this
    simp [this, hm]

/-- The dimension loop with a check at each recursive call is the dimension
loop, for every check that holds whenever the start index of the call is at
most `n`, the path is no longer than the start index, the range of the call
lies in the range of the caller and, under the assumption `R` on the entry of
the loop, the record invariant holds at the entry of the call. -/
theorem dimensionLoopChecked_eq
    (chk : Nat → List Nat → Nat → Nat → Nat → Nat → List Count → Bool)
    (g_minsup : Int) (g_dimensionIndices : List Nat) (cardinalities : Tuple) (n : Nat)
    (R : Prop) (hnodup : R → g_dimensionIndices.Nodup)
    (hchk : ∀ (dim : Nat) (path : List Nat) (b e k e1 : Nat) (r : List Count), dim ≤ n →
      path.length ≤ dim → b ≤ k → k ≤ e1 → e1 ≤ e →
      (R → RecordInv g_dimensionIndices dim path r) → chk dim path b e k e1 r = true) :
    ∀ (rem dIndex : Nat) (path : List Nat) (b e : Nat) (s : State), dIndex + rem = n →
      path.length ≤ dIndex → b ≤ e →
      (R → RecordInv g_dimensionIndices dIndex path s.g_outputRec) →
      dimensionLoopChecked chk g_minsup g_dimensionIndices cardinalities rem dIndex path b e s
        = dimensionLoop g_minsup g_dimensionIndices cardinalities rem dIndex b e s := by
  intro rem
  induction rem with
  | zero =>
    intro dIndex path b e s _ _ _ _
    simp only [dimensionLoopChecked, dimensionLoop]
  | succ rem ih =>
    intro dIndex path b e s hn hlen hbe hinv
    simp only [dimensionLoopChecked, dimensionLoop]
    cases hget : g_dimensionIndices[dIndex]? with
    | none => rfl
    | some d =>
      simp only []
      have hdrop := drop_of_getElem? hget
      cases hC : cardinalities[d]? with
      | none => rfl
      | some C =>
        simp only []
        by_cases hneg : C + 1 < 0 ∨ 2147483647 < C + 1
        · rw [if_pos hneg, if_pos hneg]
        · rw [if_neg hneg, if_neg hneg]
          cases hp : partition_input b e d C (List.replicate (C + 1).toNat 0) s with
          | error s1 => rfl
          | ok r =>
            obtain ⟨s1, dc⟩ := r
            simp only []
            obtain ⟨_, hrec1⟩ := partition_input_returns b e d C _ s s1 dc hp
            have hcounts : (∀ c ∈ dc, 0 ≤ c) ∧ dc.sum ≤ (e : Int) - (b : Int) := by
              rcases partition_input_counts b e d C _ s s1 dc hp with h | h
              · exact h
              · omega
            obtain ⟨hnn, hsum⟩ := hcounts
            have hrestore : R → ∀ (k e1 : Nat) (st st1 : State),
                st.g_outputRec.set d ALL = s.g_outputRec.set d ALL →
                dimensionLoop g_minsup g_dimensionIndices cardinalities rem (dIndex + 1) k e1
                  (aggregateInput k e1 st) = .ok st1 →
                st1.g_outputRec = st.g_outputRec := by
              intro hR k e1 st st1 hst hrun
              have hnd : (g_dimensionIndices.drop dIndex).Nodup :=
                (hnodup hR).sublist (List.drop_sublist _ _)
              rw [hdrop] at hnd
              obtain ⟨hdnot, hnd1⟩ := List.nodup_cons.1 hnd
              have h1 := dimensionLoop_restores g_minsup g_dimensionIndices cardinalities rem
                (dIndex + 1) k e1 (aggregateInput k e1 st) st1 hnd1
                (by
                  intro d1 hd1
                  have hne : d ≠ d1 := fun h => hdnot (h ▸ hd1)
                  rw [aggregateInput_outputRec, getElem?_of_set_ALL hst hne]
                  exact (hinv hR).2 d1 (by rw [hdrop]; simp [hd1]))
                hrun
              rw [h1, aggregateInput_outputRec]
            have key := bucketLoop_congr g_minsup
              (fun k e1 st =>
                if chk (dIndex + 1) (d :: path) b e k e1 st.g_outputRec then
                  dimensionLoopChecked chk g_minsup g_dimensionIndices cardinalities rem
                    (dIndex + 1) (d :: path) k e1 (aggregateInput k e1 st)
                else .error st)
              (fun k e1 st => dimensionLoop g_minsup g_dimensionIndices cardinalities rem
                (dIndex + 1) k e1 (aggregateInput k e1 st))
              d dc
              (fun i k st => b ≤ k ∧ (k : Int) + (dc.drop i).sum ≤ (e : Int)
                ∧ (R → st.g_outputRec.set d ALL = s.g_outputRec.set d ALL))
              (by
                intro i k st c v hJ hdc hc hd
                obtain ⟨hbk, hke, hst⟩ := hJ
                have hc0 : 0 ≤ c := hnn c (List.getElem?_mem hdc)
                have hlt : i < dc.length := (List.getElem?_eq_some_iff.1 hdc).1
                have hdr : dc.drop i = c :: dc.drop (i + 1) := by
                  rw [List.drop_eq_getElem_cons hlt]
                  congr 1
                  exact (List.getElem?_eq_some_iff.1 hdc).2
                have hrest : 0 ≤ (dc.drop (i + 1)).sum :=
                  List.sum_nonneg (fun x hx => hnn x (List.mem_of_mem_drop hx))
                rw [hdr, List.sum_cons] at hke
                have hcn : ((c.toNat : Nat) : Int) = c := Int.toNat_of_nonneg hc0
                have hke1 : k + c.toNat ≤ e := by omega
                have hinv1 : R → RecordInv g_dimensionIndices (dIndex + 1) (d :: path)
                    (st.g_outputRec.set d (Count.ofData v)) :=
                  fun hR => recordInv_call v hget (hnodup hR) (hinv hR) (hst hR) hd
                constructor
                · beta_reduce
                  rw [if_pos (hchk (dIndex + 1) (d :: path) b e k (k + c.toNat) _ (by omega)
                    (by simp only [List.length_cons]; omega) hbk (by omega) hke1 hinv1)]
                  exact ih (dIndex + 1) (d :: path) k (k + c.toNat) _ (by omega)
                    (by simp only [List.length_cons]; omega) (by omega)
                    (by rw [aggregateInput_outputRec]; exact hinv1)
                · intro s2 hs2
                  refine ⟨by omega, by push_cast; omega, ?_⟩
                  intro hR
                  have h2 := hrestore hR k (k + c.toNat) _ s2
                    (by
                      show (st.g_outputRec.set d (Count.ofData v)).set d ALL = _
                      rw [List.set_set]; exact hst hR)
                    hs2
                  rw [h2]
                  show (st.g_outputRec.set d (Count.ofData v)).set d ALL = _
                  rw [List.set_set]
                  exact hst hR)
              (by
                intro i k st c hJ hdc _
                obtain ⟨hbk, hke, hst⟩ := hJ
                have hc0 : 0 ≤ c := hnn c (List.getElem?_mem hdc)
                have hlt : i < dc.length := (List.getElem?_eq_some_iff.1 hdc).1
                have hdr : dc.drop i = c :: dc.drop (i + 1) := by
                  rw [List.drop_eq_getElem_cons hlt]
                  congr 1
                  exact (List.getElem?_eq_some_iff.1 hdc).2
                rw [hdr, List.sum_cons] at hke
                have hcn : ((c.toNat : Nat) : Int) = c := Int.toNat_of_nonneg hc0
                exact ⟨by omega, by push_cast; omega, hst⟩)
              (C + 1).toNat 0 b s1
              ⟨le_refl b, by simp only [List.drop_zero]; omega, fun _ => by rw [hrec1]⟩
            rw [key]
            cases hb : bucketLoop g_minsup
                (fun k e1 st => dimensionLoop g_minsup g_dimensionIndices cardinalities rem
                  (dIndex + 1) k e1 (aggregateInput k e1 st)) d dc (C + 1).toNat 0 b s1 with
            | error s2 => rfl
            | ok s2 =>
              simp only [setOutputRec]
              by_cases hdl : d < s2.g_outputRec.length
              · rw [if_pos hdl]
                simp only []
                apply ih (dIndex + 1) path b e _ (by omega) (by omega) hbe
                intro hR
                have hs2 := bucketLoop_restores g_minsup _ d dc s.g_outputRec
                  (hrestore hR) (C + 1).toNat 0 b s1 s2 (by rw [hrec1]) hb
                have hdALL : s.g_outputRec[d]? = some ALL :=
                  (hinv hR).2 d (by rw [hdrop]; simp)
                have hs3 : s2.g_outputRec.set d ALL = s.g_outputRec := by
                  rw [hs2]; exact set_self_of_getElem? hdALL
                show RecordInv g_dimensionIndices (dIndex + 1) path (s2.g_outputRec.set d ALL)
                rw [hs3]
                exact ⟨(hinv hR).1, fun d1 hd1 => (hinv hR).2 d1 (by rw [hdrop]; simp [hd1])⟩
              · rw [if_neg hdl]

/-! ## The invariant of the output record -/

/-- C15, output-record invariant: in the run of `main` (all-ALL output record,
top-level call with start index 0, dimension order of `order_dimensions`),
for every dataset, cardinality vector and minimum support, the check
`recordInvariant` holds at the entry of every call of `bottom_up_cube`, which
is where the call makes its emission: a cell of the output record is concrete
exactly when its dimension was fixed by one of the enclosing calls, and a call
with start index `s` sees ALL at every dimension whose position in the
dimension order is at least `s` and at most `s` concrete cells.  It is stated
as: the run that stops at a call whose entry fails the check, before the
emission of that call, is the run without the check. -/
theorem output_record_invariant (input : TupleVector) (cardinalities : Tuple) (minsup : Int) :
    runCubeChecked
        (fun dim path _ _ _ _ outputRec =>
          recordInvariant (order_dimensions cardinalities) dim path outputRec)
        input cardinalities minsup
      = runCube input cardinalities minsup := by
  have hinit : RecordInv (order_dimensions cardinalities) 0 []
      (initialState input cardinalities).g_outputRec := by
    constructor
    · intro i c hi
      have hc : c = ALL := by
        have := List.getElem?_mem hi
        simp only [initialState] at this
        exact (List.mem_replicate.1 this).2
      subst hc
      simp [ALL]
    · intro d hd
      have hdlt := order_dimensions_lt cardinalities d (by simpa using hd)
      simp [initialState, hdlt]
  unfold runCubeChecked runCube bottom_up_cubeChecked bottom_up_cube
  have h0 : ¬ ¬ (0 ≤ cardinalities.length) := by simp
  have h1 : ¬ ¬ (recordInvariant (order_dimensions cardinalities) 0 []
      (initialState input cardinalities).g_outputRec = true) :=
    not_not.2 (recordInvariant_of hinit (by simp))
  simp only [if_neg h0, if_neg h1]
  exact dimensionLoopChecked_eq _ minsup (order_dimensions cardinalities) cardinalities
    cardinalities.length True (fun _ => order_dimensions_nodup cardinalities)
    (fun dim path _ _ _ _ r _ hlen _ _ _ hinv => recordInvariant_of (hinv trivial) hlen)
    (cardinalities.length - 0) 0 [] 0 input.length _ (by omega) (by simp) (by omega)
    (fun _ => by rw [aggregateInput_outputRec]; exact hinit)

/-! ## Termination -/

/-- C17, termination: `bottom_up_cube` is a total function of its arguments,
for every dataset, cardinality vector, minimum support and dimension order:
each call returns or stops at a fault, and it returns when the dataset is
valid, the cardinalities are not negative and below `INT_MAX`, and the minimum
support is at least one.  For a start index of at most the number of dimensions `n` and a range
`[b, e)`, every call of the recursion has a start index of at most `n`, is
nested in at most as many calls as its start index, hence at most `n`, and has
a range inside the range of its caller: the run that stops at a call that
fails this check is the run without the check.  The call made while position
`dIndex` is processed is `bottom_up_cube` with start index `dIndex + 1`, and a
call with start index `n` writes one pair and returns without a recursive
call. -/
theorem cube_termination (g_minsup : Int) (g_dimensionIndices : List Nat)
    (cardinalities : Tuple) (dim b e : Nat) (s : State)
    (hdim : dim ≤ cardinalities.length) (hbe : b ≤ e) :
    (∃ s1, bottom_up_cube g_minsup g_dimensionIndices cardinalities dim b e s = .ok s1
        ∨ bottom_up_cube g_minsup g_dimensionIndices cardinalities dim b e s = .error s1)
      ∧ bottom_up_cubeChecked
          (fun dim1 path b1 e1 k e2 _ => callInvariant cardinalities.length dim1 path b1 e1 k e2)
          g_minsup g_dimensionIndices cardinalities dim [] b e s
        = bottom_up_cube g_minsup g_dimensionIndices cardinalities dim b e s
      ∧ (∀ (rem dIndex k e1 : Nat) (st : State), dIndex + (rem + 1) = cardinalities.length →
          dimensionLoop g_minsup g_dimensionIndices cardinalities rem (dIndex + 1) k e1
              (aggregateInput k e1 st)
            = bottom_up_cube g_minsup g_dimensionIndices cardinalities (dIndex + 1) k e1 st)
      ∧ bottom_up_cube g_minsup g_dimensionIndices cardinalities cardinalities.length b e s
          = .ok (aggregateInput b e s)
      ∧ (aggregateInput b e s).outfile1 = s.outfile1 ++ [(s.g_outputRec, (e : Int) - (b : Int))]
      ∧ (validDataset s.input cardinalities = true →
          (∀ C ∈ cardinalities, 0 ≤ C ∧ C < 2147483647) →
          1 ≤ g_minsup → g_dimensionIndices.Perm (List.range cardinalities.length) →
          s.g_outputRec.length = cardinalities.length → e ≤ s.input.length →
          ∃ s1, bottom_up_cube g_minsup g_dimensionIndices cardinalities dim b e s = .ok s1) := by
  refine ⟨?_, ?_, ?_, ?_, ?_, ?_⟩
  · cases h : bottom_up_cube g_minsup g_dimensionIndices cardinalities dim b e s with
    | ok s1 => exact ⟨s1, Or.inl rfl⟩
    | error s1 => exact ⟨s1, Or.inr rfl⟩
  · unfold bottom_up_cubeChecked bottom_up_cube
    have h0 : ¬ ¬ (dim ≤ cardinalities.length) := not_not.2 hdim
    have h1 : ¬ ¬ (callInvariant cardinalities.length dim [] b e b e = true) :=
      not_not.2 (by simp [callInvariant, hdim, hbe])
    simp only [if_neg h0, if_neg h1]
    exact dimensionLoopChecked_eq _ g_minsup g_dimensionIndices cardinalities
      cardinalities.length False (fun h => h.elim)
      (fun dim1 path b1 e1 k e2 _ h1 h2 h3 h4 h5 _ => by
        simp [callInvariant, h1, h2, h3, h4, h5])
      (cardinalities.length - dim) dim [] b e _ (by omega) (by simp) hbe (fun h => h.elim)
  · intro rem dIndex k e1 st h
    exact recursive_call_eq g_minsup g_dimensionIndices cardinalities rem dIndex h k e1 st
  · unfold bottom_up_cube
    rw [if_neg (by simp), Nat.sub_self]
    simp only [dimensionLoop]
  · rw [aggregateInput_outfile1]
  · intro hvalid hcards hmin hperm hrec he
    exact (bottom_up_cube_frame g_minsup g_dimensionIndices cardinalities dim b e s hvalid
      hbe he).2.2 ⟨hmin, hdim, hperm, hrec, fun C hC => by have := hcards C hC; omega⟩

theorem cube_termination_witness :
    0 ≤ ([1] : Tuple).length ∧ 0 ≤ 2
      ∧ bottom_up_cubeChecked
          (fun dim1 path b1 e1 k e2 _ => callInvariant ([1] : Tuple).length dim1 path b1 e1 k e2)
          1 (order_dimensions [1]) [1] 0 [] 0 2 (initialState [[1], [0]] [1])
        = bottom_up_cube 1 (order_dimensions [1]) [1] 0 0 2 (initialState [[1], [0]] [1]) :=
  ⟨by decide, by decide,
    (cube_termination 1 (order_dimensions [1]) [1] 0 0 2 (initialState [[1], [0]] [1])
      (by decide) (by decide)).2.1⟩

/-- A call whose entry fails the check stops before its emission, which the
call without the check makes: the two outcomes differ, so a run with checks
that equals the run without them has passed the check at every call. -/
theorem failed_check_differs
    (chk : Nat → List Nat → Nat → Nat → Nat → Nat → List Count → Bool)
    (g_minsup : Int) (g_dimensionIndices : List Nat) (cardinalities : Tuple)
    (rem dIndex : Nat) (path : List Nat) (b e k e1 : Nat) (st : State)
    (h : chk dIndex path b e k e1 st.g_outputRec = false) :
    (if chk dIndex path b e k e1 st.g_outputRec then
        dimensionLoopChecked chk g_minsup g_dimensionIndices cardinalities rem dIndex path k e1
          (aggregateInput k e1 st)
      else .error st : Run)
      ≠ dimensionLoop g_minsup g_dimensionIndices cardinalities rem dIndex k e1
          (aggregateInput k e1 st) := by
  rw [h]
  intro heq
  obtain ⟨new, hnew, _⟩ := dimensionLoop_grows g_minsup g_dimensionIndices cardinalities rem
    dIndex k e1 (aggregateInput k e1 st)
  rw [← heq, aggregateInput_outfile1] at hnew
  have hlen := congrArg List.length hnew
  simp [Run.final] at hlen

/-! ## The engine with fault kinds is the engine -/

theorem countLoopKind_erase (d : Nat) (C : Int) :
    ∀ (ts : List Tuple) (dc : List Int),
      (countLoopKind d C ts dc).toOption = countLoop d C ts dc
  | [], dc => rfl
  | t :: ts, dc => by
    simp only [countLoopKind, countLoop]
    cases t[d]? with
    | none => rfl
    | some data =>
      simp only []
      by_cases h1 : data < 0
      · rw [if_pos h1, if_pos h1]; rfl
      · rw [if_neg h1, if_neg h1]
        by_cases h2 : ¬ (data < C + 1)
        · rw [if_pos h2, if_pos h2]; rfl
        · rw [if_neg h2, if_neg h2]
          cases dc[data.toNat]? with
          | none => rfl
          | some c => exact countLoopKind_erase d C ts _

theorem partition_inputKind_erase (b e d : Nat) (C : Int) (dataCount : List Int) (s : State) :
    eraseFault (partition_inputKind b e d C dataCount s) = partition_input b e d C dataCount s := by
  unfold partition_inputKind partition_input
  by_cases h1 : (dataCount.length : Int) ≠ C + 1
  · rw [if_pos h1, if_pos h1]; rfl
  · rw [if_neg h1, if_neg h1]
    by_cases h2 : ¬ (slice s.input b e).all (fun t => decide (d < t.length))
    · rw [if_pos h2, if_pos h2]; rfl
    · rw [if_neg h2, if_neg h2]
      simp only []
      rw [← countLoopKind_erase]
      cases countLoopKind d C (stable_sort (tuple_less_than d) (slice s.input b e)) dataCount with
      | error f => rfl
      | ok dc => rfl

theorem bucketLoopKind_erase (g_minsup : Int) (recurK : Nat → Nat → State → RunKind)
    (recur : Nat → Nat → State → Run) (d : Nat) (dataCount : List Int)
    (hrec : ∀ (k e : Nat) (st : State), eraseFault (recurK k e st) = recur k e st) :
    ∀ (n i k : Nat) (s : State),
      eraseFault (bucketLoopKind g_minsup recurK d dataCount n i k s)
        = bucketLoop g_minsup recur d dataCount n i k s := by
  intro n
  induction n with
  | zero => intro i k s; rfl
  | succ n ih =>
    intro i k s
    simp only [bucketLoopKind, bucketLoop]
    cases dataCount[i]? with
    | none => rfl
    | some c =>
      simp only []
      by_cases hc : c ≥ g_minsup
      · rw [if_pos hc, if_pos hc]
        cases s.input[k]? with
        | none => rfl
        | some t =>
          simp only []
          cases t[d]? with
          | none => rfl
          | some v =>
            simp only [setOutputRecKind, setOutputRec]
            by_cases hd : d < s.g_outputRec.length
            · rw [if_pos hd, if_pos hd]
              simp only []
              rw [← hrec]
              cases recurK k (k + c.toNat)
                  { s with g_outputRec := s.g_outputRec.set d (Count.ofData v) } with
              | error p => rfl
              | ok s2 =>
                simp only [eraseFault]
                exact ih (i + 1) (k + c.toNat) s2
            · rw [if_neg hd, if_neg hd]; rfl
      · rw [if_neg hc, if_neg hc]
        exact ih (i + 1) (k + c.toNat) s

theorem dimensionLoopKind_erase (g_minsup : Int) (g_dimensionIndices : List Nat)
    (cardinalities : Tuple) :
    ∀ (rem dIndex b e : Nat) (s : State),
      eraseFault (dimensionLoopKind g_minsup g_dimensionIndices cardinalities rem dIndex b e s)
        = dimensionLoop g_minsup g_dimensionIndices cardinalities rem dIndex b e s := by
  intro rem
  induction rem with
  | zero => intro dIndex b e s; rfl
  | succ rem ih =>
    intro dIndex b e s
    simp only [dimensionLoopKind, dimensionLoop]
    cases g_dimensionIndices[dIndex]? with
    | none => rfl
    | some d =>
      simp only []
      cases cardinalities[d]? with
      | none => rfl
      | some C =>
        simp only []
        by_cases hneg : C + 1 < 0 ∨ 2147483647 < C + 1
        · rw [if_pos hneg, if_pos hneg]; rfl
        · rw [if_neg hneg, if_neg hneg]
          rw [← partition_inputKind_erase]
          cases partition_inputKind b e d C (List.replicate (C + 1).toNat 0) s with
          | error p => rfl
          | ok r =>
            obtain ⟨s1, dc⟩ := r
            simp only [eraseFault]
            rw [← bucketLoopKind_erase g_minsup
              (fun k e1 st => dimensionLoopKind g_minsup g_dimensionIndices cardinalities rem
                (dIndex + 1) k e1 (aggregateInput k e1 st))
              (fun k e1 st => dimensionLoop g_minsup g_dimensionIndices cardinalities rem
                (dIndex + 1) k e1 (aggregateInput k e1 st))
              d dc (fun k e1 st => ih (dIndex + 1) k e1 (aggregateInput k e1 st))]
            cases bucketLoopKind g_minsup
                (fun k e1 st => dimensionLoopKind g_minsup g_dimensionIndices cardinalities rem
                  (dIndex + 1) k e1 (aggregateInput k e1 st)) d dc (C + 1).toNat 0 b s1 with
            | error p => rfl
            | ok s2 =>
              simp only [eraseFault, setOutputRecKind, setOutputRec]
              by_cases hd : d < s2.g_outputRec.length
              · rw [if_pos hd, if_pos hd]
                exact ih (dIndex + 1) b e _
              · rw [if_neg hd, if_neg hd]

theorem bottom_up_cubeKind_erase (g_minsup : Int) (g_dimensionIndices : List Nat)
    (cardinalities : Tuple) (dim b e : Nat) (s : State) :
    eraseFault (bottom_up_cubeKind g_minsup g_dimensionIndices cardinalities dim b e s)
      = bottom_up_cube g_minsup g_dimensionIndices cardinalities dim b e s := by
  unfold bottom_up_cubeKind bottom_up_cube
  by_cases h : ¬ (dim ≤ cardinalities.length)
  · rw [if_pos h, if_pos h]; rfl
  · rw [if_neg h, if_neg h]
    exact dimensionLoopKind_erase g_minsup g_dimensionIndices cardinalities _ dim b e _

theorem eraseFault_ok {α : Type} {r : Except (Fault × State) α} {a : α}
    (h : eraseFault r = .ok a) : r = .ok a := by
  cases r with
  | error p => obtain ⟨f, s⟩ := p; simp [eraseFault] at h
  | ok b => simp only [eraseFault, Except.ok.injEq] at h; rw [h]

/-! ## Under the precondition the only fault is a count vector that cannot be made -/

/-- The bucket loop on a partitioned range with a minimum support of at least
one: when it stops at a fault, the fault is one of the recursive calls. -/
theorem bucketLoopKind_safe (g_minsup : Int) (hmin : 1 ≤ g_minsup)
    (recurK : Nat → Nat → State → RunKind) (d : Nat) (L : List Tuple) (N : Nat)
    (Q : List Tuple) (len : Nat) (hL : ∀ t ∈ L, ∃ v, t[d]? = some v) (hd : d < len)
    (hrec : ∀ (v : Nat) (st st1 : State) (P1 Q1 : List Tuple), v < N →
      st.input = P1 ++ bucket d (v : Int) L ++ Q1 → st.g_outputRec.length = len →
      recurK P1.length (P1.length + (bucket d (v : Int) L).length) st = .ok st1 →
      (∃ L1, st1.input = P1 ++ L1 ++ Q1 ∧ L1.Perm (bucket d (v : Int) L))
        ∧ st1.g_outputRec.length = len)
    (hsafe : ∀ (v : Nat) (st : State) (P1 Q1 : List Tuple) (f : Fault) (st1 : State), v < N →
      st.input = P1 ++ bucket d (v : Int) L ++ Q1 → st.g_outputRec.length = len →
      recurK P1.length (P1.length + (bucket d (v : Int) L).length) st = .error (f, st1) →
      f = Fault.allocation) :
    ∀ (n i : Nat) (s : State) (P : List Tuple) (f : Fault) (s1 : State), i + n = N →
      s.input = P ++ (List.range' i n).flatMap (fun (v : Nat) => bucket d (v : Int) L) ++ Q →
      s.g_outputRec.length = len →
      bucketLoopKind g_minsup recurK d
          ((List.range N).map (fun (v : Nat) => ((bucket d (v : Int) L).length : Int)))
          n i P.length s = .error (f, s1) →
      f = Fault.allocation := by
  intro n
  induction n with
  | zero =>
    intro i s P f s1 _ _ _ h
    simp only [bucketLoopKind] at h
    cases h
  | succ n ih =>
    intro i s P f s1 hi hin hlen h
    have hiN : i < N := by omega
    have hcount : ((List.range N).map (fun (v : Nat) => ((bucket d (v : Int) L).length : Int)))[i]?
        = some ((bucket d (i : Int) L).length : Int) := by
      simp [List.getElem?_map, List.getElem?_range hiN]
    have hsplit : (List.range' i (n + 1)).flatMap (fun (v : Nat) => bucket d (v : Int) L)
        = bucket d (i : Int) L
          ++ (List.range' (i + 1) n).flatMap (fun (v : Nat) => bucket d (v : Int) L) := by
      simp [List.range'_succ]
    rw [hsplit] at hin
    generalize hR : (List.range' (i + 1) n).flatMap (fun (v : Nat) => bucket d (v : Int) L) = R
      at hin
    have ih1 := ih (i + 1)
    rw [hR] at ih1
    simp only [bucketLoopKind, hcount, Int.toNat_ofNat] at h
    by_cases hc : ((bucket d (i : Int) L).length : Int) ≥ g_minsup
    · rw [if_pos hc] at h
      obtain ⟨t, tl, htl⟩ : ∃ t tl, bucket d (i : Int) L = t :: tl := by
        cases hb : bucket d (i : Int) L with
        | nil => rw [hb] at hc; simp at hc; omega
        | cons t tl => exact ⟨t, tl, rfl⟩
      have htmem : t ∈ bucket d (i : Int) L := by rw [htl]; simp
      obtain ⟨v, hv⟩ := hL t (bucket_mem htmem).1
      have hk : s.input[P.length]? = some t := by
        rw [hin, htl, List.append_assoc, List.getElem?_append_right (Nat.le_refl _)]
        simp
      rw [hk] at h
      simp only [] at h
      rw [hv] at h
      simp only [setOutputRecKind] at h
      rw [if_pos (by omega)] at h
      simp only [] at h
      have hst : ({ s with g_outputRec := s.g_outputRec.set d (Count.ofData v) } : State).input
          = P ++ bucket d (i : Int) L ++ (R ++ Q) := by
        show s.input = _
        rw [hin]; simp [List.append_assoc]
      have hstlen : ({ s with g_outputRec := s.g_outputRec.set d (Count.ofData v) }
          : State).g_outputRec.length = len := by
        show (s.g_outputRec.set d (Count.ofData v)).length = len
        rw [List.length_set]; exact hlen
      cases hr : recurK P.length (P.length + (bucket d (i : Int) L).length)
          { s with g_outputRec := s.g_outputRec.set d (Count.ofData v) } with
      | error p =>
        rw [hr] at h
        simp only [Except.error.injEq] at h
        subst h
        exact hsafe i _ P (R ++ Q) f s1 hiN hst hstlen hr
      | ok s2 =>
        rw [hr] at h
        simp only [] at h
        obtain ⟨⟨L1, hin1, hperm1⟩, hlen1⟩ := hrec i _ s2 P (R ++ Q) hiN hst hstlen hr
        have hlenP : (P ++ L1).length = P.length + (bucket d (i : Int) L).length := by
          simp [hperm1.length_eq]
        have h2 := ih1 s2 (P ++ L1) f s1 (by omega) (by rw [hin1]; simp [List.append_assoc]) hlen1
        rw [hlenP] at h2
        exact h2 h
    · rw [if_neg hc] at h
      have hlenP : (P ++ bucket d (i : Int) L).length
          = P.length + (bucket d (i : Int) L).length := by simp
      have h2 := ih1 s (P ++ bucket d (i : Int) L) f s1 (by omega)
        (by rw [hin]; simp [List.append_assoc]) hlen
      rw [hlenP] at h2
      exact h2 h

/-- The dimension loop on a range of valid tuples, with a minimum support of
at least one and remaining positions of the dimension order that hold
dimensions of the output record and of the cardinality vector: when it stops
at a fault, the fault is a count vector that cannot be made. -/
theorem dimensionLoopKind_safe (g_minsup : Int) (hmin : 1 ≤ g_minsup)
    (g_dimensionIndices : List Nat) (cardinalities : Tuple) :
    ∀ (rem dIndex : Nat) (s : State) (P L Q : List Tuple) (f : Fault) (s1 : State),
      (∀ t ∈ L, validTuple t cardinalities = true) →
      s.input = P ++ L ++ Q →
      dIndex + rem = g_dimensionIndices.length →
      (∀ d ∈ g_dimensionIndices.drop dIndex,
        d < s.g_outputRec.length ∧ d < cardinalities.length) →
      dimensionLoopKind g_minsup g_dimensionIndices cardinalities rem dIndex
          P.length (P.length + L.length) s = .error (f, s1) →
      f = Fault.allocation := by
  intro rem
  induction rem with
  | zero =>
    intro dIndex s P L Q f s1 _ _ _ _ h
    simp only [dimensionLoopKind] at h
    cases h
  | succ rem ih =>
    intro dIndex s P L Q f s1 hvalid hin hlen hdims h
    simp only [dimensionLoopKind] at h
    obtain ⟨d, hget⟩ : ∃ d, g_dimensionIndices[dIndex]? = some d :=
      ⟨_, List.getElem?_eq_getElem (by omega)⟩
    have hdrop := drop_of_getElem? hget
    obtain ⟨hdlen, hdc⟩ := hdims d (by rw [hdrop]; simp)
    obtain ⟨C, hC⟩ : ∃ C, cardinalities[d]? = some C := ⟨_, List.getElem?_eq_getElem hdc⟩
    rw [hget] at h
    simp only [] at h
    rw [hC] at h
    simp only [] at h
    by_cases hneg : C + 1 < 0 ∨ 2147483647 < C + 1
    · rw [if_pos hneg] at h
      simp only [Except.error.injEq, Prod.mk.injEq] at h
      exact h.1.symm
    · rw [if_neg hneg] at h
      obtain ⟨N, hNdef⟩ : ∃ N : Nat, N = (C + 1).toNat := ⟨_, rfl⟩
      have hN : (N : Int) = C + 1 := by omega
      have hLd : ∀ t ∈ L, ∃ v, t[d]? = some v ∧ 0 ≤ v ∧ v ≤ C :=
        fun t ht => validTuple_get t cardinalities (hvalid t ht) d C hC
      have hpart := partition_input_ok d C N hN s P L Q hin hLd
      have hpartK := eraseFault_ok (by
        rw [partition_inputKind_erase]; exact hpart :
        eraseFault (partition_inputKind P.length (P.length + L.length) d C (List.replicate N 0) s)
          = .ok _)
      rw [← hNdef, hpartK] at h
      simp only [] at h
      have hbperm : ((List.range' 0 N).flatMap (fun (v : Nat) => bucket d (v : Int) L)).Perm L := by
        rw [← List.range_eq_range']
        exact buckets_perm d C N hN L hLd
      have hdims1 : ∀ (len : Nat), len = s.g_outputRec.length →
          ∀ d1 ∈ g_dimensionIndices.drop (dIndex + 1), d1 < len ∧ d1 < cardinalities.length := by
        intro len hl d1 hd1
        rw [hl]
        exact hdims d1 (by rw [hdrop]; simp [hd1])
      -- what a recursive call leaves when it returns
      have hcall : ∀ (v : Nat) (st st1 : State) (P1 Q1 : List Tuple),
          st.input = P1 ++ bucket d (v : Int) L ++ Q1 →
          dimensionLoopKind g_minsup g_dimensionIndices cardinalities rem (dIndex + 1)
              P1.length (P1.length + (bucket d (v : Int) L).length)
              (aggregateInput P1.length (P1.length + (bucket d (v : Int) L).length) st)
            = .ok st1 →
          (∃ L1, st1.input = P1 ++ L1 ++ Q1 ∧ L1.Perm (bucket d (v : Int) L))
            ∧ st1.g_outputRec.length = st.g_outputRec.length := by
        intro v st st1 P1 Q1 hst hrun
        have hplain := dimensionLoopKind_erase g_minsup g_dimensionIndices cardinalities rem
          (dIndex + 1) P1.length (P1.length + (bucket d (v : Int) L).length)
          (aggregateInput P1.length (P1.length + (bucket d (v : Int) L).length) st)
        rw [hrun] at hplain
        have hfr := dimensionLoop_frame g_minsup g_dimensionIndices cardinalities rem
          (dIndex + 1)
          (aggregateInput P1.length (P1.length + (bucket d (v : Int) L).length) st)
          P1 (bucket d (v : Int) L) Q1
          (fun t ht => hvalid t (bucket_mem ht).1)
          (by rw [aggregateInput_input]; exact hst)
        rw [← hplain] at hfr
        obtain ⟨h1, h2, _⟩ := hfr
        simp only [eraseFault, Run.final] at h1 h2
        rw [aggregateInput_outputRec] at h2
        exact ⟨h1, h2⟩
      cases hb : bucketLoopKind g_minsup
          (fun k e st => dimensionLoopKind g_minsup g_dimensionIndices cardinalities rem
            (dIndex + 1) k e (aggregateInput k e st)) d
          ((List.range N).map (fun (v : Nat) => ((bucket d (v : Int) L).length : Int))) N 0
          P.length
          { s with input := P ++ (List.range N).flatMap (fun (v : Nat) => bucket d (v : Int) L) ++ Q } with
      | error p =>
        rw [hb] at h
        simp only [Except.error.injEq] at h
        subst h
        exact bucketLoopKind_safe g_minsup hmin
          (fun k e st => dimensionLoopKind g_minsup g_dimensionIndices cardinalities rem
            (dIndex + 1) k e (aggregateInput k e st))
          d L N Q s.g_outputRec.length
          (fun t ht => by obtain ⟨v, hv, _⟩ := hLd t ht; exact ⟨v, hv⟩) hdlen
          (by
            intro v st st1 P1 Q1 _ hst hstlen hrun
            obtain ⟨h1, h2⟩ := hcall v st st1 P1 Q1 hst hrun
            exact ⟨h1, by rw [h2, hstlen]⟩)
          (by
            intro v st P1 Q1 f1 st1 _ hst hstlen hrun
            exact ih (dIndex + 1) _ P1 (bucket d (v : Int) L) Q1 f1 st1
              (fun t ht => hvalid t (bucket_mem ht).1)
              (by rw [aggregateInput_input]; exact hst) (by omega)
              (by rw [aggregateInput_outputRec]; exact hdims1 _ hstlen)
              hrun)
          N 0
          { s with input := P ++ (List.range N).flatMap (fun (v : Nat) => bucket d (v : Int) L) ++ Q }
          P f s1 (by omega) (by simp [List.range_eq_range']) rfl hb
      | ok s2 =>
        rw [hb] at h
        simp only [setOutputRecKind] at h
        -- the state the bucket loop returns
        have hplain := bucketLoopKind_erase g_minsup
          (fun k e st => dimensionLoopKind g_minsup g_dimensionIndices cardinalities rem
            (dIndex + 1) k e (aggregateInput k e st))
          (fun k e st => dimensionLoop g_minsup g_dimensionIndices cardinalities rem
            (dIndex + 1) k e (aggregateInput k e st))
          d ((List.range N).map (fun (v : Nat) => ((bucket d (v : Int) L).length : Int)))
          (fun k e st => dimensionLoopKind_erase g_minsup g_dimensionIndices cardinalities rem
            (dIndex + 1) k e (aggregateInput k e st))
          N 0 P.length
          { s with input := P ++ (List.range N).flatMap (fun (v : Nat) => bucket d (v : Int) L) ++ Q }
        rw [hb] at hplain
        have hloop := bucketLoop_frame g_minsup
          (fun k e st => dimensionLoop g_minsup g_dimensionIndices cardinalities rem
            (dIndex + 1) k e (aggregateInput k e st))
          d L N Q (fun _ => False)
          (fun t ht => by obtain ⟨v, hv, _⟩ := hLd t ht; exact ⟨v, hv⟩)
          (by
            intro v st P1 Q1 _ hst
            have hfr := dimensionLoop_frame g_minsup g_dimensionIndices cardinalities rem
              (dIndex + 1)
              (aggregateInput P1.length (P1.length + (bucket d (v : Int) L).length) st)
              P1 (bucket d (v : Int) L) Q1
              (fun t ht => hvalid t (bucket_mem ht).1)
              (by rw [aggregateInput_input]; exact hst)
            rw [aggregateInput_outputRec] at hfr
            exact ⟨hfr.1, hfr.2.1, fun hf => hf.elim⟩)
          N 0
          { s with input := P ++ (List.range N).flatMap (fun (v : Nat) => bucket d (v : Int) L) ++ Q }
          P (by omega) (by simp [List.range_eq_range'])
        rw [← hplain] at hloop
        obtain ⟨⟨D, hinD, hpermD⟩, hlenD, _⟩ := hloop
        simp only [eraseFault, Run.final] at hinD hlenD
        have hDL : D.Perm L := hpermD.trans hbperm
        rw [if_pos (by rw [hlenD]; exact hdlen)] at h
        simp only [] at h
        have h3 := ih (dIndex + 1) { s2 with g_outputRec := s2.g_outputRec.set d ALL } P D Q f s1
          (fun t ht => hvalid t ((List.Perm.mem_iff hDL).1 ht)) hinD (by omega)
          (by
            show ∀ d1 ∈ g_dimensionIndices.drop (dIndex + 1),
              d1 < (s2.g_outputRec.set d ALL).length ∧ d1 < cardinalities.length
            rw [List.length_set]
            exact hdims1 _ hlenD)
        rw [hDL.length_eq] at h3
        exact h3 h

/-- A call of `bottom_up_cube` on a range of a valid dataset, with a minimum
support of at least one, a start index of at most the number of dimensions, a
dimension order that is a permutation of the dimension indices and an output
record of one cell per dimension: when it stops at a fault, the fault is a
count vector that cannot be made. -/
theorem bottom_up_cubeKind_safe (g_minsup : Int) (g_dimensionIndices : List Nat)
    (cardinalities : Tuple) (dim b e : Nat) (s : State)
    (hvalid : validDataset s.input cardinalities = true)
    (hperm : g_dimensionIndices.Perm (List.range cardinalities.length))
    (hrec : s.g_outputRec.length = cardinalities.length) (hmin : 1 ≤ g_minsup)
    (hdim : dim ≤ cardinalities.length) (hbe : b ≤ e) (he : e ≤ s.input.length)
    (f : Fault) (s1 : State)
    (h : bottom_up_cubeKind g_minsup g_dimensionIndices cardinalities dim b e s
      = .error (f, s1)) :
    f = Fault.allocation := by
  obtain ⟨hsplit, hP, hL⟩ := split_range s.input b e hbe he
  unfold bottom_up_cubeKind at h
  rw [if_neg (by simpa using hdim)] at h
  have hglen : g_dimensionIndices.length = cardinalities.length := by
    simpa using hperm.length_eq
  have h1 := dimensionLoopKind_safe g_minsup hmin g_dimensionIndices cardinalities
    (cardinalities.length - dim) dim (aggregateInput b e s) (s.input.take b)
    (slice s.input b e) (s.input.drop e) f s1
    (fun t ht => validDataset_mem hvalid t (by rw [hsplit]; simp [ht]))
    (by rw [aggregateInput_input]; exact hsplit)
    (by omega)
    (by
      intro d hd
      have hdlt : d < cardinalities.length :=
        List.mem_range.1 ((List.Perm.mem_iff hperm).1 (List.mem_of_mem_drop hd))
      rw [aggregateInput_outputRec, hrec]
      exact ⟨hdlt, hdlt⟩)
  rw [hP, hL] at h1
  have hbe2 : b + (e - b) = e := by omega
  rw [hbe2] at h1
  exact h1 h

/-- At the cardinality `INT_MAX` the call stops at the count vector, and the
fault is recorded as one of allocation. -/
theorem allocation_fault_at_int_max :
    bottom_up_cubeKind 1 (order_dimensions [2147483647]) [2147483647] 0 0 1
        (initialState [[0]] [2147483647])
      = .error (Fault.allocation, State.mk [[0]] [ALL] [([ALL], 1)] []) :=
  rfl

/-- C18, no out-of-range access under the precondition: if every tuple has one
value per dimension, each in `[0, cardinality[d]]`, the dimension order is a
permutation of the dimension indices, the output record has one cell per
dimension and the minimum support is at least one, then during a call of
`bottom_up_cube` with a start index of at most the number of dimensions on a
range of the dataset no assertion fails and no index or iterator access is out
of range.  The engine that records the kind of each fault is the engine, and
when it stops, it is at a count vector `dataCount(C+1)` that cannot be made,
never at an assertion or an access; the call returns when every cardinality is
at least -1 and below `INT_MAX`.  For every partition of a range of valid
values the count vector has `C + 1` slots, the running iterator is strictly
before the end of the range when a bucket that is not empty is entered, the
sub-range of the bucket ends at or before the end of the range, and the
iterator is at the end of the range after the last bucket. -/
theorem no_out_of_range (g_minsup : Int) (g_dimensionIndices : List Nat)
    (cardinalities : Tuple) (dim b e : Nat) (s : State)
    (hvalid : validDataset s.input cardinalities = true)
    (hperm : g_dimensionIndices.Perm (List.range cardinalities.length))
    (hrec : s.g_outputRec.length = cardinalities.length) (hmin : 1 ≤ g_minsup)
    (hdim : dim ≤ cardinalities.length) (hbe : b ≤ e) (he : e ≤ s.input.length) :
    eraseFault (bottom_up_cubeKind g_minsup g_dimensionIndices cardinalities dim b e s)
        = bottom_up_cube g_minsup g_dimensionIndices cardinalities dim b e s
      ∧ (∀ (f : Fault) (s1 : State),
          bottom_up_cubeKind g_minsup g_dimensionIndices cardinalities dim b e s
            = .error (f, s1) → f = Fault.allocation)
      ∧ ((∀ C ∈ cardinalities, -1 ≤ C ∧ C < 2147483647) →
          ∃ s1, bottom_up_cube g_minsup g_dimensionIndices cardinalities dim b e s = .ok s1)
      ∧ ∀ (st : State) (b1 e1 d : Nat) (C : Int), b1 ≤ e1 → e1 ≤ st.input.length →
          (∀ t ∈ slice st.input b1 e1, ∃ v, t[d]? = some v ∧ 0 ≤ v ∧ v ≤ C) → -1 ≤ C →
          ∃ s1 dc, partition_input b1 e1 d C (List.replicate (C + 1).toNat 0) st = .ok (s1, dc)
            ∧ (dc.length : Int) = C + 1
            ∧ (∀ i : Nat, (i : Int) ≤ C →
                b1 + ((dc.take (i + 1)).sum).toNat ≤ e1
                  ∧ b1 + ((dc.take (i + 1)).sum).toNat
                      = b1 + ((dc.take i).sum).toNat + (dc.getD i 0).toNat
                  ∧ (1 ≤ dc.getD i 0 → b1 + ((dc.take i).sum).toNat < e1))
            ∧ b1 + (dc.sum).toNat = e1 := by
  refine ⟨bottom_up_cubeKind_erase g_minsup g_dimensionIndices cardinalities dim b e s, ?_, ?_, ?_⟩
  · intro f s1 h
    exact bottom_up_cubeKind_safe g_minsup g_dimensionIndices cardinalities dim b e s hvalid
      hperm hrec hmin hdim hbe he f s1 h
  · intro hcards
    exact (bottom_up_cube_frame g_minsup g_dimensionIndices cardinalities dim b e s hvalid
      hbe he).2.2 ⟨hmin, hdim, hperm, hrec, hcards⟩
  · intro st b1 e1 d C hbe1 he1 hvals hC
    exact partition_input_iterator st b1 e1 d C _ hbe1 he1 hvals
      (by simp; omega) (fun c hc => (List.mem_replicate.1 hc).2)

theorem no_out_of_range_witness :
    validDataset (initialState [[1, 1], [1, 0], [0, 1], [0, 0]] [1, 1]).input [1, 1] = true
      ∧ (order_dimensions [1, 1]).Perm (List.range ([1, 1] : Tuple).length)
      ∧ (initialState [[1, 1], [1, 0], [0, 1], [0, 0]] [1, 1]).g_outputRec.length
          = ([1, 1] : Tuple).length
      ∧ (1 : Int) ≤ 1 ∧ 0 ≤ ([1, 1] : Tuple).length ∧ 1 ≤ 4
      ∧ 4 ≤ (initialState [[1, 1], [1, 0], [0, 1], [0, 0]] [1, 1]).input.length
      ∧ (∀ (f : Fault) (s1 : State),
          bottom_up_cubeKind 1 (order_dimensions [1, 1]) [1, 1] 0 1 4
              (initialState [[1, 1], [1, 0], [0, 1], [0, 0]] [1, 1]) = .error (f, s1) →
            f = Fault.allocation)
      ∧ ∃ s1, bottom_up_cube 1 (order_dimensions [1, 1]) [1, 1] 0 1 4
          (initialState [[1, 1], [1, 0], [0, 1], [0, 0]] [1, 1]) = .ok s1 :=
  ⟨by decide, by decide, by decide, by decide, by decide, by decide, by decide,
    (no_out_of_range 1 (order_dimensions [1, 1]) [1, 1] 0 1 4
      (initialState [[1, 1], [1, 0], [0, 1], [0, 0]] [1, 1]) (by decide) (by decide)
      (by decide) (by decide) (by decide) (by decide) (by decide)).2.1,
    (no_out_of_range 1 (order_dimensions [1, 1]) [1, 1] 0 1 4
      (initialState [[1, 1], [1, 0], [0, 1], [0, 0]] [1, 1]) (by decide) (by decide)
      (by decide) (by decide) (by decide) (by decide) (by decide)).2.2.1 (by decide)⟩

end Bucko
